import Mathlib

/-!
Verification of the markdown-to-safe-HTML rendering pipeline, the streaming
consumer, and the session store of a single-page chat client.

The renderer (`parseMarkdown`, `escapeHTML`), the history/settings loaders,
the chat-deletion helper, the title derivation and the submit/regenerate
controllers are shallowly embedded from the TypeScript source.  Strings are
modelled as `List Char`; each JavaScript `String.prototype.replace` with a
global regex is embedded as a left-to-right scanner that, at every position,
first tries the pattern (with the exact greedy/lazy semantics of the regex
in the source) and on failure emits one character and advances, which is the
semantics of a global-regex replace.
-/

set_option maxHeartbeats 1000000

namespace ChatApp

/-- JS `\w` character class: `[A-Za-z0-9_]`. -/
def isWordChar (c : Char) : Bool := c.isAlphanum || c = '_'

/-- JS `\d` character class: `[0-9]`. -/
def isDigitChar (c : Char) : Bool := c.isDigit

/-- JS `.` in a regex without the `s` flag: any character except a line
terminator (`\n`, `\r`, U+2028, U+2029). -/
def isDotChar (c : Char) : Bool :=
  !(c = '\n' || c = '\r' || c = '\u2028' || c = '\u2029')

/-- One global single-character replace, `s.replace(/c/g, r)`. -/
def replaceChar (c : Char) (r : List Char) (s : List Char) : List Char :=
  s.flatMap (fun x => if x = c then r else [x])

/-- `escapeHTML`: `html.replace(/</g, '&lt;').replace(/>/g, '&gt;')`. -/
def escapeHTML (s : List Char) : List Char :=
  replaceChar '>' "&gt;".toList (replaceChar '<' "&lt;".toList s)

/-- JS `String.prototype.trim`, modelling its whitespace set by
`Char.isWhitespace`. -/
def jsTrim (s : List Char) : List Char :=
  ((s.dropWhile Char.isWhitespace).reverse.dropWhile Char.isWhitespace).reverse

/-- Fuel-driven base-10 digit expansion; `fuel` bounds the number of digits
(any `fuel` with `n < 10 ^ fuel` is enough). -/
def natDigitsF : Nat → Nat → List Char
  | 0, _ => []
  | fuel + 1, n =>
      if n < 10 then [Nat.digitChar n]
      else natDigitsF fuel (n / 10) ++ [Nat.digitChar (n % 10)]

/-- Decimal digits of a natural number, modelling the string interpolation
`${placeholders.length - 1}` (JS number-to-string conversion). -/
def natDigits (n : Nat) : List Char := natDigitsF (n + 1) n

/-- JS `parseInt(d, 10)` on a nonempty all-digit string. -/
def parseDigits (ds : List Char) : Nat :=
  ds.foldl (fun a c => 10 * a + (c.toNat - 48)) 0

/-- The placeholder token `__CODEBLOCK_${i}__`. -/
def tok (i : Nat) : List Char :=
  "__CODEBLOCK_".toList ++ natDigits i ++ "__".toList

/-- The code-block markup built for one fence match:
`<pre><code class="language-${lang || 'plaintext'} hljs">${escapedCode}</code></pre>`
where `escapedCode = escapeHTML(code.trim())`. -/
def codeMarkup (lang body : List Char) : List Char :=
  "<pre><code class=\"language-".toList ++
    (if lang.isEmpty then "plaintext".toList else lang) ++
    " hljs\">".toList ++ escapeHTML (jsTrim body) ++ "</code></pre>".toList

/-- Split a text at the first occurrence of a triple backtick: the lazy
`([\s\S]*?)` of the fence regex followed by the closing ``` ``` ``` takes the
shortest body, i.e. everything before the first subsequent triple backtick. -/
def splitTicks : List Char → Option (List Char × List Char)
  | [] => none
  | c :: rest =>
      if "```".toList.isPrefixOf (c :: rest) then some ([], rest.drop 2)
      else
        match splitTicks rest with
        | some (b, a) => some (c :: b, a)
        | none => none

/-- Try the fence regex ``/```(\w*)\n([\s\S]*?)```/`` at the head of `s`:
three backticks, a greedy run of word characters (the language tag), a
newline, then the lazy body up to the next triple backtick.  Returns
`(lang, body, rest)`. -/
def matchFenceAt (s : List Char) : Option (List Char × List Char × List Char) :=
  if "```".toList.isPrefixOf s then
    if ((s.drop 3).dropWhile isWordChar).head? = some '\n' then
      match splitTicks (((s.drop 3).dropWhile isWordChar).drop 1) with
      | some (body, rest) => some ((s.drop 3).takeWhile isWordChar, body, rest)
      | none => none
    else none
  else none

/-- Lazy search for the closing `**` of `/\*\*(.*?)\*\*/`: at each position
first try to close, else extend the group by one `.`-matching character. -/
def findCloseBold : List Char → Option (List Char × List Char)
  | [] => none
  | c :: rest =>
      if "**".toList.isPrefixOf (c :: rest) then some ([], rest.drop 1)
      else if isDotChar c then
        match findCloseBold rest with
        | some (g, r) => some (c :: g, r)
        | none => none
      else none

/-- Try `/\*\*(.*?)\*\*/` at the head; replacement `<strong>$1</strong>`. -/
def matchBoldAt (s : List Char) : Option (List Char × List Char) :=
  if "**".toList.isPrefixOf s then
    match findCloseBold (s.drop 2) with
    | some (g, r) => some ("<strong>".toList ++ g ++ "</strong>".toList, r)
    | none => none
  else none

/-- Lazy search for the closing `*` of `/\*(.*?)\*/`. -/
def findCloseItalic : List Char → Option (List Char × List Char)
  | [] => none
  | c :: rest =>
      if c = '*' then some ([], rest)
      else if isDotChar c then
        match findCloseItalic rest with
        | some (g, r) => some (c :: g, r)
        | none => none
      else none

/-- Try `/\*(.*?)\*/` at the head; replacement `<em>$1</em>`. -/
def matchItalicAt (s : List Char) : Option (List Char × List Char) :=
  if s.head? = some '*' then
    match findCloseItalic (s.drop 1) with
    | some (g, r) => some ("<em>".toList ++ g ++ "</em>".toList, r)
    | none => none
  else none

/-- Try ``/`([^`]+)`/`` at the head; replacement `<code>$1</code>`.  The
character class `[^`]+` takes everything up to the first backtick and the
match requires that closing backtick to exist. -/
def matchCodeTickAt (s : List Char) : Option (List Char × List Char) :=
  if s.head? = some '`' then
    if ((s.drop 1).takeWhile (fun c => !(c = '`'))).isEmpty then none
    else
      if ((s.drop 1).dropWhile (fun c => !(c = '`'))).head? = some '`' then
        some ("<code>".toList ++ (s.drop 1).takeWhile (fun c => !(c = '`')) ++
                "</code>".toList,
              ((s.drop 1).dropWhile (fun c => !(c = '`'))).drop 1)
      else none
  else none

/-- Try `/\[([^\]]+)\]\(([^)]+)\)/` at the head; replacement
`<a href="$2" target="_blank" rel="noopener noreferrer">$1</a>`. -/
def matchLinkAt (s : List Char) : Option (List Char × List Char) :=
  if s.head? = some '[' then
    if ((s.drop 1).takeWhile (fun c => !(c = ']'))).isEmpty then none
    else
      if "](".toList.isPrefixOf ((s.drop 1).dropWhile (fun c => !(c = ']'))) then
        if ((((s.drop 1).dropWhile (fun c => !(c = ']'))).drop 2).takeWhile
              (fun c => !(c = ')'))).isEmpty then none
        else
          if ((((s.drop 1).dropWhile (fun c => !(c = ']'))).drop 2).dropWhile
                (fun c => !(c = ')'))).head? = some ')' then
            some ("<a href=\"".toList ++
                    (((s.drop 1).dropWhile (fun c => !(c = ']'))).drop 2).takeWhile
                      (fun c => !(c = ')')) ++
                    "\" target=\"_blank\" rel=\"noopener noreferrer\">".toList ++
                    (s.drop 1).takeWhile (fun c => !(c = ']')) ++ "</a>".toList,
                  ((((s.drop 1).dropWhile (fun c => !(c = ']'))).drop 2).dropWhile
                    (fun c => !(c = ')'))).drop 1)
          else none
      else none
  else none

/-- Try `/__CODEBLOCK_(\d+)__/` at the head; the replacement is
`placeholders[parseInt(index, 10)]`, which is the string `"undefined"` when
the index is out of range. -/
def matchRestoreAt (ps : List (List Char)) (s : List Char) :
    Option (List Char × List Char) :=
  if "__CODEBLOCK_".toList.isPrefixOf s then
    if ((s.drop 12).takeWhile isDigitChar).isEmpty then none
    else
      if "__".toList.isPrefixOf ((s.drop 12).dropWhile isDigitChar) then
        some (ps.getD (parseDigits ((s.drop 12).takeWhile isDigitChar))
                "undefined".toList,
              ((s.drop 12).dropWhile isDigitChar).drop 2)
      else none
  else none

/-- Generic left-to-right global-replace scanner: at each position try the
matcher; on a match emit its replacement and continue after the consumed
region, otherwise emit one character and advance.  `fuel` makes the
recursion structural; any `fuel ≥ s.length` gives the untruncated scan,
because every matcher consumes at least one character. -/
def scanRep (m : List Char → Option (List Char × List Char)) :
    Nat → List Char → List Char
  | 0, s => s
  | _ + 1, [] => []
  | fuel + 1, c :: t =>
      match m (c :: t) with
      | some (g, r) => g ++ scanRep m fuel r
      | none => c :: scanRep m fuel t

/-- The scanner run with enough fuel for its input. -/
def scan (m : List Char → Option (List Char × List Char)) (s : List Char) :
    List Char :=
  scanRep m s.length s

/-- Step 1 of `parseMarkdown`: the global fence replace.  Each match's body
is escaped, wrapped in the code-block markup, pushed onto `placeholders`,
and replaced in the text by `__CODEBLOCK_${placeholders.length - 1}__`.
Returns the residual text and the accumulated placeholder list.  `fuel`
makes the recursion structural; any `fuel ≥ s.length` is enough. -/
def extractFencesF : Nat → List Char → List (List Char) →
    List Char × List (List Char)
  | 0, s, acc => (s, acc)
  | fuel + 1, s, acc =>
      match matchFenceAt s with
      | some (lang, body, rest) =>
          (tok acc.length ++
             (extractFencesF fuel rest (acc ++ [codeMarkup lang body])).1,
           (extractFencesF fuel rest (acc ++ [codeMarkup lang body])).2)
      | none =>
          match s with
          | [] => ([], acc)
          | c :: t => (c :: (extractFencesF fuel t acc).1, (extractFencesF fuel t acc).2)

/-- The fence extraction run with enough fuel for its input. -/
def extractFences (s : List Char) (acc : List (List Char)) :
    List Char × List (List Char) :=
  extractFencesF s.length s acc

/-- `parseMarkdown` from the source: (1) extract fenced code blocks into
placeholders, (2) escape the rest, (3) bold, italic, inline code and link
transforms in that order, (4) restore the placeholders. -/
def parseMarkdown (text : String) : String :=
  String.mk
    (scan (matchRestoreAt (extractFences text.toList []).2)
      (scan matchLinkAt
        (scan matchCodeTickAt
          (scan matchItalicAt
            (scan matchBoldAt
              (escapeHTML (extractFences text.toList []).1))))))

/-- The `parseMarkdown` variant of `src/index.tsx`: escape first, then the
fence replace applied directly on the escaped text (no placeholders, body
not re-escaped), then bold, italic and inline code (no links). -/
def matchFenceDirectAt (s : List Char) : Option (List Char × List Char) :=
  match matchFenceAt s with
  | some (lang, body, rest) =>
      some ("<pre><code class=\"language-".toList ++
              (if lang.isEmpty then "plaintext".toList else lang) ++
              " hljs\">".toList ++ jsTrim body ++ "</code></pre>".toList,
            rest)
  | none => none

/-- `parseMarkdown` as defined in `src/index.tsx` (the older variant). -/
def parseMarkdownIndex (text : String) : String :=
  String.mk
    (scan matchCodeTickAt
      (scan matchItalicAt
        (scan matchBoldAt
          (scan matchFenceDirectAt (escapeHTML text.toList)))))

/-! ## Chain decompositions for the placeholder analysis -/

/-- The placeholder stem `__CODEBLOCK_`: the part of every placeholder
token that precedes the index digits, and the trigger prefix of the
restore regex. -/
def cbPat : List Char := "__CODEBLOCK_".toList

/-- A text is collision-free when the placeholder stem never occurs in
it, so the restore regex cannot start a match inside it. -/
def PatFree (w : List Char) : Prop := ¬ cbPat <:+: w

/-- The string of an alternating block/segment list: each item `(n, w)`
contributes the placeholder token `tok n` followed by the plain segment
`w`. -/
def blocksStr : List (Nat × List Char) → List Char
  | [] => []
  | (n, w) :: items => tok n ++ (w ++ blocksStr items)

/-- All segments of an alternating block/segment list are
collision-free. -/
def blocksOk : List (Nat × List Char) → Prop
  | [] => True
  | (_, w) :: items => PatFree w ∧ blocksOk items

/-- What the restore scan turns an alternating block/segment list into:
each token is replaced by the corresponding placeholder entry (or
`"undefined"` out of range) and the segments survive verbatim. -/
def restoreBlocks (ps : List (List Char)) :
    List (Nat × List Char) → List Char
  | [] => []
  | (n, w) :: items =>
      ps.getD n "undefined".toList ++ (w ++ restoreBlocks ps items)

/-- Concatenation of a block/segment list with a trailing text and a
second list, gluing the text onto the final segment of the first list. -/
def itemsGlue : List (Nat × List Char) → List Char →
    List (Nat × List Char) → List (Nat × List Char)
  | [], _, _ => []
  | [(n, w)], v, items2 => (n, w ++ v) :: items2
  | p :: q :: items, v, items2 => p :: itemsGlue (q :: items) v items2

/-- Concatenation of two chains (head segment plus block/segment list),
gluing the left chain's final segment to the right chain's head
segment. -/
def chainCat : List Char × List (Nat × List Char) →
    List Char × List (Nat × List Char) →
    List Char × List (Nat × List Char)
  | (w, []), (w2, items2) => (w ++ w2, items2)
  | (w, p :: items), (w2, items2) => (w, itemsGlue (p :: items) w2 items2)

/-! ## Data model and session store -/

inductive Role where
  | user : Role
  | model : Role
deriving DecidableEq

structure Message where
  id : String
  role : Role
  text : String
  timestamp : String
deriving DecidableEq

structure Thread where
  id : String
  parentMessageId : String
  messages : List String
deriving DecidableEq

structure ChatSession where
  id : String
  title : String
  messages : List Message
  threads : List Thread
  createdAt : String
  updatedAt : String
  isPinned : Bool
  isArchived : Bool
  model : String
  temperature : Rat
  maxTokens : Nat
deriving DecidableEq

structure Settings where
  model : String
  temperature : Rat
  maxTokens : Nat
  theme : String
  fontSize : String
  messageDensity : String
  language : String
  dataPrivacy : Bool
  autoSave : Bool
  keyboardShortcuts : Bool
deriving DecidableEq

/-- The initial value of the module-level `settings` variable. -/
def defaultSettings : Settings :=
  { model := "gemini-2.5-flash", temperature := 7 / 10, maxTokens := 1000,
    theme := "dark", fontSize := "medium", messageDensity := "comfortable",
    language := "auto", dataPrivacy := true, autoSave := true,
    keyboardShortcuts := true }

/-- `loadHistoryFromStorage`:
`chatHistory = savedHistory ? JSON.parse(savedHistory) : []`.
The browser built-in `JSON.parse` is a collaborator, passed in as `parse`;
it throws (`Except.error`) on a string that is not valid JSON, and the
source wraps it in no `try`/`catch`.  `stored` is the value of the
`'chatHistory'` key (`none` when the key is absent; the empty string is
falsy in JS and also takes the `[]` branch). -/
def loadHistoryFromStorage (parse : String → Except String (List ChatSession))
    (stored : Option String) : Except String (List ChatSession) :=
  match stored with
  | none => .ok []
  | some s => if s = "" then .ok [] else parse s

/-- `loadSettings`: `if (savedSettings) { settings = JSON.parse(savedSettings); ... }`,
again with no `try`/`catch`; when the key is absent (or empty) the module
keeps the current `settings` value. -/
def loadSettings (parse : String → Except String Settings)
    (stored : Option String) (current : Settings) : Except String Settings :=
  match stored with
  | none => .ok current
  | some s => if s = "" then .ok current else parse s

/-- `deleteChat`'s core mutation:
`chatHistory = chatHistory.filter(s => s.id !== chatId)`. -/
def deleteChat (hist : List ChatSession) (chatId : String) : List ChatSession :=
  hist.filter (fun s => !(s.id = chatId))

/-- Title derivation in `saveCurrentChat`:
`prompt.length > 30 ? prompt.substring(0, 27) + '...' : prompt`
(`substring(0, 27)` is the first 27 units, modelled as the first 27
characters). -/
def deriveTitle (prompt : String) : String :=
  if prompt.length > 30 then String.mk (prompt.toList.take 27) ++ "..." else prompt

/-- `chatHistory.find(s => s.id === currentChatId)` followed by in-place
mutation of the found session's `messages` and `updatedAt`: update the
first session with the given id, leave everything else untouched. -/
def updateSession : List ChatSession → String → List Message → String →
    List ChatSession
  | [], _, _, _ => []
  | s :: rest, cid, msgs, now =>
      if s.id = cid then
        { s with messages := msgs, updatedAt := now } :: rest
      else s :: updateSession rest cid msgs now

/-- `saveCurrentChat` (state passed explicitly): on an existing chat update
its messages and `updatedAt`; otherwise mint a new session (id
`chat_${Date.now()}` is passed in as `newId`, the clock as `now`), derive
the title from the prompt and prepend it.  Returns the new history and the
new `currentChatId`. -/
def saveCurrentChat (hist : List ChatSession) (currentChatId : Option String)
    (msgs : List Message) (prompt : String) (now newId : String)
    (cfg : Settings) : List ChatSession × Option String :=
  if msgs.isEmpty then (hist, currentChatId)
  else
    match currentChatId with
    | some cid => (updateSession hist cid msgs now, some cid)
    | none =>
        ({ id := newId, title := deriveTitle prompt, messages := msgs,
           threads := [], createdAt := now, updatedAt := now,
           isPinned := false, isArchived := false, model := cfg.model,
           temperature := cfg.temperature, maxTokens := cfg.maxTokens } :: hist,
         some newId)

/-- `getMessagesFromDOM` keeps only messages whose text is nonempty
(`if (role && text)`); the view list stands for the rendered `.message`
elements in DOM order, with `text` being `dataset.rawText || textContent`. -/
def getMessagesFromDOM (view : List Message) : List Message :=
  view.filter (fun m => !(m.text = ""))

/-! ## Streaming consumer and conversation controller -/

/-- The markup of `createLoadingIndicator()`, the placeholder's content
before the first chunk arrives. -/
def loadingIndicatorHTML : String :=
  "<div class=\"loading-container\"><div class=\"loading-indicator\"></div><div class=\"loading-indicator\"></div><div class=\"loading-indicator\"></div></div>"

/-- One iteration of the `for await` loop: append the delta to
`fullResponse` and re-render the whole buffer into the placeholder. -/
def consumeChunk (st : String × String) (chunk : String) : String × String :=
  (st.1 ++ chunk, parseMarkdown (st.1 ++ chunk))

/-- Run the streaming loop over a list of deltas; the state is
`(fullResponse, placeholder HTML)`. -/
def runStream (chunks : List String) : String × String :=
  chunks.foldl consumeChunk ("", loadingIndicatorHTML)

/-- JS `String.prototype.trim` at the `String` level. -/
def trimString (s : String) : String := String.mk (jsTrim s.toList)

/-- The concatenation of a list of deltas, in arrival order. -/
def joinChunks : List String → String
  | [] => ""
  | c :: rest => c ++ joinChunks rest

/-- A remote stream: the deltas it yields, and whether it terminated
normally (`ok = false` means it raised after yielding `chunks`). -/
structure StreamResult where
  chunks : List String
  ok : Bool
deriving DecidableEq

/-- The module-level mutable state touched by the controller, plus the
persisted `'chatHistory'` key (`storage`) and the rendered message list
(`viewMessages`). -/
structure AppState where
  chatHistory : List ChatSession
  currentChatId : Option String
  isAwaitingResponse : Bool
  storage : Option String
  viewMessages : List Message
deriving DecidableEq

/-- What a turn left in the placeholder: its final HTML, the stored
`dataset.rawText` if any, and whether a stream was opened / a user message
appended. -/
structure TurnView where
  displayed : Option String
  rawText : Option String
  streamStarted : Bool
  appendedUser : Bool
deriving DecidableEq

def noTurn : TurnView :=
  { displayed := none, rawText := none, streamStarted := false,
    appendedUser := false }

def errorTextSubmit : String := "Oops! Something went wrong. Please try again."

def errorTextRegenerate : String :=
  "Oops! Something went wrong on regenerate. Please try again."

/-- `handleFormSubmit`: busy and empty-prompt guards, append the user
message, stream into the placeholder re-rendering the whole buffer each
delta, then on success store `dataset.rawText` and persist via
`saveCurrentChat`, or on failure replace the placeholder content with the
fixed error text and persist nothing.  `serialize` is `JSON.stringify`,
`msgId`/`modelMsgId`/`now`/`newId` are the generated ids and clock. -/
def handleFormSubmit (serialize : List ChatSession → String) (st : AppState)
    (inputValue : String) (stream : StreamResult)
    (msgId modelMsgId now newId : String) (cfg : Settings) :
    AppState × TurnView :=
  if st.isAwaitingResponse then (st, noTurn)
  else
    if trimString inputValue = "" then (st, noTurn)
    else
      (fun prompt =>
        (fun view1 =>
          (fun res =>
            if stream.ok then
              (fun view2 =>
                (fun save =>
                  ({ chatHistory := save.1, currentChatId := save.2,
                     isAwaitingResponse := false,
                     storage := some (serialize save.1),
                     viewMessages := view2 },
                   { displayed := some res.2, rawText := some res.1,
                     streamStarted := true, appendedUser := true }))
                (saveCurrentChat st.chatHistory st.currentChatId
                  (getMessagesFromDOM view2) prompt now newId cfg))
              (view1 ++ [⟨modelMsgId, Role.model, res.1, now⟩])
            else
              ({ st with
                  isAwaitingResponse := false,
                  viewMessages := view1 ++ [⟨modelMsgId, Role.model, errorTextSubmit, now⟩] },
               { displayed := some errorTextSubmit, rawText := none,
                 streamStarted := true, appendedUser := true }))
          (runStream stream.chunks))
        (st.viewMessages ++ [⟨msgId, Role.user, prompt, now⟩]))
      (trimString inputValue)

/-- Remove the last model message from the view
(`querySelector('.model-message:last-of-type')` + `remove()`). -/
def removeLastModel (view : List Message) : List Message :=
  (view.reverse.eraseP (fun m => decide (m.role = Role.model))).reverse

/-- `handleRegenerate`: busy guard, find the last user message, remove the
last model message from the view, then stream the same prompt again with
the same success/failure handling as `handleFormSubmit`. -/
def handleRegenerate (serialize : List ChatSession → String) (st : AppState)
    (stream : StreamResult) (modelMsgId now newId : String) (cfg : Settings) :
    AppState × TurnView :=
  if st.isAwaitingResponse then (st, noTurn)
  else
    match ((getMessagesFromDOM st.viewMessages).filter
        (fun m => decide (m.role = Role.user))).getLast? with
    | none => (st, noTurn)
    | some lastUser =>
        (fun view0 =>
          (fun res =>
            if stream.ok then
              (fun view2 =>
                (fun save =>
                  ({ chatHistory := save.1, currentChatId := save.2,
                     isAwaitingResponse := false,
                     storage := some (serialize save.1),
                     viewMessages := view2 },
                   { displayed := some res.2, rawText := some res.1,
                     streamStarted := true, appendedUser := false }))
                (saveCurrentChat st.chatHistory st.currentChatId
                  (getMessagesFromDOM view2) lastUser.text now newId cfg))
              (view0 ++ [⟨modelMsgId, Role.model, res.1, now⟩])
            else
              ({ st with
                  isAwaitingResponse := false,
                  viewMessages := view0 ++ [⟨modelMsgId, Role.model, errorTextRegenerate, now⟩] },
               { displayed := some errorTextRegenerate, rawText := none,
                 streamStarted := true, appendedUser := false }))
          (runStream stream.chunks))
        (removeLastModel st.viewMessages)

/-! ## Consumption bounds for the matchers -/

theorem splitTicks_length {s b a : List Char} (h : splitTicks s = some (b, a)) :
    a.length + 3 ≤ s.length := by
  induction s generalizing b with
  | nil => simp [splitTicks] at h
  | cons c t ih =>
    rw [splitTicks] at h
    split at h
    · rename_i hpre
      simp only [Option.some.injEq, Prod.mk.injEq] at h
      obtain ⟨-, h2⟩ := h
      have hlen : 3 ≤ (c :: t).length :=
        List.IsPrefix.length_le (List.isPrefixOf_iff_prefix.mp hpre)
      subst h2
      simp only [List.length_drop, List.length_cons] at *
      omega
    · revert h
      cases hx : splitTicks t with
      | none => intro h; simp at h
      | some p =>
        intro h
        simp only [Option.some.injEq, Prod.mk.injEq] at h
        obtain ⟨-, h2⟩ := h
        have := ih (b := p.1) (by rw [hx, ← h2])
        subst h2
        simp only [List.length_cons]
        omega

theorem matchFenceAt_length {s lang body rest : List Char}
    (h : matchFenceAt s = some (lang, body, rest)) : rest.length < s.length := by
  rw [matchFenceAt] at h
  split at h
  · rename_i hpre
    split at h
    · rename_i hnl
      revert h
      cases hx : splitTicks ((s.drop 3).dropWhile isWordChar |>.drop 1) with
      | none => intro h; simp at h
      | some p =>
        intro h
        simp only [Option.some.injEq, Prod.mk.injEq] at h
        obtain ⟨-, -, h3⟩ := h
        have h1 := splitTicks_length (b := p.1) (a := p.2) (by rw [hx])
        have h2 : ((s.drop 3).dropWhile isWordChar).length ≤ (s.drop 3).length :=
          List.Sublist.length_le (List.dropWhile_sublist _)
        have h4 : 3 ≤ s.length :=
          List.IsPrefix.length_le (List.isPrefixOf_iff_prefix.mp hpre)
        subst h3
        simp only [List.length_drop] at *
        omega
    · simp at h
  · simp at h

theorem findCloseBold_length {s g r : List Char}
    (h : findCloseBold s = some (g, r)) : r.length + 2 ≤ s.length := by
  induction s generalizing g with
  | nil => simp [findCloseBold] at h
  | cons c t ih =>
    rw [findCloseBold] at h
    split at h
    · rename_i hpre
      simp only [Option.some.injEq, Prod.mk.injEq] at h
      obtain ⟨-, h2⟩ := h
      have hlen : 2 ≤ (c :: t).length :=
        List.IsPrefix.length_le (List.isPrefixOf_iff_prefix.mp hpre)
      subst h2
      simp only [List.length_drop, List.length_cons] at *
      omega
    · split at h
      · revert h
        cases hx : findCloseBold t with
        | none => intro h; simp at h
        | some p =>
          intro h
          simp only [Option.some.injEq, Prod.mk.injEq] at h
          obtain ⟨-, h2⟩ := h
          have := ih (g := p.1) (by rw [hx, ← h2])
          subst h2
          simp only [List.length_cons]
          omega
      · simp at h

theorem findCloseItalic_length {s g r : List Char}
    (h : findCloseItalic s = some (g, r)) : r.length + 1 ≤ s.length := by
  induction s generalizing g with
  | nil => simp [findCloseItalic] at h
  | cons c t ih =>
    rw [findCloseItalic] at h
    split at h
    · simp only [Option.some.injEq, Prod.mk.injEq] at h
      obtain ⟨-, h2⟩ := h
      subst h2
      simp
    · split at h
      · revert h
        cases hx : findCloseItalic t with
        | none => intro h; simp at h
        | some p =>
          intro h
          simp only [Option.some.injEq, Prod.mk.injEq] at h
          obtain ⟨-, h2⟩ := h
          have := ih (g := p.1) (by rw [hx, ← h2])
          subst h2
          simp only [List.length_cons]
          omega
      · simp at h

theorem matchBoldAt_length {s g r : List Char}
    (h : matchBoldAt s = some (g, r)) : r.length < s.length := by
  rw [matchBoldAt] at h
  split at h
  · rename_i hpre
    revert h
    cases hx : findCloseBold (s.drop 2) with
    | none => intro h; simp at h
    | some p =>
      intro h
      simp only [Option.some.injEq, Prod.mk.injEq] at h
      obtain ⟨-, h2⟩ := h
      have h1 := findCloseBold_length (g := p.1) (by rw [hx])
      have h4 : 2 ≤ s.length :=
        List.IsPrefix.length_le (List.isPrefixOf_iff_prefix.mp hpre)
      subst h2
      simp only [List.length_drop] at *
      omega
  · simp at h

theorem matchItalicAt_length {s g r : List Char}
    (h : matchItalicAt s = some (g, r)) : r.length < s.length := by
  rw [matchItalicAt] at h
  split at h
  · rename_i hd
    revert h
    cases hx : findCloseItalic (s.drop 1) with
    | none => intro h; simp at h
    | some p =>
      intro h
      simp only [Option.some.injEq, Prod.mk.injEq] at h
      obtain ⟨-, h2⟩ := h
      have h1 := findCloseItalic_length (g := p.1) (by rw [hx])
      have h4 : 1 ≤ s.length := by
        cases s with
        | nil => simp at hd
        | cons a t => simp
      subst h2
      simp only [List.length_drop] at *
      omega
  · simp at h

theorem matchCodeTickAt_length {s g r : List Char}
    (h : matchCodeTickAt s = some (g, r)) : r.length < s.length := by
  rw [matchCodeTickAt] at h
  split at h
  · rename_i hd
    split at h
    · simp at h
    · split at h
      · simp only [Option.some.injEq, Prod.mk.injEq] at h
        obtain ⟨-, h2⟩ := h
        have h1 : ((s.drop 1).dropWhile (fun c => !(c = '`'))).length ≤
            (s.drop 1).length := List.Sublist.length_le (List.dropWhile_sublist _)
        have h4 : 1 ≤ s.length := by
          cases s with
          | nil => simp at hd
          | cons a t => simp
        subst h2
        simp only [List.length_drop] at *
        omega
      · simp at h
  · simp at h

theorem matchLinkAt_length {s g r : List Char}
    (h : matchLinkAt s = some (g, r)) : r.length < s.length := by
  rw [matchLinkAt] at h
  split at h
  · rename_i hd
    split at h
    · simp at h
    · split at h
      · split at h
        · simp at h
        · split at h
          · simp only [Option.some.injEq, Prod.mk.injEq] at h
            obtain ⟨-, h2⟩ := h
            have h1 : ((s.drop 1).dropWhile (fun c => !(c = ']'))).length ≤
                (s.drop 1).length := List.Sublist.length_le (List.dropWhile_sublist _)
            have h3 : ((((s.drop 1).dropWhile (fun c => !(c = ']'))).drop 2).dropWhile
                (fun c => !(c = ')'))).length ≤
                (((s.drop 1).dropWhile (fun c => !(c = ']'))).drop 2).length :=
              List.Sublist.length_le (List.dropWhile_sublist _)
            have h4 : 1 ≤ s.length := by
              cases s with
              | nil => simp at hd
              | cons a t => simp
            subst h2
            simp only [List.length_drop] at *
            omega
          · simp at h
      · simp at h
  · simp at h

theorem matchRestoreAt_length (ps : List (List Char)) {s g r : List Char}
    (h : matchRestoreAt ps s = some (g, r)) : r.length < s.length := by
  rw [matchRestoreAt] at h
  split at h
  · rename_i hpre
    split at h
    · simp at h
    · split at h
      · simp only [Option.some.injEq, Prod.mk.injEq] at h
        obtain ⟨-, h2⟩ := h
        have h1 : ((s.drop 12).dropWhile isDigitChar).length ≤ (s.drop 12).length :=
          List.Sublist.length_le (List.dropWhile_sublist _)
        have h4 : 12 ≤ s.length :=
          List.IsPrefix.length_le (List.isPrefixOf_iff_prefix.mp hpre)
        subst h2
        simp only [List.length_drop] at *
        omega
      · simp at h
  · simp at h

/-! ## Streaming loop lemmas -/

theorem foldl_consumeChunk_buffer (chunks : List String) (b d : String) :
    (chunks.foldl consumeChunk (b, d)).1 = b ++ joinChunks chunks := by
  induction chunks generalizing b d with
  | nil => simp [joinChunks]
  | cons c rest ih =>
    simp only [List.foldl_cons, consumeChunk, joinChunks, ih]
    rw [String.append_assoc]

theorem foldl_consumeChunk_displayed (chunks : List String) (b d : String)
    (h : chunks ≠ []) :
    (chunks.foldl consumeChunk (b, d)).2 =
      parseMarkdown (chunks.foldl consumeChunk (b, d)).1 := by
  induction chunks generalizing b d with
  | nil => exact absurd rfl h
  | cons c rest ih =>
    cases rest with
    | nil => simp [consumeChunk]
    | cons c' rest' => exact ih (b ++ c) (parseMarkdown (b ++ c)) (by simp)

theorem runStream_buffer (chunks : List String) :
    (runStream chunks).1 = joinChunks chunks := by
  simpa using foldl_consumeChunk_buffer chunks "" loadingIndicatorHTML

theorem runStream_displayed (chunks : List String) (h : chunks ≠ []) :
    (runStream chunks).2 = parseMarkdown (runStream chunks).1 :=
  foldl_consumeChunk_displayed chunks "" loadingIndicatorHTML h

/-! ## List-surgery lemmas for occurrence decomposition -/

theorem prefix_append_cases {α : Type} {p x y : List α} (h : p <+: x ++ y) :
    p <+: x ∨ ∃ p2, p = x ++ p2 ∧ p2 <+: y := by
  rcases le_or_lt p.length x.length with hle | hlt
  · exact Or.inl (List.prefix_of_prefix_length_le h (List.prefix_append x y) hle)
  · right
    have hx : x <+: p :=
      List.prefix_of_prefix_length_le (List.prefix_append x y) h (le_of_lt hlt)
    obtain ⟨p2, rfl⟩ := hx
    obtain ⟨t, ht⟩ := h
    refine ⟨p2, rfl, t, ?_⟩
    have := List.append_cancel_left (List.append_assoc x p2 t ▸ ht)
    exact this

theorem infix_append_cases {α : Type} {p x y : List α} (h : p <:+: x ++ y) :
    p <:+: x ∨ p <:+: y ∨
      ∃ p1 p2, p = p1 ++ p2 ∧ p1 ≠ [] ∧ p2 ≠ [] ∧ p1 <:+ x ∧ p2 <+: y := by
  induction x with
  | nil => exact Or.inr (Or.inl (by simpa using h))
  | cons a x' ih =>
    rcases List.infix_cons_iff.mp h with hpre | hinf
    · rcases prefix_append_cases (p := p) (x := a :: x') (y := y) hpre with
        hpx | ⟨p2, rfl, hp2⟩
      · exact Or.inl hpx.isInfix
      · rcases eq_or_ne p2 [] with rfl | hne
        · exact Or.inl (by simpa using List.infix_refl (a :: x'))

        · exact Or.inr (Or.inr ⟨a :: x', p2, rfl, by simp, hne,
            List.suffix_refl _, hp2⟩)
    · rcases ih hinf with hx | hy | ⟨p1, p2, rfl, h1, h2, hsuf, hpre2⟩
      · exact Or.inl (hx.trans (List.infix_cons_iff.mpr (Or.inr (List.infix_refl x'))))
      · exact Or.inr (Or.inl hy)
      · exact Or.inr (Or.inr ⟨p1, p2, rfl, h1, h2,
          hsuf.trans (List.suffix_cons a x'), hpre2⟩)

theorem head_mem_of_append {α : Type} {p1 p2 : List α} {c : α}
    (h : (p1 ++ p2).head? = some c) (hne : p1 ≠ []) : c ∈ p1 := by
  cases p1 with
  | nil => exact absurd rfl hne
  | cons a t =>
    simp only [List.cons_append, List.head?_cons, Option.some.injEq] at h
    subst h
    exact List.mem_cons_self a t

theorem infix_right_of_head {α : Type} {p x y : List α} {c : α}
    (h : p <:+: x ++ y) (hc : p.head? = some c) (hnx : c ∉ x) : p <:+: y := by
  rcases infix_append_cases h with hx | hy | ⟨p1, p2, heq, h1, _h2, hsuf, _⟩
  · exact absurd (hx.subset (List.mem_of_mem_head? hc)) hnx
  · exact hy
  · subst heq
    exact absurd (hsuf.subset (head_mem_of_append hc h1)) hnx

theorem infix_left_of_getLast {α : Type} {p x y : List α} {c : α}
    (h : p <:+: x ++ y) (hc : p.getLast? = some c) (hny : c ∉ y) : p <:+: x := by
  have hr : p.reverse <:+: y.reverse ++ x.reverse := by
    rw [← List.reverse_append]
    exact List.reverse_infix.mpr h
  have hcr : p.reverse.head? = some c := by
    rw [List.head?_reverse]
    exact hc
  have hny' : c ∉ y.reverse := by
    intro hmem
    exact hny (List.mem_reverse.mp hmem)
  have := infix_right_of_head hr hcr hny'
  have := List.reverse_infix.mp (by simpa using this)
  simpa using this

/-- An occurrence of `p` in `d1 ++ grp ++ d2` whose first character avoids
`d1` and whose last character avoids `d2` lies inside `grp`. -/
theorem infix_middle {α : Type} {p d1 grp d2 : List α} {c c' : α}
    (h : p <:+: d1 ++ (grp ++ d2)) (hc : p.head? = some c) (hnd1 : c ∉ d1)
    (hc' : p.getLast? = some c') (hnd2 : c' ∉ d2) : p <:+: grp := by
  have h1 : p <:+: grp ++ d2 := infix_right_of_head h hc hnd1
  exact infix_left_of_getLast h1 hc' hnd2

/-! ## Trigger lemmas: a match fires only at its trigger character -/

theorem matchBoldAt_eq_none {c : Char} {t : List Char} (h : ¬ c = '*') :
    matchBoldAt (c :: t) = none := by
  rw [matchBoldAt, if_neg]
  intro hpre
  obtain ⟨u, hu⟩ := List.isPrefixOf_iff_prefix.mp hpre
  exact h (List.cons.injEq .. ▸ hu).1.symm

theorem matchItalicAt_eq_none {c : Char} {t : List Char} (h : ¬ c = '*') :
    matchItalicAt (c :: t) = none := by
  rw [matchItalicAt, if_neg]
  simpa using fun heq => h heq

theorem matchCodeTickAt_eq_none {c : Char} {t : List Char} (h : ¬ c = '`') :
    matchCodeTickAt (c :: t) = none := by
  rw [matchCodeTickAt, if_neg]
  simpa using fun heq => h heq

theorem matchLinkAt_eq_none {c : Char} {t : List Char} (h : ¬ c = '[') :
    matchLinkAt (c :: t) = none := by
  rw [matchLinkAt, if_neg]
  simpa using fun heq => h heq

theorem matchRestoreAt_eq_none (ps : List (List Char)) {c : Char}
    {t : List Char} (h : ¬ c = '_') : matchRestoreAt ps (c :: t) = none := by
  rw [matchRestoreAt, if_neg]
  intro hpre
  obtain ⟨u, hu⟩ := List.isPrefixOf_iff_prefix.mp hpre
  exact h (List.cons.injEq .. ▸ hu).1.symm

theorem matchFenceAt_eq_none {c : Char} {t : List Char} (h : ¬ c = '`') :
    matchFenceAt (c :: t) = none := by
  rw [matchFenceAt, if_neg]
  intro hpre
  obtain ⟨u, hu⟩ := List.isPrefixOf_iff_prefix.mp hpre
  exact h (List.cons.injEq .. ▸ hu).1.symm

/-! ## Matcher shape lemmas -/

theorem takeWhile_dropWhile_append {α : Type} (p : α → Bool) (l : List α) :
    l.takeWhile p ++ l.dropWhile p = l := List.takeWhile_append_dropWhile p l

theorem findCloseBold_spec {t g r : List Char}
    (h : findCloseBold t = some (g, r)) :
    t = g ++ '*' :: '*' :: r ∧ ∀ c ∈ g, isDotChar c := by
  induction t generalizing g with
  | nil => simp [findCloseBold] at h
  | cons c rest ih =>
    rw [findCloseBold] at h
    split at h
    · rename_i hpre
      obtain ⟨u, hu⟩ := List.isPrefixOf_iff_prefix.mp hpre
      simp only [Option.some.injEq, Prod.mk.injEq] at h
      obtain ⟨hg, hr⟩ := h
      have : "**".toList ++ u = c :: rest := hu
      simp only [List.cons_append, List.nil_append] at this
      obtain ⟨rfl, hrest⟩ := List.cons.injEq .. ▸ this
      subst hg
      subst hr
      rw [← hrest]
      simp
    · split at h
      · rename_i hdot
        revert h
        cases hx : findCloseBold rest with
        | none => intro h; simp at h
        | some p =>
          intro h
          simp only [Option.some.injEq, Prod.mk.injEq] at h
          obtain ⟨hg, hr⟩ := h
          obtain ⟨hshape, hdots⟩ := ih (g := p.1) (by rw [hx, ← hr])
          subst hg
          constructor
          · simp [hshape]
          · intro x hx'
            rcases List.mem_cons.mp hx' with rfl | hx'
            · exact hdot
            · exact hdots x hx'
      · simp at h

theorem matchBoldAt_spec {s g r : List Char} (h : matchBoldAt s = some (g, r)) :
    ∃ grp, s = '*' :: '*' :: (grp ++ '*' :: '*' :: r) ∧
      g = "<strong>".toList ++ grp ++ "</strong>".toList ∧
      ∀ c ∈ grp, isDotChar c := by
  rw [matchBoldAt] at h
  split at h
  · rename_i hpre
    revert h
    cases hx : findCloseBold (s.drop 2) with
    | none => intro h; simp at h
    | some p =>
      intro h
      simp only [Option.some.injEq, Prod.mk.injEq] at h
      obtain ⟨hg, hr⟩ := h
      obtain ⟨hshape, hdots⟩ := findCloseBold_spec (g := p.1) (r := r) (by rw [hx, ← hr])
      obtain ⟨u, hu⟩ := List.isPrefixOf_iff_prefix.mp hpre
      refine ⟨p.1, ?_, by rw [← hg], hdots⟩
      have hu' : '*' :: '*' :: u = s := hu
      have hdrop : s.drop 2 = u := by rw [← hu']; rfl
      rw [← hu', ← hdrop, hshape]
  · simp at h

theorem findCloseItalic_spec {t g r : List Char}
    (h : findCloseItalic t = some (g, r)) :
    t = g ++ '*' :: r ∧ ∀ c ∈ g, isDotChar c := by
  induction t generalizing g with
  | nil => simp [findCloseItalic] at h
  | cons c rest ih =>
    rw [findCloseItalic] at h
    split at h
    · rename_i hc
      subst hc
      simp only [Option.some.injEq, Prod.mk.injEq] at h
      obtain ⟨hg, hr⟩ := h
      subst hg
      subst hr
      simp
    · split at h
      · rename_i hdot
        revert h
        cases hx : findCloseItalic rest with
        | none => intro h; simp at h
        | some p =>
          intro h
          simp only [Option.some.injEq, Prod.mk.injEq] at h
          obtain ⟨hg, hr⟩ := h
          obtain ⟨hshape, hdots⟩ := ih (g := p.1) (by rw [hx, ← hr])
          subst hg
          constructor
          · simp [hshape]
          · intro x hx'
            rcases List.mem_cons.mp hx' with rfl | hx'
            · exact hdot
            · exact hdots x hx'
      · simp at h

theorem matchItalicAt_spec {s g r : List Char}
    (h : matchItalicAt s = some (g, r)) :
    ∃ grp, s = '*' :: (grp ++ '*' :: r) ∧
      g = "<em>".toList ++ grp ++ "</em>".toList ∧
      ∀ c ∈ grp, isDotChar c := by
  rw [matchItalicAt] at h
  split at h
  · rename_i hhd
    revert h
    cases hx : findCloseItalic (s.drop 1) with
    | none => intro h; simp at h
    | some p =>
      intro h
      simp only [Option.some.injEq, Prod.mk.injEq] at h
      obtain ⟨hg, hr⟩ := h
      obtain ⟨hshape, hdots⟩ := findCloseItalic_spec (g := p.1) (r := r) (by rw [hx, ← hr])
      cases s with
      | nil => simp at hhd
      | cons a t =>
        simp only [List.head?_cons, Option.some.injEq] at hhd
        subst hhd
        refine ⟨p.1, ?_, by rw [← hg], hdots⟩
        simp only [List.drop_succ_cons, List.drop_zero] at hshape
        rw [hshape]
  · simp at h

theorem matchCodeTickAt_spec {s g r : List Char}
    (h : matchCodeTickAt s = some (g, r)) :
    ∃ grp, s = '`' :: (grp ++ '`' :: r) ∧
      g = "<code>".toList ++ grp ++ "</code>".toList ∧ grp ≠ [] ∧
      ∀ c ∈ grp, ¬ c = '`' := by
  rw [matchCodeTickAt] at h
  split at h
  · rename_i hhd
    split at h
    · simp at h
    · rename_i hne
      split at h
      · rename_i hD
        simp only [Option.some.injEq, Prod.mk.injEq] at h
        obtain ⟨hg, hr⟩ := h
        cases s with
        | nil => simp at hhd
        | cons a t =>
          simp only [List.head?_cons, Option.some.injEq] at hhd
          subst hhd
          simp only [List.drop_succ_cons, List.drop_zero] at hg hr hD hne
          refine ⟨t.takeWhile (fun c => !(c = '`')), ?_, by rw [← hg], ?_, ?_⟩
          · cases hDe : t.dropWhile (fun c => !(c = '`')) with
            | nil => rw [hDe] at hD; simp at hD
            | cons d D' =>
              rw [hDe] at hD hr
              simp only [List.head?_cons, Option.some.injEq] at hD
              subst hD
              simp only [List.drop_succ_cons, List.drop_zero] at hr
              subst hr
              have := takeWhile_dropWhile_append (fun c => !(c = '`')) t
              rw [hDe] at this
              rw [this]
          · intro hempty
            rw [hempty] at hne
            simp at hne
          · intro c hc
            have := List.mem_takeWhile_imp hc
            simpa using this
      · simp at h
  · simp at h

theorem matchLinkAt_spec {s g r : List Char} (h : matchLinkAt s = some (g, r)) :
    ∃ txt url, s = '[' :: (txt ++ ']' :: '(' :: (url ++ ')' :: r)) ∧
      g = "<a href=\"".toList ++ url ++
            "\" target=\"_blank\" rel=\"noopener noreferrer\">".toList ++
            txt ++ "</a>".toList ∧
      txt ≠ [] ∧ (∀ c ∈ txt, ¬ c = ']') ∧ url ≠ [] ∧ ∀ c ∈ url, ¬ c = ')' := by
  rw [matchLinkAt] at h
  split at h
  · rename_i hhd
    split at h
    · simp at h
    · rename_i htxtne
      split at h
      · rename_i hbr
        split at h
        · simp at h
        · rename_i hurlne
          split at h
          · rename_i hE
            simp only [Option.some.injEq, Prod.mk.injEq] at h
            obtain ⟨hg, hr⟩ := h
            cases s with
            | nil => simp at hhd
            | cons a t =>
              simp only [List.head?_cons, Option.some.injEq] at hhd
              subst hhd
              simp only [List.drop_succ_cons, List.drop_zero] at hg hr hE
              simp only [List.drop_succ_cons, List.drop_zero] at htxtne hbr hurlne
              obtain ⟨u, hu⟩ := List.isPrefixOf_iff_prefix.mp hbr
              have hD2 : (t.dropWhile (fun c => !(c = ']'))).drop 2 = u := by
                rw [← hu]
                rfl
              rw [hD2] at hg hr hE hurlne
              cases hEe : u.dropWhile (fun c => !(c = ')')) with
              | nil =>
                rw [hEe] at hE
                simp at hE
              | cons e E' =>
                rw [hEe] at hE hr
                simp only [List.head?_cons, Option.some.injEq] at hE
                subst hE
                simp only [List.drop_succ_cons, List.drop_zero] at hr
                subst hr
                refine ⟨t.takeWhile (fun c => !(c = ']')),
                        u.takeWhile (fun c => !(c = ')')), ?_, by rw [← hg],
                        ?_, ?_, ?_, ?_⟩
                · have h2 := takeWhile_dropWhile_append (fun c => !(c = ')')) u
                  rw [hEe] at h2
                  have h1 := takeWhile_dropWhile_append (fun c => !(c = ']')) t
                  have hjoin : ']' :: '(' :: u =
                      t.dropWhile (fun c => !(c = ']')) := hu
                  rw [h2, hjoin, h1]
                · intro hempty
                  rw [hempty] at htxtne
                  simp at htxtne
                · intro c hc
                  have := List.mem_takeWhile_imp hc
                  simpa using this
                · intro hempty
                  rw [hempty] at hurlne
                  simp at hurlne
                · intro c hc
                  have := List.mem_takeWhile_imp hc
                  simpa using this
          · simp at h
      · simp at h
  · simp at h


theorem matchRestoreAt_spec (ps : List (List Char)) {s g r : List Char}
    (h : matchRestoreAt ps s = some (g, r)) :
    ∃ ds, s = "__CODEBLOCK_".toList ++ (ds ++ '_' :: '_' :: r) ∧ ds ≠ [] ∧
      (∀ c ∈ ds, isDigitChar c) ∧
      g = ps.getD (parseDigits ds) "undefined".toList := by
  rw [matchRestoreAt] at h
  split at h
  · rename_i hpre
    split at h
    · simp at h
    · rename_i hdsne
      split at h
      · rename_i hbr
        simp only [Option.some.injEq, Prod.mk.injEq] at h
        obtain ⟨hg, hr⟩ := h
        obtain ⟨u, hu⟩ := List.isPrefixOf_iff_prefix.mp hpre
        have hu2 : s.drop 12 = u := by rw [← hu]; rfl
        obtain ⟨v, hv⟩ := List.isPrefixOf_iff_prefix.mp hbr
        have hv2 : v = (u.dropWhile isDigitChar).drop 2 := by
          rw [hu2] at hv
          rw [← hv]
          rfl
        rw [hu2] at hg hdsne hr
        refine ⟨u.takeWhile isDigitChar, ?_, ?_, ?_, by rw [← hg]⟩
        · have h1 := takeWhile_dropWhile_append isDigitChar u
          have hv3 : u.dropWhile isDigitChar = '_' :: '_' :: v := by
            rw [hu2] at hv
            rw [← hv]
            rfl
          have hvr : v = r := by
            rw [hv3] at hr
            simpa using hr
          rw [← hvr, ← hv3, h1, hu]
        · intro hempty
          rw [hempty] at hdsne
          simp at hdsne
        · intro c hc
          exact List.mem_takeWhile_imp hc
      · simp at h
  · simp at h

theorem splitTicks_spec {u b a : List Char} (h : splitTicks u = some (b, a)) :
    u = b ++ '`' :: '`' :: '`' :: a := by
  induction u generalizing b with
  | nil => simp [splitTicks] at h
  | cons c rest ih =>
    rw [splitTicks] at h
    split at h
    · rename_i hpre
      simp only [Option.some.injEq, Prod.mk.injEq] at h
      obtain ⟨hb, ha⟩ := h
      obtain ⟨u', hu⟩ := List.isPrefixOf_iff_prefix.mp hpre
      have : '`' :: '`' :: '`' :: u' = c :: rest := hu
      obtain ⟨rfl, hrest⟩ := List.cons.injEq .. ▸ this
      subst hb
      have hu2 : rest.drop 2 = u' := by rw [← hrest]; rfl
      rw [← ha, hu2, ← hrest]
      simp
    · revert h
      cases hx : splitTicks rest with
      | none => intro h; simp at h
      | some p =>
        intro h
        simp only [Option.some.injEq, Prod.mk.injEq] at h
        obtain ⟨hb, ha⟩ := h
        have := ih (b := p.1) (by rw [hx, ← ha])
        rw [← hb, this]
        simp

theorem matchFenceAt_spec {s lang body rest : List Char}
    (h : matchFenceAt s = some (lang, body, rest)) :
    s = '`' :: '`' :: '`' ::
        (lang ++ '\n' :: (body ++ '`' :: '`' :: '`' :: rest)) ∧
    ∀ c ∈ lang, isWordChar c := by
  rw [matchFenceAt] at h
  split at h
  · rename_i hpre
    split at h
    · rename_i hnl
      revert h
      cases hx : splitTicks (((s.drop 3).dropWhile isWordChar).drop 1) with
      | none => intro h; simp at h
      | some p =>
        intro h
        simp only [Option.some.injEq, Prod.mk.injEq] at h
        obtain ⟨hl, hb, hr⟩ := h
        have hshape := splitTicks_spec (b := p.1) (a := p.2) hx
        rw [hb, hr] at hshape
        obtain ⟨u, hu⟩ := List.isPrefixOf_iff_prefix.mp hpre
        have hu2 : s.drop 3 = u := by rw [← hu]; rfl
        rw [hu2] at hl
        constructor
        · cases hD : u.dropWhile isWordChar with
          | nil => rw [hu2, hD] at hnl; simp at hnl
          | cons d D' =>
            rw [hu2, hD] at hnl
            simp only [List.head?_cons, Option.some.injEq] at hnl
            subst hnl
            rw [hu2, hD] at hshape
            simp only [List.drop_succ_cons, List.drop_zero] at hshape
            have h1 := takeWhile_dropWhile_append isWordChar u
            rw [hD] at h1
            rw [← hshape, ← hl, h1]
            rw [show ('`' :: '`' :: '`' :: u : List Char) =
                  "```".toList ++ u from rfl, hu]
        · intro c hc
          rw [← hl] at hc
          exact List.mem_takeWhile_imp hc
    · simp at h
  · simp at h

/-! ## Generic scanner preservation lemmas -/

/-- A list none of whose characters can start a match is emitted verbatim at
the head of the scan: prefixes made of non-trigger characters survive. -/
theorem scanRep_prefix_pres (m : List Char → Option (List Char × List Char)) :
    ∀ (fuel : Nat) (q s : List Char),
      (∀ c ∈ q, ∀ t, m (c :: t) = none) → q <+: s →
      q <+: scanRep m fuel s := by
  intro fuel
  induction fuel with
  | zero => intro q s _ hpre; exact hpre
  | succ fuel ih =>
    intro q s hq hpre
    cases s with
    | nil =>
      simp only [List.prefix_nil] at hpre
      subst hpre
      exact List.nil_prefix
    | cons c t =>
      cases q with
      | nil => exact List.nil_prefix
      | cons a q' =>
        obtain ⟨u, hu⟩ := hpre
        obtain ⟨rfl, ht⟩ := List.cons.injEq .. ▸ hu
        rw [scanRep, hq a (List.mem_cons_self a q') t]
        exact List.cons_prefix_cons.mpr ⟨rfl,
          ih q' t (fun c hc => hq c (List.mem_cons_of_mem a hc)) ⟨u, ht⟩⟩

/-- Occurrences of a pattern `p` that cannot start a match, cannot sit at a
consumed region's last character, and survive each replacement, survive the
whole scan. -/
theorem scanRep_infix_pres (m : List Char → Option (List Char × List Char))
    (p : List Char) (htrig : ∀ c ∈ p, ∀ t, m (c :: t) = none)
    (hmatch : ∀ s g r, m s = some (g, r) →
      ∃ eaten, s = eaten ++ r ∧ (p <:+: eaten → p <:+: g) ∧
        ∃ c, eaten.getLast? = some c ∧ c ∉ p) :
    ∀ (fuel : Nat) (s : List Char), p <:+: s → p <:+: scanRep m fuel s := by
  intro fuel
  induction fuel with
  | zero => intro s hocc; exact hocc
  | succ fuel ih =>
    intro s hocc
    cases s with
    | nil => exact hocc
    | cons c t =>
      rw [scanRep]
      cases hm : m (c :: t) with
      | some pr =>
        obtain ⟨eaten, hshape, hsurv, lc, hlast, hlc⟩ :=
          hmatch (c :: t) pr.1 pr.2 (by rw [hm])
        rw [hshape] at hocc
        rcases infix_append_cases hocc with hin | hin | ⟨p1, p2, heq, h1, _h2, hsuf, _⟩
        · exact (hsurv hin).trans (List.prefix_append pr.1 _).isInfix
        · exact (ih pr.2 hin).trans (List.suffix_append pr.1 _).isInfix
        · exfalso
          obtain ⟨x, hx⟩ := hsuf
          have hl2 : eaten.getLast? = p1.getLast? := by
            rw [← hx]
            exact List.getLast?_append_of_ne_nil x h1
          rw [hlast] at hl2
          have : lc ∈ p1 := List.mem_of_mem_getLast? hl2.symm
          exact hlc (heq ▸ (List.prefix_append p1 p2).subset this)
      | none =>
        cases hp : p with
        | nil => simp
        | cons a p' =>
          rw [← hp]
          rcases List.infix_cons_iff.mp hocc with hpre | hinf
          · have : p <+: scanRep m (fuel + 1) (c :: t) :=
              scanRep_prefix_pres m (fuel + 1) p (c :: t)
                (fun x hx t' => htrig x hx t') hpre
            rw [scanRep, hm] at this
            exact this.isInfix
          · exact List.infix_cons_iff.mpr (Or.inr (ih t hinf))

/-! ## Escape lemmas -/

theorem replaceChar_append (c : Char) (r a b : List Char) :
    replaceChar c r (a ++ b) = replaceChar c r a ++ replaceChar c r b := by
  simp [replaceChar]

theorem escapeHTML_append (a b : List Char) :
    escapeHTML (a ++ b) = escapeHTML a ++ escapeHTML b := by
  simp [escapeHTML, replaceChar_append]

theorem escapeHTML_infix_pres {p s : List Char} (h : p <:+: s) :
    escapeHTML p <:+: escapeHTML s := by
  obtain ⟨a, b, rfl⟩ := h
  exact ⟨escapeHTML a, escapeHTML b, by rw [← escapeHTML_append, ← escapeHTML_append]⟩

/-! ## Survival of `&lt;script&gt;` through each inline scanner -/

theorem escScript_head :
    ("&lt;script&gt;".toList).head? = some '&' := rfl

theorem escScript_last :
    ("&lt;script&gt;".toList).getLast? = some ';' := by decide

theorem bold_hmatch_script : ∀ s g r, matchBoldAt s = some (g, r) →
    ∃ eaten, s = eaten ++ r ∧
      ("&lt;script&gt;".toList <:+: eaten → "&lt;script&gt;".toList <:+: g) ∧
      ∃ c, eaten.getLast? = some c ∧ c ∉ "&lt;script&gt;".toList := by
  intro s g r h
  obtain ⟨grp, hs, hg, -⟩ := matchBoldAt_spec h
  refine ⟨('*' :: '*' :: grp) ++ ['*', '*'], by rw [hs]; simp, ?_,
    '*', ?_, by decide⟩
  · intro hin
    have hin2 : "&lt;script&gt;".toList <:+: ['*', '*'] ++ (grp ++ ['*', '*']) := by
      simpa using hin
    have := infix_middle hin2 escScript_head (by decide) escScript_last (by decide)
    rw [hg]
    exact this.trans ⟨"<strong>".toList, "</strong>".toList, by simp⟩
  · rw [List.getLast?_append_of_ne_nil _ (by simp)]
    rfl

theorem italic_hmatch_script : ∀ s g r, matchItalicAt s = some (g, r) →
    ∃ eaten, s = eaten ++ r ∧
      ("&lt;script&gt;".toList <:+: eaten → "&lt;script&gt;".toList <:+: g) ∧
      ∃ c, eaten.getLast? = some c ∧ c ∉ "&lt;script&gt;".toList := by
  intro s g r h
  obtain ⟨grp, hs, hg, -⟩ := matchItalicAt_spec h
  refine ⟨('*' :: grp) ++ ['*'], by rw [hs]; simp, ?_, '*', ?_, by decide⟩
  · intro hin
    have hin2 : "&lt;script&gt;".toList <:+: ['*'] ++ (grp ++ ['*']) := by
      simpa using hin
    have := infix_middle hin2 escScript_head (by decide) escScript_last (by decide)
    rw [hg]
    exact this.trans ⟨"<em>".toList, "</em>".toList, by simp⟩
  · rw [List.getLast?_append_of_ne_nil _ (by simp)]
    rfl

theorem codeTick_hmatch_script : ∀ s g r, matchCodeTickAt s = some (g, r) →
    ∃ eaten, s = eaten ++ r ∧
      ("&lt;script&gt;".toList <:+: eaten → "&lt;script&gt;".toList <:+: g) ∧
      ∃ c, eaten.getLast? = some c ∧ c ∉ "&lt;script&gt;".toList := by
  intro s g r h
  obtain ⟨grp, hs, hg, -, -⟩ := matchCodeTickAt_spec h
  refine ⟨('`' :: grp) ++ ['`'], by rw [hs]; simp, ?_, '`', ?_, by decide⟩
  · intro hin
    have hin2 : "&lt;script&gt;".toList <:+: ['`'] ++ (grp ++ ['`']) := by
      simpa using hin
    have := infix_middle hin2 escScript_head (by decide) escScript_last (by decide)
    rw [hg]
    exact this.trans ⟨"<code>".toList, "</code>".toList, by simp⟩
  · rw [List.getLast?_append_of_ne_nil _ (by simp)]
    rfl

theorem link_hmatch_script : ∀ s g r, matchLinkAt s = some (g, r) →
    ∃ eaten, s = eaten ++ r ∧
      ("&lt;script&gt;".toList <:+: eaten → "&lt;script&gt;".toList <:+: g) ∧
      ∃ c, eaten.getLast? = some c ∧ c ∉ "&lt;script&gt;".toList := by
  intro s g r h
  obtain ⟨txt, url, hs, hg, -, -, -, -⟩ := matchLinkAt_spec h
  refine ⟨('[' :: txt) ++ (']' :: '(' :: url) ++ [')'],
    by rw [hs]; simp, ?_, ')', ?_, by decide⟩
  · intro hin
    have hin2 : "&lt;script&gt;".toList <:+:
        ['['] ++ (txt ++ (']' :: '(' :: (url ++ [')']))) := by
      simpa using hin
    have h3 : "&lt;script&gt;".toList <:+: txt ++ (']' :: '(' :: (url ++ [')'])) :=
      infix_right_of_head hin2 escScript_head (by decide)
    rcases infix_append_cases h3 with hka | hkb | ⟨p1, p2, heq, -, h2, -, hpre⟩
    · rw [hg]
      exact hka.trans ⟨"<a href=\"".toList ++ url ++
        "\" target=\"_blank\" rel=\"noopener noreferrer\">".toList,
        "</a>".toList, by simp⟩
    · have h4 : "&lt;script&gt;".toList <:+: [']', '('] ++ (url ++ [')']) := by
        simpa using hkb
      have h5 := infix_middle h4 escScript_head (by decide) escScript_last
        (by decide)
      rw [hg]
      exact h5.trans ⟨"<a href=\"".toList,
        "\" target=\"_blank\" rel=\"noopener noreferrer\">".toList ++ txt ++
          "</a>".toList, by simp⟩
    · exfalso
      obtain ⟨c, t, rfl⟩ := List.exists_cons_of_ne_nil h2
      obtain ⟨hc, -⟩ := List.cons_prefix_cons.mp hpre
      subst hc
      have hmem : ']' ∈ "&lt;script&gt;".toList := by
        rw [heq]
        simp
      exact absurd hmem (by decide)
  · rw [List.getLast?_append_of_ne_nil _ (by simp)]
    rfl

/-! ## Scanner walking and output-prefix tracking -/

theorem scanRep_nil (m : List Char → Option (List Char × List Char)) :
    ∀ fuel, scanRep m fuel [] = [] := by
  intro fuel
  cases fuel <;> rfl

theorem scanRep_walk (m : List Char → Option (List Char × List Char))
    {v : List Char} (hv : ∀ c ∈ v, ∀ u, m (c :: u) = none) :
    ∀ fuel z, v.length ≤ fuel →
      scanRep m fuel (v ++ z) = v ++ scanRep m (fuel - v.length) z := by
  induction v with
  | nil => intro fuel z _; simp
  | cons c v2 ih =>
    intro fuel z hf
    cases fuel with
    | zero => simp at hf
    | succ f =>
      have h1 : m (c :: (v2 ++ z)) = none := hv c (by simp) _
      show scanRep m (f + 1) (c :: (v2 ++ z)) = _
      rw [show scanRep m (f + 1) (c :: (v2 ++ z)) =
            c :: scanRep m f (v2 ++ z) from by simp [scanRep, h1]]
      rw [ih (fun d hd u => hv d (by simp [hd]) u) f z
        (Nat.le_of_succ_le_succ hf)]
      simp [Nat.succ_sub_succ]

theorem scanRep_pref_excl (m : List Char → Option (List Char × List Char))
    (E : List Char)
    (hfire : ∀ s g r, m s = some (g, r) → ∃ d, g.head? = some d ∧ d ∈ E) :
    ∀ fuel s q, (∀ d ∈ E, d ∉ q) → q <+: scanRep m fuel s → q <+: s := by
  intro fuel
  induction fuel with
  | zero => intro s q _ h; exact h
  | succ f ih =>
    intro s q hq h
    cases s with
    | nil =>
      rw [scanRep_nil] at h
      simpa using h
    | cons c t =>
      cases hm : m (c :: t) with
      | some gr =>
        obtain ⟨g, r⟩ := gr
        rw [show scanRep m (f + 1) (c :: t) = g ++ scanRep m f r from by
          simp [scanRep, hm]] at h
        obtain ⟨d, hd, hdE⟩ := hfire _ _ _ hm
        cases q with
        | nil => exact List.nil_prefix
        | cons a q2 =>
          exfalso
          obtain ⟨gh, gt, rfl⟩ : ∃ gh gt, g = gh :: gt := by
            cases g with
            | nil => simp at hd
            | cons x y => exact ⟨x, y, rfl⟩
          have hgh : gh = d := by simpa using hd
          have ha : a = gh := (List.cons_prefix_cons.mp (by simpa using h)).1
          exact hq d hdE (by simp [ha, hgh])
      | none =>
        rw [show scanRep m (f + 1) (c :: t) = c :: scanRep m f t from by
          simp [scanRep, hm]] at h
        cases q with
        | nil => exact List.nil_prefix
        | cons a q2 =>
          obtain ⟨rfl, hq2⟩ := List.cons_prefix_cons.mp h
          exact List.cons_prefix_cons.mpr
            ⟨rfl, ih t q2 (fun d hd hmem => hq d hd (by simp [hmem])) hq2⟩

/-! ## Occurrence-free gluing -/

theorem infixFree_of_not_mem {p l : List Char} {c : Char} (hc : c ∈ p)
    (h : c ∉ l) : ¬ p <:+: l := by
  intro hin
  obtain ⟨x, y, hxy⟩ := hin
  exact h (by rw [← hxy]; simp [hc])

theorem infixFree_glue_left {p a b : List Char} (ha : ¬ p <:+: a)
    (hb : ¬ p <:+: b) (hd : ∀ d, a.getLast? = some d → d ∉ p.dropLast) :
    ¬ p <:+: a ++ b := by
  intro h
  rcases infix_append_cases h with h1 | h2 | ⟨p1, p2, heq, hp1, hp2, hsuf, -⟩
  · exact ha h1
  · exact hb h2
  · obtain ⟨c, hc⟩ : ∃ c, p1.getLast? = some c := by
      cases hcc : p1.getLast? with
      | none => exact absurd (List.getLast?_eq_none_iff.mp hcc) hp1
      | some c => exact ⟨c, rfl⟩
    obtain ⟨x, hx⟩ := hsuf
    have hlast : a.getLast? = some c := by
      rw [← hx, List.getLast?_append_of_ne_nil _ hp1]
      exact hc
    apply hd c hlast
    subst heq
    rw [List.dropLast_append_of_ne_nil p1 hp2]
    exact List.mem_append_left _ (List.mem_of_mem_getLast? hc)

theorem infixFree_glue_right {p a b : List Char} (ha : ¬ p <:+: a)
    (hb : ¬ p <:+: b) (hd : ∀ d, b.head? = some d → d ∉ p.drop 1) :
    ¬ p <:+: a ++ b := by
  intro h
  rcases infix_append_cases h with h1 | h2 | ⟨p1, p2, heq, hp1, hp2, -, hpre⟩
  · exact ha h1
  · exact hb h2
  · obtain ⟨c, t, rfl⟩ := List.exists_cons_of_ne_nil hp2
    obtain ⟨y, hy⟩ := hpre
    have hbh : b.head? = some c := by rw [← hy]; rfl
    apply hd c hbh
    subst heq
    obtain ⟨z, p1', rfl⟩ := List.exists_cons_of_ne_nil hp1
    simp

theorem patFree_mono {v w : List Char} (h : PatFree w) (hvw : v <:+: w) :
    PatFree v := fun hin => h (hin.trans hvw)

/-! ## Digit and token facts -/

theorem digitChar_isDigit {d : Nat} (h : d < 10) :
    isDigitChar (Nat.digitChar d) := by
  interval_cases d <;> decide

theorem digitChar_toNat {d : Nat} (h : d < 10) :
    (Nat.digitChar d).toNat = 48 + d := by
  interval_cases d <;> decide

theorem natDigitsF_digits :
    ∀ fuel n, ∀ c ∈ natDigitsF fuel n, isDigitChar c := by
  intro fuel
  induction fuel with
  | zero => intro n c hc; simp [natDigitsF] at hc
  | succ f ih =>
    intro n c hc
    rw [natDigitsF] at hc
    split at hc
    · rename_i h
      simp at hc
      subst hc
      exact digitChar_isDigit h
    · rcases List.mem_append.mp hc with h1 | h2
      · exact ih _ c h1
      · simp at h2
        subst h2
        exact digitChar_isDigit (Nat.mod_lt _ (by norm_num))

theorem natDigits_digits {n : Nat} : ∀ c ∈ natDigits n, isDigitChar c :=
  natDigitsF_digits _ n

theorem natDigits_ne_nil (n : Nat) : natDigits n ≠ [] := by
  rw [natDigits, natDigitsF]
  split <;> simp

theorem parseDigits_append_singleton (ds : List Char) (c : Char) :
    parseDigits (ds ++ [c]) = 10 * parseDigits ds + (c.toNat - 48) := by
  simp [parseDigits, List.foldl_append]

theorem parseDigits_natDigitsF : ∀ fuel n, n < 10 ^ fuel →
    parseDigits (natDigitsF fuel n) = n := by
  intro fuel
  induction fuel with
  | zero =>
    intro n h
    simp at h
    subst h
    rfl
  | succ f ih =>
    intro n h
    rw [natDigitsF]
    split
    · rename_i h10
      simp [parseDigits, digitChar_toNat h10]
    · rename_i h10
      rw [parseDigits_append_singleton,
        ih (n / 10) (by
          rw [pow_succ, mul_comm] at h
          exact Nat.div_lt_of_lt_mul h),
        digitChar_toNat (Nat.mod_lt _ (by norm_num))]
      omega

theorem parseDigits_natDigits (n : Nat) : parseDigits (natDigits n) = n :=
  parseDigits_natDigitsF (n + 1) n (by
    calc n < 2 ^ n := Nat.lt_two_pow n
      _ ≤ 10 ^ n := Nat.pow_le_pow_left (by norm_num) n
      _ ≤ 10 ^ (n + 1) := Nat.pow_le_pow_right (by norm_num) (Nat.le_succ n))

theorem tok_eq (n : Nat) :
    tok n = cbPat ++ (natDigits n ++ ['_', '_']) := by
  rw [tok, cbPat]
  simp

theorem tok_wordChar {n : Nat} : ∀ c ∈ tok n, isWordChar c := by
  intro c hc
  rw [tok] at hc
  rcases List.mem_append.mp hc with h1 | h2
  · rcases List.mem_append.mp h1 with h1a | h1b
    · fin_cases h1a <;> decide
    · have hd := natDigits_digits c h1b
      simp only [isDigitChar] at hd
      simp [isWordChar, Char.isAlphanum, hd]
  · fin_cases h2 <;> decide

theorem tok_head (n : Nat) : (tok n).head? = some '_' := by
  rw [tok]
  rfl

theorem tok_getLast (n : Nat) : (tok n).getLast? = some '_' := by
  rw [tok]
  rw [List.getLast?_append_of_ne_nil _ (by decide)]
  rfl

theorem tok_length (n : Nat) : 15 ≤ (tok n).length := by
  have h := List.length_pos.mpr (natDigits_ne_nil n)
  rw [tok]
  simp only [List.length_append]
  have h1 : ("__CODEBLOCK_".toList).length = 12 := by decide
  have h2 : ("__".toList).length = 2 := by decide
  omega

theorem blocksStr_cons (n : Nat) (w : List Char)
    (items : List (Nat × List Char)) :
    blocksStr ((n, w) :: items) = tok n ++ (w ++ blocksStr items) := rfl

theorem blocksOk_cons (n : Nat) (w : List Char)
    (items : List (Nat × List Char)) :
    blocksOk ((n, w) :: items) = (PatFree w ∧ blocksOk items) := rfl

theorem blocksStr_length {items : List (Nat × List Char)}
    (h : items ≠ []) : 15 ≤ (blocksStr items).length := by
  obtain ⟨p, items2, rfl⟩ := List.exists_cons_of_ne_nil h
  obtain ⟨n, w⟩ := p
  rw [blocksStr_cons]
  have := tok_length n
  simp only [List.length_append]
  omega

/-! ## Chain concatenation -/

theorem itemsGlue_str : ∀ (items : List (Nat × List Char)) (v : List Char)
    (items2 : List (Nat × List Char)), items ≠ [] →
    blocksStr (itemsGlue items v items2) =
      blocksStr items ++ (v ++ blocksStr items2) := by
  intro items
  induction items with
  | nil => intro v items2 h; exact absurd rfl h
  | cons p items ih =>
    intro v items2 _
    obtain ⟨n, w⟩ := p
    cases items with
    | nil => simp [itemsGlue, blocksStr]
    | cons q items3 =>
      rw [show itemsGlue ((n, w) :: q :: items3) v items2 =
            (n, w) :: itemsGlue (q :: items3) v items2 from rfl]
      rw [blocksStr_cons, blocksStr_cons, ih v items2 (by simp)]
      simp

theorem itemsGlue_ok : ∀ (items : List (Nat × List Char)) (v : List Char)
    (items2 : List (Nat × List Char)), blocksOk items → blocksOk items2 →
    PatFree v → (∀ d, v.head? = some d → d ∉ cbPat.drop 1) →
    blocksOk (itemsGlue items v items2) := by
  intro items
  induction items with
  | nil => intro v items2 _ _ _ _; exact trivial
  | cons p items ih =>
    obtain ⟨n, w⟩ := p
    intro v items2 h1 h2 hv hd
    cases items with
    | nil =>
      exact ⟨infixFree_glue_right h1.1 hv hd, h2⟩
    | cons q items3 =>
      exact ⟨h1.1, ih v items2 h1.2 h2 hv hd⟩

theorem itemsGlue_map : ∀ (items : List (Nat × List Char)) (v : List Char)
    (items2 : List (Nat × List Char)), items ≠ [] →
    (itemsGlue items v items2).map Prod.fst =
      items.map Prod.fst ++ items2.map Prod.fst := by
  intro items
  induction items with
  | nil => intro v items2 h; exact absurd rfl h
  | cons p items ih =>
    intro v items2 _
    obtain ⟨n, w⟩ := p
    cases items with
    | nil => simp [itemsGlue]
    | cons q items3 =>
      rw [show itemsGlue ((n, w) :: q :: items3) v items2 =
            (n, w) :: itemsGlue (q :: items3) v items2 from rfl]
      simp [ih v items2 (by simp)]

theorem chainCat_str (A B : List Char × List (Nat × List Char)) :
    (chainCat A B).1 ++ blocksStr (chainCat A B).2 =
      (A.1 ++ blocksStr A.2) ++ (B.1 ++ blocksStr B.2) := by
  obtain ⟨w, items⟩ := A
  obtain ⟨w2, items2⟩ := B
  cases items with
  | nil => simp [chainCat, blocksStr]
  | cons p items3 =>
    show w ++ blocksStr (itemsGlue (p :: items3) w2 items2) = _
    rw [itemsGlue_str _ _ _ (by simp)]
    simp

theorem chainCat_ok {A B : List Char × List (Nat × List Char)}
    (hA1 : PatFree A.1) (hA2 : blocksOk A.2) (hB1 : PatFree B.1)
    (hB2 : blocksOk B.2)
    (hd : ∀ d, B.1.head? = some d → d ∉ cbPat.drop 1) :
    PatFree (chainCat A B).1 ∧ blocksOk (chainCat A B).2 := by
  obtain ⟨w, items⟩ := A
  obtain ⟨w2, items2⟩ := B
  cases items with
  | nil => exact ⟨infixFree_glue_right hA1 hB1 hd, hB2⟩
  | cons p items3 => exact ⟨hA1, itemsGlue_ok _ _ _ hA2 hB2 hB1 hd⟩

theorem chainCat_map (A B : List Char × List (Nat × List Char)) :
    (chainCat A B).2.map Prod.fst =
      A.2.map Prod.fst ++ B.2.map Prod.fst := by
  obtain ⟨w, items⟩ := A
  obtain ⟨w2, items2⟩ := B
  cases items with
  | nil => simp [chainCat]
  | cons p items3 =>
    show (itemsGlue (p :: items3) w2 items2).map Prod.fst = _
    rw [itemsGlue_map _ _ _ (by simp)]

/-! ## The restore scan on a chain -/

theorem restore_fire (ps : List (List Char)) (n : Nat) (z : List Char) :
    matchRestoreAt ps (tok n ++ z) =
      some (ps.getD n "undefined".toList, z) := by
  have hs : tok n ++ z =
      "__CODEBLOCK_".toList ++ (natDigits n ++ ('_' :: '_' :: z)) := by
    rw [tok_eq, cbPat]
    simp
  have hdrop : ("__CODEBLOCK_".toList ++
      (natDigits n ++ ('_' :: '_' :: z))).drop 12 =
      natDigits n ++ ('_' :: '_' :: z) := by
    rw [show (12 : Nat) = ("__CODEBLOCK_".toList).length from rfl]
    exact List.drop_left _ _
  have hund : isDigitChar '_' = false := by decide
  have htake : (natDigits n ++ ('_' :: '_' :: z)).takeWhile isDigitChar =
      natDigits n := by
    rw [List.takeWhile_append_of_pos natDigits_digits]
    simp [List.takeWhile_cons, hund]
  have hdropw : (natDigits n ++ ('_' :: '_' :: z)).dropWhile isDigitChar =
      '_' :: '_' :: z := by
    rw [List.dropWhile_append_of_pos natDigits_digits]
    simp [List.dropWhile_cons, hund]
  have h1 : "__CODEBLOCK_".toList.isPrefixOf ("__CODEBLOCK_".toList ++
      (natDigits n ++ ('_' :: '_' :: z))) = true :=
    List.isPrefixOf_iff_prefix.mpr ⟨_, rfl⟩
  have h2 : (natDigits n).isEmpty = false := by
    obtain ⟨c, t, hct⟩ := List.exists_cons_of_ne_nil (natDigits_ne_nil n)
    rw [hct]
    rfl
  have h3 : "__".toList.isPrefixOf ('_' :: '_' :: z) = true :=
    List.isPrefixOf_iff_prefix.mpr ⟨z, rfl⟩
  rw [matchRestoreAt, hs, hdrop, htake, hdropw]
  simp [h1, h2, h3, parseDigits_natDigits]

theorem restore_nofire (ps : List (List Char)) {w tail : List Char}
    (hw : PatFree w) (hne : w ≠ [])
    (ht : tail = [] ∨ ∃ n z, tail = tok n ++ z) :
    matchRestoreAt ps (w ++ tail) = none := by
  cases hm : matchRestoreAt ps (w ++ tail) with
  | none => rfl
  | some gr =>
    exfalso
    obtain ⟨g, r⟩ := gr
    obtain ⟨ds, heq, hds, hdig, -⟩ := matchRestoreAt_spec ps hm
    have hcb : "__CODEBLOCK_".toList = cbPat := rfl
    rw [hcb] at heq
    have hcl : cbPat.length = 12 := by decide
    by_cases hk : 12 ≤ w.length
    · -- the whole stem fits inside w
      apply hw
      have hp1 : cbPat <+: w ++ tail := ⟨_, heq.symm⟩
      have hp2 : w <+: w ++ tail := List.prefix_append w tail
      exact (List.prefix_of_prefix_length_le hp1 hp2 (by omega)).isInfix
    · push_neg at hk
      have hp1 : cbPat <+: w ++ tail := ⟨_, heq.symm⟩
      have hp2 : w <+: w ++ tail := List.prefix_append w tail
      have hwp : w <+: cbPat :=
        List.prefix_of_prefix_length_le hp2 hp1 (by omega)
      obtain ⟨wrest, hwrest⟩ := hwp
      have hwr : wrest = cbPat.drop w.length := by
        rw [← hwrest, List.drop_left]
      have htail : tail = wrest ++ (ds ++ '_' :: '_' :: r) := by
        apply @List.append_cancel_left Char w
        rw [heq, ← hwrest]
        simp
      rcases ht with rfl | ⟨m, z, rfl⟩
      · simp at htail
      · -- the cut sits k chars before a token; only k = 11 survives the
        -- stem-overlap equation, and there the digit run starts with '_'
        rw [tok_eq] at htail
        have hcc : cbPat ++ ((natDigits m ++ ['_', '_']) ++ z) =
            cbPat.drop w.length ++ (ds ++ '_' :: '_' :: r) := by
          rw [← hwr, ← htail]
          simp
        have hlen : (cbPat.drop w.length).length = 12 - w.length := by
          simp [hcl]
        have htk : cbPat.take (12 - w.length) = cbPat.drop w.length := by
          have h5 : (cbPat ++ ((natDigits m ++ ['_', '_']) ++ z)).take
              (12 - w.length) = cbPat.take (12 - w.length) := by
            rw [List.take_append_of_le_length (by omega)]
          have h6 : (cbPat.drop w.length ++ (ds ++ '_' :: '_' :: r)).take
              (12 - w.length) = cbPat.drop w.length := by
            rw [List.take_append_of_le_length (by omega)]
            exact List.take_of_length_le (by omega)
          rw [← h5, hcc, h6]
        have hk01 : w.length = 0 ∨ w.length = 11 := by
          have hdec : ∀ k, k < 12 →
              cbPat.take (12 - k) = cbPat.drop k → k = 0 ∨ k = 11 := by
            decide
          exact hdec w.length hk htk
        rcases hk01 with h0 | h11
        · exact hne (List.length_eq_zero.mp h0)
        · rw [h11] at hcc
          have hd11 : cbPat.drop 11 = ['_'] := by decide
          have hcb2 : cbPat = '_' :: "_CODEBLOCK_".toList := by decide
          rw [hd11, hcb2] at hcc
          simp only [List.cons_append, List.singleton_append] at hcc
          have hcc3 : "_CODEBLOCK_".toList ++
              ((natDigits m ++ ['_', '_']) ++ z) = ds ++ '_' :: '_' :: r := by
            injection hcc
          obtain ⟨d, ds2, rfl⟩ := List.exists_cons_of_ne_nil hds
          have hcb3 : "_CODEBLOCK_".toList = '_' :: "CODEBLOCK_".toList := by
            decide
          rw [hcb3] at hcc3
          simp only [List.cons_append] at hcc3
          have hd : '_' = d := by injection hcc3
          have := hdig d (by simp)
          rw [← hd] at this
          exact absurd this (by decide)

theorem restore_walk (ps : List (List Char)) :
    ∀ (w : List Char) (fuel : Nat) (tail : List Char), PatFree w →
    (tail = [] ∨ ∃ n z, tail = tok n ++ z) → w.length ≤ fuel →
    scanRep (matchRestoreAt ps) fuel (w ++ tail) =
      w ++ scanRep (matchRestoreAt ps) (fuel - w.length) tail := by
  intro w
  induction w with
  | nil => intro fuel tail _ _ _; simp
  | cons c w2 ih =>
    intro fuel tail hw ht hf
    cases fuel with
    | zero => simp at hf
    | succ f =>
      have hnone : matchRestoreAt ps (c :: (w2 ++ tail)) = none := by
        have := @restore_nofire ps (c :: w2) tail hw (by simp) ht
        simpa using this
      show scanRep _ (f + 1) (c :: (w2 ++ tail)) = _
      rw [show scanRep (matchRestoreAt ps) (f + 1) (c :: (w2 ++ tail)) =
            c :: scanRep (matchRestoreAt ps) f (w2 ++ tail) from by
          simp [scanRep, hnone]]
      rw [ih f tail (patFree_mono hw ⟨[c], [], by simp⟩) ht
        (Nat.le_of_succ_le_succ hf)]
      simp [Nat.succ_sub_succ]

theorem restore_chain (ps : List (List Char)) :
    ∀ (items : List (Nat × List Char)) (w : List Char) (fuel : Nat),
    PatFree w → blocksOk items → (w ++ blocksStr items).length ≤ fuel →
    scanRep (matchRestoreAt ps) fuel (w ++ blocksStr items) =
      w ++ restoreBlocks ps items := by
  intro items
  induction items with
  | nil =>
    intro w fuel hw _ hf
    rw [show blocksStr [] = [] from rfl] at hf ⊢
    rw [restore_walk ps w fuel [] hw (Or.inl rfl) (by simpa using hf)]
    rw [scanRep_nil]
    rfl
  | cons p items2 ih =>
    obtain ⟨n, w1⟩ := p
    intro w fuel hw hok hf
    rw [blocksStr_cons] at hf ⊢
    have hwlen : w.length ≤ fuel := by
      simp [List.length_append] at hf
      omega
    rw [restore_walk ps w fuel _ hw (Or.inr ⟨n, _, rfl⟩) hwlen]
    have h15 := tok_length n
    have hlen2 : (w1 ++ blocksStr items2).length + 1 ≤ fuel - w.length := by
      simp [List.length_append] at hf ⊢
      omega
    obtain ⟨f, hF⟩ : ∃ f, fuel - w.length = f + 1 :=
      ⟨fuel - w.length - 1, by omega⟩
    obtain ⟨tc, ttail, htok⟩ : ∃ tc ttail, tok n = tc :: ttail := by
      cases htk : tok n with
      | nil => rw [htk] at h15; simp at h15
      | cons a b => exact ⟨a, b, rfl⟩
    have hfire : matchRestoreAt ps (tc :: (ttail ++ (w1 ++ blocksStr items2)))
        = some (ps.getD n "undefined".toList, w1 ++ blocksStr items2) := by
      rw [← List.cons_append, ← htok]
      exact restore_fire ps n _
    rw [hF, htok, List.cons_append]
    rw [show scanRep (matchRestoreAt ps) (f + 1)
          (tc :: (ttail ++ (w1 ++ blocksStr items2))) =
          ps.getD n "undefined".toList ++
            scanRep (matchRestoreAt ps) f (w1 ++ blocksStr items2) from by
        simp [scanRep, hfire]]
    rw [ih w1 f hok.1 hok.2 (by omega)]
    rfl

/-! ## Splitting a chain at a non-word-character cut -/

theorem patFree_nil : PatFree [] := by
  intro h
  have := List.infix_nil.mp h
  exact absurd this (by decide)

theorem blocksStr_nil : blocksStr [] = [] := rfl

theorem chain_split :
    ∀ (items : List (Nat × List Char)) (w e r : List Char),
    w ++ blocksStr items = e ++ r → PatFree w → blocksOk items →
    ((∃ d, r.head? = some d ∧ isWordChar d = false) ∨
     (∃ d, e.getLast? = some d ∧ isWordChar d = false)) →
    ∃ we itemsE wr itemsR,
      e = we ++ blocksStr itemsE ∧ r = wr ++ blocksStr itemsR ∧
      PatFree we ∧ blocksOk itemsE ∧ PatFree wr ∧ blocksOk itemsR ∧
      items.map Prod.fst = itemsE.map Prod.fst ++ itemsR.map Prod.fst := by
  intro items
  induction items with
  | nil =>
    intro w e r h hw _ _
    rw [blocksStr_nil, List.append_nil] at h
    have hep : e <+: w := ⟨r, h.symm⟩
    have hrs : r <:+ w := ⟨e, h.symm⟩
    exact ⟨e, [], r, [], by simp [blocksStr_nil], by simp [blocksStr_nil],
      patFree_mono hw hep.isInfix, trivial, patFree_mono hw hrs.isInfix,
      trivial, by simp⟩
  | cons p items2 ih =>
    obtain ⟨n, w1⟩ := p
    intro w e r h hw hok hcut
    rw [blocksStr_cons] at h
    rcases List.append_eq_append_iff.mp h with ⟨a1, he, hx⟩ | ⟨c1, hww, hr⟩
    · -- e extends into the token region
      rcases List.append_eq_append_iff.mp hx with ⟨a2, ha1, hy⟩ | ⟨c2, htk, hr2⟩
      · -- the whole token lies inside e
        rcases eq_or_ne a2 [] with rfl | ha2ne
        · refine ⟨w, [(n, [])], w1, items2, ?_, ?_, hw, ⟨patFree_nil, trivial⟩,
            hok.1, hok.2, by simp⟩
          · rw [he, ha1]
            simp [blocksStr_cons, blocksStr_nil]
          · rw [show w1 ++ blocksStr items2 = [] ++ r from hy]
            simp
        · have hcut2 : (∃ d, r.head? = some d ∧ isWordChar d = false) ∨
              (∃ d, a2.getLast? = some d ∧ isWordChar d = false) := by
            rcases hcut with hcr | ⟨d, hde, hdw⟩
            · exact Or.inl hcr
            · refine Or.inr ⟨d, ?_, hdw⟩
              rw [he, ha1] at hde
              rw [List.getLast?_append_of_ne_nil _ (fun hnil =>
                ha2ne (List.append_eq_nil.mp hnil).2)] at hde
              rw [List.getLast?_append_of_ne_nil _ ha2ne] at hde
              exact hde
          obtain ⟨we2, itemsE2, wr, itemsR, hE, hR, hwe2, hokE, hwr, hokR,
            hmap⟩ := ih w1 a2 r hy hok.1 hok.2 hcut2
          refine ⟨w, (n, we2) :: itemsE2, wr, itemsR, ?_, hR, hw,
            ⟨hwe2, hokE⟩, hwr, hokR, by simp [hmap]⟩
          rw [he, ha1, hE]
          simp [blocksStr_cons]
      · -- the cut lies inside or at the edges of the token
        rcases eq_or_ne a1 [] with rfl | ha1ne
        · have hc2 : c2 = tok n := by simpa using htk.symm
          have hef : e = w := by simpa using he
          refine ⟨e, [], [], (n, w1) :: items2, by simp [blocksStr_nil], ?_,
            by rw [hef]; exact hw, trivial, patFree_nil, hok, by simp⟩
          rw [hr2, hc2]
          simp [blocksStr_cons]
        · rcases eq_or_ne c2 [] with rfl | hc2ne
          · rw [List.append_nil] at htk
            refine ⟨w, [(n, [])], w1, items2, ?_, ?_, hw,
              ⟨patFree_nil, trivial⟩, hok.1, hok.2, by simp⟩
            · rw [he, ← htk]
              simp [blocksStr_cons, blocksStr_nil]
            · rw [hr2]
              simp
          · exfalso
            rcases hcut with ⟨d, hde, hdw⟩ | ⟨d, hde, hdw⟩
            · obtain ⟨hc, ct, rfl⟩ := List.exists_cons_of_ne_nil hc2ne
              rw [hr2] at hde
              simp at hde
              have hmem : d ∈ tok n := by
                rw [htk, hde]
                simp
              rw [tok_wordChar d hmem] at hdw
              exact absurd hdw (by simp)
            · rw [he] at hde
              rw [List.getLast?_append_of_ne_nil _ ha1ne] at hde
              have hmem : d ∈ tok n := by
                rw [htk]
                exact List.mem_append_left _ (List.mem_of_mem_getLast? hde)
              rw [tok_wordChar d hmem] at hdw
              exact absurd hdw (by simp)
    · -- e ends inside the head segment
      have hep : e <+: w := ⟨c1, hww.symm⟩
      have hcs : c1 <:+ w := ⟨e, hww.symm⟩
      refine ⟨e, [], c1, (n, w1) :: items2, by simp [blocksStr_nil], ?_,
        patFree_mono hw hep.isInfix, trivial, patFree_mono hw hcs.isInfix,
        hok, by simp⟩
      rw [hr, blocksStr_cons]

/-! ## Inline scanners preserve chains -/

theorem matchBoldAt_none_word {c : Char} (h : isWordChar c) (u : List Char) :
    matchBoldAt (c :: u) = none :=
  matchBoldAt_eq_none (fun heq => by subst heq; exact absurd h (by decide))

theorem matchItalicAt_none_word {c : Char} (h : isWordChar c)
    (u : List Char) : matchItalicAt (c :: u) = none :=
  matchItalicAt_eq_none (fun heq => by subst heq; exact absurd h (by decide))

theorem matchCodeTickAt_none_word {c : Char} (h : isWordChar c)
    (u : List Char) : matchCodeTickAt (c :: u) = none :=
  matchCodeTickAt_eq_none (fun heq => by subst heq; exact absurd h (by decide))

theorem matchLinkAt_none_word {c : Char} (h : isWordChar c) (u : List Char) :
    matchLinkAt (c :: u) = none :=
  matchLinkAt_eq_none (fun heq => by subst heq; exact absurd h (by decide))

theorem glue_left_template {p a b : List Char} {d0 : Char}
    (ha : ¬ p <:+: a) (hb : ¬ p <:+: b) (hlast : a.getLast? = some d0)
    (hd0 : d0 ∉ p.dropLast) : ¬ p <:+: a ++ b :=
  infixFree_glue_left ha hb (fun d hd => by
    rw [hlast] at hd
    injection hd with h
    subst h
    exact hd0)

theorem head_cond_of {b p : List Char} {d0 : Char}
    (hh : b.head? = some d0) (hd0 : d0 ∉ p.drop 1) :
    ∀ d, b.head? = some d → d ∉ p.drop 1 := fun d hd => by
  rw [hh] at hd
  injection hd with h
  subst h
  exact hd0

theorem chainCat_fst_head (x wg : List Char)
    (itemsG : List (Nat × List Char))
    (B : List Char × List (Nat × List Char)) (c : Char) (t : List Char)
    (hx : x = c :: t) :
    ∃ t2, (chainCat (x ++ wg, itemsG) B).1 = c :: t2 := by
  obtain ⟨bw, bitems⟩ := B
  cases itemsG with
  | nil => exact ⟨(t ++ wg) ++ bw, by simp [chainCat, hx]⟩
  | cons p items => exact ⟨t ++ wg, by simp [chainCat, hx]⟩

theorem chain_cons_step {c : Char} {w3 w2 : List Char}
    (hw : PatFree (c :: w3)) (hpf : PatFree w2)
    (hinv : ∀ q, q <+: w2 → '<' ∉ q → q <+: w3) :
    PatFree (c :: w2) ∧ ∀ q, q <+: c :: w2 → '<' ∉ q → q <+: c :: w3 := by
  constructor
  · intro hin
    rcases List.infix_cons_iff.mp hin with hpre | hinf
    · have hcb : cbPat = '_' :: "_CODEBLOCK_".toList := by decide
      rw [hcb] at hpre
      obtain ⟨hc, htail⟩ := List.cons_prefix_cons.mp hpre
      have htl : "_CODEBLOCK_".toList <+: w3 := hinv _ htail (by decide)
      apply hw
      apply List.IsPrefix.isInfix
      rw [hcb]
      exact List.cons_prefix_cons.mpr ⟨hc, htl⟩
    · exact hpf hinf
  · intro q hq hfree
    cases q with
    | nil => exact List.nil_prefix
    | cons a q2 =>
      obtain ⟨ha, hq2⟩ := List.cons_prefix_cons.mp hq
      exact List.cons_prefix_cons.mpr ⟨ha,
        hinv q2 hq2 (fun hm => hfree (List.mem_cons_of_mem _ hm))⟩

theorem scan_chain_bold :
    ∀ fuel (w : List Char) (items : List (Nat × List Char)),
    PatFree w → blocksOk items → (w ++ blocksStr items).length ≤ fuel →
    ∃ w2 items2,
      scanRep matchBoldAt fuel (w ++ blocksStr items) =
        w2 ++ blocksStr items2 ∧
      PatFree w2 ∧ blocksOk items2 ∧
      List.Perm (items.map Prod.fst) (items2.map Prod.fst) ∧
      ∀ q, q <+: w2 → '<' ∉ q → q <+: w := by
  intro fuel
  induction fuel using Nat.strong_induction_on with
  | _ fuel ih =>
    intro w items hw hok hlen
    cases w with
    | nil =>
      cases items with
      | nil =>
        refine ⟨[], [], by simp [blocksStr_nil, scanRep_nil], patFree_nil,
          trivial, by simp, ?_⟩
        intro q hq _
        exact hq
      | cons p items3 =>
        obtain ⟨n, w1⟩ := p
        rw [List.nil_append, blocksStr_cons] at hlen
        have hlen2 : (tok n).length ≤ fuel := by
          simp only [List.length_append] at hlen
          omega
        have hwalk := scanRep_walk matchBoldAt
          (fun c hc u => matchBoldAt_none_word (tok_wordChar c hc) u)
          fuel (w1 ++ blocksStr items3) hlen2
        have h15 := tok_length n
        have hlt : fuel - (tok n).length < fuel := by omega
        have hlen3 : (w1 ++ blocksStr items3).length ≤
            fuel - (tok n).length := by
          simp only [List.length_append] at hlen ⊢
          omega
        obtain ⟨w2, items2, heq, hpf, hok2, hperm, hinv⟩ :=
          ih _ hlt w1 items3 hok.1 hok.2 hlen3
        refine ⟨[], (n, w2) :: items2, ?_, patFree_nil, ⟨hpf, hok2⟩, ?_, ?_⟩
        · rw [List.nil_append, blocksStr_cons, hwalk, heq, List.nil_append,
            blocksStr_cons]
        · simp only [List.map_cons]
          exact hperm.cons n
        · intro q hq _
          exact hq
    | cons c w3 =>
      obtain ⟨f, rfl⟩ : ∃ f, fuel = f + 1 := by
        cases fuel with
        | zero => simp at hlen
        | succ f => exact ⟨f, rfl⟩
      cases hm : matchBoldAt ((c :: w3) ++ blocksStr items) with
      | none =>
        have hm2 : matchBoldAt (c :: (w3 ++ blocksStr items)) = none := by
          simpa using hm
        have hst : scanRep matchBoldAt (f + 1)
            ((c :: w3) ++ blocksStr items) =
            c :: scanRep matchBoldAt f (w3 ++ blocksStr items) := by
          rw [List.cons_append]
          simp [scanRep, hm2]
        have hw3 : PatFree w3 := patFree_mono hw ⟨[c], [], by simp⟩
        have hlen3 : (w3 ++ blocksStr items).length ≤ f := by
          simp only [List.cons_append, List.length_cons,
            List.length_append] at hlen
          simp only [List.length_append]
          omega
        obtain ⟨w2, items2, heq, hpf, hok2, hperm, hinv⟩ :=
          ih f (by omega) w3 items hw3 hok hlen3
        have hstep := chain_cons_step hw hpf hinv
        refine ⟨c :: w2, items2, ?_, hstep.1, hok2, hperm, hstep.2⟩
        rw [hst, heq]
        rfl
      | some gr =>
        obtain ⟨g, r⟩ := gr
        have hm2 : matchBoldAt (c :: (w3 ++ blocksStr items)) =
            some (g, r) := by
          simpa using hm
        obtain ⟨grp, hs, hg, -⟩ := matchBoldAt_spec hm2
        have hst : scanRep matchBoldAt (f + 1)
            ((c :: w3) ++ blocksStr items) =
            g ++ scanRep matchBoldAt f r := by
          rw [List.cons_append]
          simp [scanRep, hm2]
        have heq1 : (c :: w3) ++ blocksStr items =
            ['*', '*'] ++ (grp ++ (['*', '*'] ++ r)) := by
          rw [List.cons_append, hs]
          simp
        obtain ⟨we1, itemsE1, wr1, itemsR1, hE1, hR1, -, -, hwr1, hokR1,
          hmap1⟩ := chain_split items (c :: w3) ['*', '*']
            (grp ++ (['*', '*'] ++ r)) heq1 hw hok
            (Or.inr ⟨'*', by decide, by decide⟩)
        have hE1nil : itemsE1 = [] := by
          by_contra hne
          have h15 := blocksStr_length hne
          have hl2 : (we1 ++ blocksStr itemsE1).length = 2 := by
            rw [← hE1]
            rfl
          simp only [List.length_append] at hl2
          omega
        rw [hE1nil] at hmap1
        simp only [List.map_nil, List.nil_append] at hmap1
        obtain ⟨wg, itemsG, wr2, itemsR2, hG, hR2, hwg, hokG, hwr2, hokR2,
          hmap2⟩ := chain_split itemsR1 wr1 grp (['*', '*'] ++ r) hR1.symm
            hwr1 hokR1 (Or.inl ⟨'*', rfl, by decide⟩)
        obtain ⟨wd, itemsD, wr3, itemsR3, hD, hR3, -, -, hwr3, hokR3,
          hmap3⟩ := chain_split itemsR2 wr2 ['*', '*'] r hR2.symm hwr2 hokR2
            (Or.inr ⟨'*', by decide, by decide⟩)
        have hDnil : itemsD = [] := by
          by_contra hne
          have h15 := blocksStr_length hne
          have hl2 : (wd ++ blocksStr itemsD).length = 2 := by
            rw [← hD]
            rfl
          simp only [List.length_append] at hl2
          omega
        rw [hDnil] at hmap3
        simp only [List.map_nil, List.nil_append] at hmap3
        have hrlen : r.length ≤ f := by
          have hrl := matchBoldAt_length hm2
          simp only [List.cons_append, List.length_cons,
            List.length_append] at hrl hlen
          omega
        obtain ⟨wo, itemsO, hOeq, hOpf, hOok, hOperm, hOinv⟩ :=
          ih f (by omega) wr3 itemsR3 hwr3 hokR3 (by rw [← hR3]; exact hrlen)
        have hA1 : PatFree ("<strong>".toList ++ wg) :=
          glue_left_template
            (infixFree_of_not_mem (show 'K' ∈ cbPat from by decide)
              (by decide)) hwg
            (show ("<strong>".toList).getLast? = some '>' from by decide)
            (by decide)
        have hB1 : PatFree ("</strong>".toList ++ wo) :=
          glue_left_template
            (infixFree_of_not_mem (show 'K' ∈ cbPat from by decide)
              (by decide)) hOpf
            (show ("</strong>".toList).getLast? = some '>' from by decide)
            (by decide)
        have hcat := chainCat_ok (A := ("<strong>".toList ++ wg, itemsG))
          (B := ("</strong>".toList ++ wo, itemsO)) hA1 hokG hB1 hOok
          (head_cond_of rfl (by decide))
        refine ⟨(chainCat ("<strong>".toList ++ wg, itemsG)
            ("</strong>".toList ++ wo, itemsO)).1,
          (chainCat ("<strong>".toList ++ wg, itemsG)
            ("</strong>".toList ++ wo, itemsO)).2, ?_, hcat.1, hcat.2, ?_, ?_⟩
        · rw [hst, hR3, hOeq, chainCat_str]
          rw [hg, hG]
          simp
        · rw [chainCat_map]
          rw [hmap1, hmap2, hmap3]
          exact List.Perm.append_left _ hOperm
        · intro q hq hfree
          cases q with
          | nil => exact List.nil_prefix
          | cons a q2 =>
            exfalso
            obtain ⟨t2, ht2⟩ := chainCat_fst_head "<strong>".toList wg
              itemsG ("</strong>".toList ++ wo, itemsO) '<'
              "strong>".toList rfl
            rw [ht2] at hq
            have ha := (List.cons_prefix_cons.mp hq).1
            exact hfree (by simp [ha])

theorem scan_chain_italic :
    ∀ fuel (w : List Char) (items : List (Nat × List Char)),
    PatFree w → blocksOk items → (w ++ blocksStr items).length ≤ fuel →
    ∃ w2 items2,
      scanRep matchItalicAt fuel (w ++ blocksStr items) =
        w2 ++ blocksStr items2 ∧
      PatFree w2 ∧ blocksOk items2 ∧
      List.Perm (items.map Prod.fst) (items2.map Prod.fst) ∧
      ∀ q, q <+: w2 → '<' ∉ q → q <+: w := by
  intro fuel
  induction fuel using Nat.strong_induction_on with
  | _ fuel ih =>
    intro w items hw hok hlen
    cases w with
    | nil =>
      cases items with
      | nil =>
        refine ⟨[], [], by simp [blocksStr_nil, scanRep_nil], patFree_nil,
          trivial, by simp, ?_⟩
        intro q hq _
        exact hq
      | cons p items3 =>
        obtain ⟨n, w1⟩ := p
        rw [List.nil_append, blocksStr_cons] at hlen
        have hlen2 : (tok n).length ≤ fuel := by
          simp only [List.length_append] at hlen
          omega
        have hwalk := scanRep_walk matchItalicAt
          (fun c hc u => matchItalicAt_none_word (tok_wordChar c hc) u)
          fuel (w1 ++ blocksStr items3) hlen2
        have h15 := tok_length n
        have hlt : fuel - (tok n).length < fuel := by omega
        have hlen3 : (w1 ++ blocksStr items3).length ≤
            fuel - (tok n).length := by
          simp only [List.length_append] at hlen ⊢
          omega
        obtain ⟨w2, items2, heq, hpf, hok2, hperm, hinv⟩ :=
          ih _ hlt w1 items3 hok.1 hok.2 hlen3
        refine ⟨[], (n, w2) :: items2, ?_, patFree_nil, ⟨hpf, hok2⟩, ?_, ?_⟩
        · rw [List.nil_append, blocksStr_cons, hwalk, heq, List.nil_append,
            blocksStr_cons]
        · simp only [List.map_cons]
          exact hperm.cons n
        · intro q hq _
          exact hq
    | cons c w3 =>
      obtain ⟨f, rfl⟩ : ∃ f, fuel = f + 1 := by
        cases fuel with
        | zero => simp at hlen
        | succ f => exact ⟨f, rfl⟩
      cases hm : matchItalicAt ((c :: w3) ++ blocksStr items) with
      | none =>
        have hm2 : matchItalicAt (c :: (w3 ++ blocksStr items)) = none := by
          simpa using hm
        have hst : scanRep matchItalicAt (f + 1)
            ((c :: w3) ++ blocksStr items) =
            c :: scanRep matchItalicAt f (w3 ++ blocksStr items) := by
          rw [List.cons_append]
          simp [scanRep, hm2]
        have hw3 : PatFree w3 := patFree_mono hw ⟨[c], [], by simp⟩
        have hlen3 : (w3 ++ blocksStr items).length ≤ f := by
          simp only [List.cons_append, List.length_cons,
            List.length_append] at hlen
          simp only [List.length_append]
          omega
        obtain ⟨w2, items2, heq, hpf, hok2, hperm, hinv⟩ :=
          ih f (by omega) w3 items hw3 hok hlen3
        have hstep := chain_cons_step hw hpf hinv
        refine ⟨c :: w2, items2, ?_, hstep.1, hok2, hperm, hstep.2⟩
        rw [hst, heq]
        rfl
      | some gr =>
        obtain ⟨g, r⟩ := gr
        have hm2 : matchItalicAt (c :: (w3 ++ blocksStr items)) =
            some (g, r) := by
          simpa using hm
        obtain ⟨grp, hs, hg, -⟩ := matchItalicAt_spec hm2
        have hst : scanRep matchItalicAt (f + 1)
            ((c :: w3) ++ blocksStr items) =
            g ++ scanRep matchItalicAt f r := by
          rw [List.cons_append]
          simp [scanRep, hm2]
        have heq1 : (c :: w3) ++ blocksStr items =
            ['*'] ++ (grp ++ (['*'] ++ r)) := by
          rw [List.cons_append, hs]
          simp
        obtain ⟨we1, itemsE1, wr1, itemsR1, hE1, hR1, -, -, hwr1, hokR1,
          hmap1⟩ := chain_split items (c :: w3) ['*']
            (grp ++ (['*'] ++ r)) heq1 hw hok
            (Or.inr ⟨'*', by decide, by decide⟩)
        have hE1nil : itemsE1 = [] := by
          by_contra hne
          have h15 := blocksStr_length hne
          have hl2 : (we1 ++ blocksStr itemsE1).length = 1 := by
            rw [← hE1]
            rfl
          simp only [List.length_append] at hl2
          omega
        rw [hE1nil] at hmap1
        simp only [List.map_nil, List.nil_append] at hmap1
        obtain ⟨wg, itemsG, wr2, itemsR2, hG, hR2, hwg, hokG, hwr2, hokR2,
          hmap2⟩ := chain_split itemsR1 wr1 grp (['*'] ++ r) hR1.symm
            hwr1 hokR1 (Or.inl ⟨'*', rfl, by decide⟩)
        obtain ⟨wd, itemsD, wr3, itemsR3, hD, hR3, -, -, hwr3, hokR3,
          hmap3⟩ := chain_split itemsR2 wr2 ['*'] r hR2.symm hwr2 hokR2
            (Or.inr ⟨'*', by decide, by decide⟩)
        have hDnil : itemsD = [] := by
          by_contra hne
          have h15 := blocksStr_length hne
          have hl2 : (wd ++ blocksStr itemsD).length = 1 := by
            rw [← hD]
            rfl
          simp only [List.length_append] at hl2
          omega
        rw [hDnil] at hmap3
        simp only [List.map_nil, List.nil_append] at hmap3
        have hrlen : r.length ≤ f := by
          have hrl := matchItalicAt_length hm2
          simp only [List.cons_append, List.length_cons,
            List.length_append] at hrl hlen
          omega
        obtain ⟨wo, itemsO, hOeq, hOpf, hOok, hOperm, hOinv⟩ :=
          ih f (by omega) wr3 itemsR3 hwr3 hokR3 (by rw [← hR3]; exact hrlen)
        have hA1 : PatFree ("<em>".toList ++ wg) :=
          glue_left_template
            (infixFree_of_not_mem (show 'K' ∈ cbPat from by decide)
              (by decide)) hwg
            (show ("<em>".toList).getLast? = some '>' from by decide)
            (by decide)
        have hB1 : PatFree ("</em>".toList ++ wo) :=
          glue_left_template
            (infixFree_of_not_mem (show 'K' ∈ cbPat from by decide)
              (by decide)) hOpf
            (show ("</em>".toList).getLast? = some '>' from by decide)
            (by decide)
        have hcat := chainCat_ok (A := ("<em>".toList ++ wg, itemsG))
          (B := ("</em>".toList ++ wo, itemsO)) hA1 hokG hB1 hOok
          (head_cond_of rfl (by decide))
        refine ⟨(chainCat ("<em>".toList ++ wg, itemsG)
            ("</em>".toList ++ wo, itemsO)).1,
          (chainCat ("<em>".toList ++ wg, itemsG)
            ("</em>".toList ++ wo, itemsO)).2, ?_, hcat.1, hcat.2, ?_, ?_⟩
        · rw [hst, hR3, hOeq, chainCat_str]
          rw [hg, hG]
          simp
        · rw [chainCat_map]
          rw [hmap1, hmap2, hmap3]
          exact List.Perm.append_left _ hOperm
        · intro q hq hfree
          cases q with
          | nil => exact List.nil_prefix
          | cons a q2 =>
            exfalso
            obtain ⟨t2, ht2⟩ := chainCat_fst_head "<em>".toList wg
              itemsG ("</em>".toList ++ wo, itemsO) '<' "em>".toList rfl
            rw [ht2] at hq
            have ha := (List.cons_prefix_cons.mp hq).1
            exact hfree (by simp [ha])

theorem scan_chain_code :
    ∀ fuel (w : List Char) (items : List (Nat × List Char)),
    PatFree w → blocksOk items → (w ++ blocksStr items).length ≤ fuel →
    ∃ w2 items2,
      scanRep matchCodeTickAt fuel (w ++ blocksStr items) =
        w2 ++ blocksStr items2 ∧
      PatFree w2 ∧ blocksOk items2 ∧
      List.Perm (items.map Prod.fst) (items2.map Prod.fst) ∧
      ∀ q, q <+: w2 → '<' ∉ q → q <+: w := by
  intro fuel
  induction fuel using Nat.strong_induction_on with
  | _ fuel ih =>
    intro w items hw hok hlen
    cases w with
    | nil =>
      cases items with
      | nil =>
        refine ⟨[], [], by simp [blocksStr_nil, scanRep_nil], patFree_nil,
          trivial, by simp, ?_⟩
        intro q hq _
        exact hq
      | cons p items3 =>
        obtain ⟨n, w1⟩ := p
        rw [List.nil_append, blocksStr_cons] at hlen
        have hlen2 : (tok n).length ≤ fuel := by
          simp only [List.length_append] at hlen
          omega
        have hwalk := scanRep_walk matchCodeTickAt
          (fun c hc u => matchCodeTickAt_none_word (tok_wordChar c hc) u)
          fuel (w1 ++ blocksStr items3) hlen2
        have h15 := tok_length n
        have hlt : fuel - (tok n).length < fuel := by omega
        have hlen3 : (w1 ++ blocksStr items3).length ≤
            fuel - (tok n).length := by
          simp only [List.length_append] at hlen ⊢
          omega
        obtain ⟨w2, items2, heq, hpf, hok2, hperm, hinv⟩ :=
          ih _ hlt w1 items3 hok.1 hok.2 hlen3
        refine ⟨[], (n, w2) :: items2, ?_, patFree_nil, ⟨hpf, hok2⟩, ?_, ?_⟩
        · rw [List.nil_append, blocksStr_cons, hwalk, heq, List.nil_append,
            blocksStr_cons]
        · simp only [List.map_cons]
          exact hperm.cons n
        · intro q hq _
          exact hq
    | cons c w3 =>
      obtain ⟨f, rfl⟩ : ∃ f, fuel = f + 1 := by
        cases fuel with
        | zero => simp at hlen
        | succ f => exact ⟨f, rfl⟩
      cases hm : matchCodeTickAt ((c :: w3) ++ blocksStr items) with
      | none =>
        have hm2 : matchCodeTickAt (c :: (w3 ++ blocksStr items)) = none := by
          simpa using hm
        have hst : scanRep matchCodeTickAt (f + 1)
            ((c :: w3) ++ blocksStr items) =
            c :: scanRep matchCodeTickAt f (w3 ++ blocksStr items) := by
          rw [List.cons_append]
          simp [scanRep, hm2]
        have hw3 : PatFree w3 := patFree_mono hw ⟨[c], [], by simp⟩
        have hlen3 : (w3 ++ blocksStr items).length ≤ f := by
          simp only [List.cons_append, List.length_cons,
            List.length_append] at hlen
          simp only [List.length_append]
          omega
        obtain ⟨w2, items2, heq, hpf, hok2, hperm, hinv⟩ :=
          ih f (by omega) w3 items hw3 hok hlen3
        have hstep := chain_cons_step hw hpf hinv
        refine ⟨c :: w2, items2, ?_, hstep.1, hok2, hperm, hstep.2⟩
        rw [hst, heq]
        rfl
      | some gr =>
        obtain ⟨g, r⟩ := gr
        have hm2 : matchCodeTickAt (c :: (w3 ++ blocksStr items)) =
            some (g, r) := by
          simpa using hm
        obtain ⟨grp, hs, hg, -, -⟩ := matchCodeTickAt_spec hm2
        have hst : scanRep matchCodeTickAt (f + 1)
            ((c :: w3) ++ blocksStr items) =
            g ++ scanRep matchCodeTickAt f r := by
          rw [List.cons_append]
          simp [scanRep, hm2]
        have heq1 : (c :: w3) ++ blocksStr items =
            ['`'] ++ (grp ++ (['`'] ++ r)) := by
          rw [List.cons_append, hs]
          simp
        obtain ⟨we1, itemsE1, wr1, itemsR1, hE1, hR1, -, -, hwr1, hokR1,
          hmap1⟩ := chain_split items (c :: w3) ['`']
            (grp ++ (['`'] ++ r)) heq1 hw hok
            (Or.inr ⟨'`', by decide, by decide⟩)
        have hE1nil : itemsE1 = [] := by
          by_contra hne
          have h15 := blocksStr_length hne
          have hl2 : (we1 ++ blocksStr itemsE1).length = 1 := by
            rw [← hE1]
            rfl
          simp only [List.length_append] at hl2
          omega
        rw [hE1nil] at hmap1
        simp only [List.map_nil, List.nil_append] at hmap1
        obtain ⟨wg, itemsG, wr2, itemsR2, hG, hR2, hwg, hokG, hwr2, hokR2,
          hmap2⟩ := chain_split itemsR1 wr1 grp (['`'] ++ r) hR1.symm
            hwr1 hokR1 (Or.inl ⟨'`', rfl, by decide⟩)
        obtain ⟨wd, itemsD, wr3, itemsR3, hD, hR3, -, -, hwr3, hokR3,
          hmap3⟩ := chain_split itemsR2 wr2 ['`'] r hR2.symm hwr2 hokR2
            (Or.inr ⟨'`', by decide, by decide⟩)
        have hDnil : itemsD = [] := by
          by_contra hne
          have h15 := blocksStr_length hne
          have hl2 : (wd ++ blocksStr itemsD).length = 1 := by
            rw [← hD]
            rfl
          simp only [List.length_append] at hl2
          omega
        rw [hDnil] at hmap3
        simp only [List.map_nil, List.nil_append] at hmap3
        have hrlen : r.length ≤ f := by
          have hrl := matchCodeTickAt_length hm2
          simp only [List.cons_append, List.length_cons,
            List.length_append] at hrl hlen
          omega
        obtain ⟨wo, itemsO, hOeq, hOpf, hOok, hOperm, hOinv⟩ :=
          ih f (by omega) wr3 itemsR3 hwr3 hokR3 (by rw [← hR3]; exact hrlen)
        have hA1 : PatFree ("<code>".toList ++ wg) :=
          glue_left_template
            (infixFree_of_not_mem (show 'K' ∈ cbPat from by decide)
              (by decide)) hwg
            (show ("<code>".toList).getLast? = some '>' from by decide)
            (by decide)
        have hB1 : PatFree ("</code>".toList ++ wo) :=
          glue_left_template
            (infixFree_of_not_mem (show 'K' ∈ cbPat from by decide)
              (by decide)) hOpf
            (show ("</code>".toList).getLast? = some '>' from by decide)
            (by decide)
        have hcat := chainCat_ok (A := ("<code>".toList ++ wg, itemsG))
          (B := ("</code>".toList ++ wo, itemsO)) hA1 hokG hB1 hOok
          (head_cond_of rfl (by decide))
        refine ⟨(chainCat ("<code>".toList ++ wg, itemsG)
            ("</code>".toList ++ wo, itemsO)).1,
          (chainCat ("<code>".toList ++ wg, itemsG)
            ("</code>".toList ++ wo, itemsO)).2, ?_, hcat.1, hcat.2, ?_, ?_⟩
        · rw [hst, hR3, hOeq, chainCat_str]
          rw [hg, hG]
          simp
        · rw [chainCat_map]
          rw [hmap1, hmap2, hmap3]
          exact List.Perm.append_left _ hOperm
        · intro q hq hfree
          cases q with
          | nil => exact List.nil_prefix
          | cons a q2 =>
            exfalso
            obtain ⟨t2, ht2⟩ := chainCat_fst_head "<code>".toList wg
              itemsG ("</code>".toList ++ wo, itemsO) '<' "code>".toList rfl
            rw [ht2] at hq
            have ha := (List.cons_prefix_cons.mp hq).1
            exact hfree (by simp [ha])

theorem scan_chain_link :
    ∀ fuel (w : List Char) (items : List (Nat × List Char)),
    PatFree w → blocksOk items → (w ++ blocksStr items).length ≤ fuel →
    ∃ w2 items2,
      scanRep matchLinkAt fuel (w ++ blocksStr items) =
        w2 ++ blocksStr items2 ∧
      PatFree w2 ∧ blocksOk items2 ∧
      List.Perm (items.map Prod.fst) (items2.map Prod.fst) ∧
      ∀ q, q <+: w2 → '<' ∉ q → q <+: w := by
  intro fuel
  induction fuel using Nat.strong_induction_on with
  | _ fuel ih =>
    intro w items hw hok hlen
    cases w with
    | nil =>
      cases items with
      | nil =>
        refine ⟨[], [], by simp [blocksStr_nil, scanRep_nil], patFree_nil,
          trivial, by simp, ?_⟩
        intro q hq _
        exact hq
      | cons p items3 =>
        obtain ⟨n, w1⟩ := p
        rw [List.nil_append, blocksStr_cons] at hlen
        have hlen2 : (tok n).length ≤ fuel := by
          simp only [List.length_append] at hlen
          omega
        have hwalk := scanRep_walk matchLinkAt
          (fun c hc u => matchLinkAt_none_word (tok_wordChar c hc) u)
          fuel (w1 ++ blocksStr items3) hlen2
        have h15 := tok_length n
        have hlt : fuel - (tok n).length < fuel := by omega
        have hlen3 : (w1 ++ blocksStr items3).length ≤
            fuel - (tok n).length := by
          simp only [List.length_append] at hlen ⊢
          omega
        obtain ⟨w2, items2, heq, hpf, hok2, hperm, hinv⟩ :=
          ih _ hlt w1 items3 hok.1 hok.2 hlen3
        refine ⟨[], (n, w2) :: items2, ?_, patFree_nil, ⟨hpf, hok2⟩, ?_, ?_⟩
        · rw [List.nil_append, blocksStr_cons, hwalk, heq, List.nil_append,
            blocksStr_cons]
        · simp only [List.map_cons]
          exact hperm.cons n
        · intro q hq _
          exact hq
    | cons c w3 =>
      obtain ⟨f, rfl⟩ : ∃ f, fuel = f + 1 := by
        cases fuel with
        | zero => simp at hlen
        | succ f => exact ⟨f, rfl⟩
      cases hm : matchLinkAt ((c :: w3) ++ blocksStr items) with
      | none =>
        have hm2 : matchLinkAt (c :: (w3 ++ blocksStr items)) = none := by
          simpa using hm
        have hst : scanRep matchLinkAt (f + 1)
            ((c :: w3) ++ blocksStr items) =
            c :: scanRep matchLinkAt f (w3 ++ blocksStr items) := by
          rw [List.cons_append]
          simp [scanRep, hm2]
        have hw3 : PatFree w3 := patFree_mono hw ⟨[c], [], by simp⟩
        have hlen3 : (w3 ++ blocksStr items).length ≤ f := by
          simp only [List.cons_append, List.length_cons,
            List.length_append] at hlen
          simp only [List.length_append]
          omega
        obtain ⟨w2, items2, heq, hpf, hok2, hperm, hinv⟩ :=
          ih f (by omega) w3 items hw3 hok hlen3
        have hstep := chain_cons_step hw hpf hinv
        refine ⟨c :: w2, items2, ?_, hstep.1, hok2, hperm, hstep.2⟩
        rw [hst, heq]
        rfl
      | some gr =>
        obtain ⟨g, r⟩ := gr
        have hm2 : matchLinkAt (c :: (w3 ++ blocksStr items)) =
            some (g, r) := by
          simpa using hm
        obtain ⟨txt, url, hs, hg, -, -, -, -⟩ := matchLinkAt_spec hm2
        have hst : scanRep matchLinkAt (f + 1)
            ((c :: w3) ++ blocksStr items) =
            g ++ scanRep matchLinkAt f r := by
          rw [List.cons_append]
          simp [scanRep, hm2]
        have heq1 : (c :: w3) ++ blocksStr items =
            ['['] ++ (txt ++ ([']', '('] ++ (url ++ ([')'] ++ r)))) := by
          rw [List.cons_append, hs]
          simp
        obtain ⟨we1, itemsE1, wr1, itemsR1, hE1, hR1, -, -, hwr1, hokR1,
          hmap1⟩ := chain_split items (c :: w3) ['[']
            (txt ++ ([']', '('] ++ (url ++ ([')'] ++ r)))) heq1 hw hok
            (Or.inr ⟨'[', by decide, by decide⟩)
        have hE1nil : itemsE1 = [] := by
          by_contra hne
          have h15 := blocksStr_length hne
          have hl2 : (we1 ++ blocksStr itemsE1).length = 1 := by
            rw [← hE1]
            rfl
          simp only [List.length_append] at hl2
          omega
        rw [hE1nil] at hmap1
        simp only [List.map_nil, List.nil_append] at hmap1
        obtain ⟨wT, itemsT, wr2, itemsR2, hT, hR2, hwT, hokT, hwr2, hokR2,
          hmap2⟩ := chain_split itemsR1 wr1 txt
            ([']', '('] ++ (url ++ ([')'] ++ r))) hR1.symm hwr1 hokR1
            (Or.inl ⟨']', rfl, by decide⟩)
        obtain ⟨we3, itemsE3, wr3, itemsR3, hE3, hR3, -, -, hwr3, hokR3,
          hmap3⟩ := chain_split itemsR2 wr2 [']', '(']
            (url ++ ([')'] ++ r)) hR2.symm hwr2 hokR2
            (Or.inr ⟨'(', by decide, by decide⟩)
        have hE3nil : itemsE3 = [] := by
          by_contra hne
          have h15 := blocksStr_length hne
          have hl2 : (we3 ++ blocksStr itemsE3).length = 2 := by
            rw [← hE3]
            rfl
          simp only [List.length_append] at hl2
          omega
        rw [hE3nil] at hmap3
        simp only [List.map_nil, List.nil_append] at hmap3
        obtain ⟨wU, itemsU, wr4, itemsR4, hU, hR4, hwU, hokU, hwr4, hokR4,
          hmap4⟩ := chain_split itemsR3 wr3 url ([')'] ++ r) hR3.symm
            hwr3 hokR3 (Or.inl ⟨')', rfl, by decide⟩)
        obtain ⟨we5, itemsE5, wr5, itemsR5, hE5, hR5, -, -, hwr5, hokR5,
          hmap5⟩ := chain_split itemsR4 wr4 [')'] r hR4.symm hwr4 hokR4
            (Or.inr ⟨')', by decide, by decide⟩)
        have hE5nil : itemsE5 = [] := by
          by_contra hne
          have h15 := blocksStr_length hne
          have hl2 : (we5 ++ blocksStr itemsE5).length = 1 := by
            rw [← hE5]
            rfl
          simp only [List.length_append] at hl2
          omega
        rw [hE5nil] at hmap5
        simp only [List.map_nil, List.nil_append] at hmap5
        have hrlen : r.length ≤ f := by
          have hrl := matchLinkAt_length hm2
          simp only [List.cons_append, List.length_cons,
            List.length_append] at hrl hlen
          omega
        obtain ⟨wo, itemsO, hOeq, hOpf, hOok, hOperm, hOinv⟩ :=
          ih f (by omega) wr5 itemsR5 hwr5 hokR5 (by rw [← hR5]; exact hrlen)
        have hA1 : PatFree ("<a href=\"".toList ++ wU) :=
          glue_left_template
            (infixFree_of_not_mem (show 'K' ∈ cbPat from by decide)
              (by decide)) hwU
            (show ("<a href=\"".toList).getLast? = some '"' from by decide)
            (by decide)
        have hT1 : PatFree
            ("\" target=\"_blank\" rel=\"noopener noreferrer\">".toList ++ wT) :=
          glue_left_template
            (infixFree_of_not_mem (show 'K' ∈ cbPat from by decide)
              (by decide)) hwT
            (show ("\" target=\"_blank\" rel=\"noopener noreferrer\">".toList).getLast? = some '>' from by decide)
            (by decide)
        have hB1 : PatFree ("</a>".toList ++ wo) :=
          glue_left_template
            (infixFree_of_not_mem (show 'K' ∈ cbPat from by decide)
              (by decide)) hOpf
            (show ("</a>".toList).getLast? = some '>' from by decide)
            (by decide)
        have hinner := chainCat_ok
          (A := ("\" target=\"_blank\" rel=\"noopener noreferrer\">".toList ++ wT, itemsT))
          (B := ("</a>".toList ++ wo, itemsO)) hT1 hokT hB1 hOok
          (head_cond_of rfl (by decide))
        obtain ⟨ti, hti⟩ := chainCat_fst_head
          "\" target=\"_blank\" rel=\"noopener noreferrer\">".toList wT
          itemsT ("</a>".toList ++ wo, itemsO) '"'
          " target=\"_blank\" rel=\"noopener noreferrer\">".toList rfl
        have houter := chainCat_ok
          (A := ("<a href=\"".toList ++ wU, itemsU))
          (B := chainCat ("\" target=\"_blank\" rel=\"noopener noreferrer\">".toList ++ wT, itemsT) ("</a>".toList ++ wo, itemsO))
          hA1 hokU hinner.1 hinner.2
          (head_cond_of (by rw [hti]; rfl) (by decide))
        refine ⟨(chainCat ("<a href=\"".toList ++ wU, itemsU)
            (chainCat ("\" target=\"_blank\" rel=\"noopener noreferrer\">".toList ++ wT, itemsT) ("</a>".toList ++ wo, itemsO))).1,
          (chainCat ("<a href=\"".toList ++ wU, itemsU)
            (chainCat ("\" target=\"_blank\" rel=\"noopener noreferrer\">".toList ++ wT, itemsT) ("</a>".toList ++ wo, itemsO))).2,
          ?_, houter.1, houter.2, ?_, ?_⟩
        · rw [hst, hR5, hOeq, chainCat_str, chainCat_str]
          rw [hg, hU, hT]
          simp
        · rw [chainCat_map, chainCat_map]
          have h1 : items.map Prod.fst = itemsT.map Prod.fst ++
              (itemsU.map Prod.fst ++ itemsR5.map Prod.fst) := by
            rw [hmap1, hmap2, hmap3, hmap4, hmap5]
          rw [h1]
          have h2 : List.Perm
              (itemsT.map Prod.fst ++ (itemsU.map Prod.fst ++
                itemsR5.map Prod.fst))
              (itemsT.map Prod.fst ++ (itemsU.map Prod.fst ++
                itemsO.map Prod.fst)) :=
            List.Perm.append_left _ (List.Perm.append_left _ hOperm)
          have h3 : List.Perm
              (itemsT.map Prod.fst ++ (itemsU.map Prod.fst ++
                itemsO.map Prod.fst))
              (itemsU.map Prod.fst ++ (itemsT.map Prod.fst ++
                itemsO.map Prod.fst)) := by
            rw [← List.append_assoc, ← List.append_assoc]
            exact List.Perm.append_right _ List.perm_append_comm
          exact h2.trans h3
        · intro q hq hfree
          cases q with
          | nil => exact List.nil_prefix
          | cons a q2 =>
            exfalso
            obtain ⟨t2, ht2⟩ := chainCat_fst_head "<a href=\"".toList wU
              itemsU (chainCat
                ("\" target=\"_blank\" rel=\"noopener noreferrer\">".toList
                  ++ wT, itemsT) ("</a>".toList ++ wo, itemsO)) '<'
              "a href=\"".toList rfl
            rw [ht2] at hq
            have ha := (List.cons_prefix_cons.mp hq).1
            exact hfree (by simp [ha])

/-! ## Escaping and chains -/

theorem mem_replaceChar {x c : Char} {rep s : List Char}
    (h : x ∈ replaceChar c rep s) : x ∈ rep ∨ (x ∈ s ∧ x ≠ c) := by
  rw [replaceChar, List.mem_flatMap] at h
  obtain ⟨a, ha, hx⟩ := h
  by_cases hac : a = c
  · rw [if_pos hac] at hx
    exact Or.inl hx
  · rw [if_neg hac] at hx
    simp at hx
    subst hx
    exact Or.inr ⟨ha, hac⟩

theorem escapeHTML_no_lt (s : List Char) : '<' ∉ escapeHTML s := by
  intro h
  rcases mem_replaceChar h with h1 | ⟨h2, -⟩
  · exact absurd h1 (by decide)
  · rcases mem_replaceChar h2 with h3 | ⟨-, h4⟩
    · exact absurd h3 (by decide)
    · exact h4 rfl

theorem replaceChar_cons_eq (c : Char) (rep : List Char) (s : List Char) :
    replaceChar c rep (c :: s) = rep ++ replaceChar c rep s := by
  simp [replaceChar]

theorem replaceChar_cons_ne {a c : Char} (h : ¬ a = c) (rep s : List Char) :
    replaceChar c rep (a :: s) = a :: replaceChar c rep s := by
  simp [replaceChar, h]

theorem replaceChar_pref {c : Char} {rep : List Char} (hrepne : rep ≠ []) :
    ∀ {s q : List Char}, (∀ x ∈ rep, x ∉ q) →
    q <+: replaceChar c rep s → q <+: s := by
  intro s
  induction s with
  | nil =>
    intro q _ h
    simpa [replaceChar] using h
  | cons a s2 ih =>
    intro q hq h
    by_cases hac : a = c
    · subst hac
      rw [replaceChar_cons_eq] at h
      cases q with
      | nil => exact List.nil_prefix
      | cons b q2 =>
        exfalso
        obtain ⟨rh, rt, rfl⟩ := List.exists_cons_of_ne_nil hrepne
        have hb := (List.cons_prefix_cons.mp (by simpa using h)).1
        exact hq rh (by simp) (by simp [hb])
    · rw [replaceChar_cons_ne hac] at h
      cases q with
      | nil => exact List.nil_prefix
      | cons b q2 =>
        obtain ⟨rfl, h2⟩ := List.cons_prefix_cons.mp h
        exact List.cons_prefix_cons.mpr
          ⟨rfl, ih (fun x hx hm => hq x hx (by simp [hm])) h2⟩

theorem replaceChar_infixFree {p : List Char} {c : Char} {rep : List Char}
    (hrepne : rep ≠ []) (hrep : ∀ x ∈ rep, x ∉ p) :
    ∀ {s}, ¬ p <:+: s → ¬ p <:+: replaceChar c rep s := by
  intro s
  induction s with
  | nil =>
    intro h hin
    rw [show replaceChar c rep [] = [] from rfl] at hin
    exact h hin
  | cons a s2 ih =>
    intro h hin
    have hpne : p ≠ [] := fun hp => h (hp ▸ List.nil_infix)
    have hs2 : ¬ p <:+: s2 := fun hx => h (hx.trans ⟨[a], [], by simp⟩)
    by_cases hac : a = c
    · subst hac
      rw [replaceChar_cons_eq] at hin
      rcases infix_append_cases hin with h1 | h2 |
        ⟨p1, p2, heq, hp1, hp2, hsuf, hpre⟩
      · obtain ⟨ph, pt, rfl⟩ := List.exists_cons_of_ne_nil hpne
        exact hrep ph (h1.subset (by simp)) (by simp)
      · exact ih hs2 h2
      · obtain ⟨d, hd⟩ : ∃ d, p1.getLast? = some d := by
          cases hg : p1.getLast? with
          | none => exact absurd (List.getLast?_eq_none_iff.mp hg) hp1
          | some d => exact ⟨d, rfl⟩
        have hdrep : d ∈ rep := hsuf.subset (List.mem_of_mem_getLast? hd)
        have hdp : d ∈ p := by
          rw [heq]
          exact List.mem_append_left _ (List.mem_of_mem_getLast? hd)
        exact hrep d hdrep hdp
    · rw [replaceChar_cons_ne hac] at hin
      rcases List.infix_cons_iff.mp hin with hpre | hinf
      · cases p with
        | nil => exact h List.nil_infix
        | cons b p2 =>
          obtain ⟨rfl, hp2⟩ := List.cons_prefix_cons.mp hpre
          have hp2s : p2 <+: s2 := replaceChar_pref hrepne
            (fun x hx hm => hrep x hx (by simp [hm])) hp2
          exact h (List.IsPrefix.isInfix (List.cons_prefix_cons.mpr
            ⟨rfl, hp2s⟩))
      · exact ih hs2 hinf

theorem escapeHTML_patFree {s : List Char} (h : PatFree s) :
    PatFree (escapeHTML s) := by
  have h1 : ¬ cbPat <:+: replaceChar '<' "&lt;".toList s :=
    replaceChar_infixFree (by decide) (by decide) h
  exact replaceChar_infixFree (by decide) (by decide) h1

theorem escapeHTML_id_of {s : List Char}
    (h : ∀ c ∈ s, ¬ c = '<' ∧ ¬ c = '>') : escapeHTML s = s := by
  induction s with
  | nil => rfl
  | cons a s2 ih =>
    have ha := h a (by simp)
    show replaceChar '>' "&gt;".toList
      (replaceChar '<' "&lt;".toList (a :: s2)) = a :: s2
    rw [replaceChar_cons_ne ha.1, replaceChar_cons_ne ha.2,
      show replaceChar '>' "&gt;".toList
        (replaceChar '<' "&lt;".toList s2) = escapeHTML s2 from rfl,
      ih (fun c hc => h c (by simp [hc]))]

theorem escapeHTML_tok (n : Nat) : escapeHTML (tok n) = tok n :=
  escapeHTML_id_of (fun c hc => by
    have hword := tok_wordChar c hc
    constructor
    · intro he
      subst he
      exact absurd hword (by decide)
    · intro he
      subst he
      exact absurd hword (by decide))

theorem escapeHTML_blocksStr (items : List (Nat × List Char)) :
    escapeHTML (blocksStr items) =
      blocksStr (items.map (fun p => (p.1, escapeHTML p.2))) := by
  induction items with
  | nil => rfl
  | cons p items2 ih =>
    obtain ⟨n, w⟩ := p
    simp only [List.map_cons]
    rw [blocksStr_cons, blocksStr_cons, escapeHTML_append,
      escapeHTML_append, escapeHTML_tok, ih]

theorem escape_blocksOk {items : List (Nat × List Char)}
    (h : blocksOk items) :
    blocksOk (items.map (fun p => (p.1, escapeHTML p.2))) := by
  induction items with
  | nil => exact trivial
  | cons p items2 ih =>
    obtain ⟨n, w⟩ := p
    exact ⟨escapeHTML_patFree h.1, ih h.2⟩

theorem map_fst_escape (items : List (Nat × List Char)) :
    (items.map (fun p => (p.1, escapeHTML p.2))).map Prod.fst =
      items.map Prod.fst := by
  induction items with
  | nil => rfl
  | cons p items2 ih => simp [ih]

/-! ## Locating an occurrence inside a chain -/

theorem tok_cons (n : Nat) : ∃ tc tt, tok n = tc :: tt := by
  cases htk : tok n with
  | nil =>
    have h15 := tok_length n
    rw [htk] at h15
    simp at h15
  | cons a b => exact ⟨a, b, rfl⟩

theorem tok_chars (n : Nat) :
    ∀ c ∈ tok n, c = '_' ∨ c.isUpper ∨ isDigitChar c := by
  intro c hc
  rw [tok] at hc
  rcases List.mem_append.mp hc with h1 | h2
  · rcases List.mem_append.mp h1 with h1a | h1b
    · fin_cases h1a <;>
        first
          | exact Or.inl rfl
          | exact Or.inr (Or.inl (by decide))
    · exact Or.inr (Or.inr (natDigits_digits c h1b))
  · fin_cases h2 <;> exact Or.inl rfl

theorem escScript_not_tok :
    ∀ c ∈ "&lt;script&gt;".toList, ∀ n, c ∉ tok n := by
  intro c hc n hmem
  rcases tok_chars n c hmem with h | h | h
  · subst h
    exact absurd hc (by decide)
  · fin_cases hc <;> exact absurd h (by decide)
  · fin_cases hc <;> exact absurd h (by decide)

theorem infix_chain_localize {p : List Char} (hp : p ≠ [])
    (hdisj : ∀ c ∈ p, ∀ n, c ∉ tok n) :
    ∀ (items : List (Nat × List Char)) (w : List Char),
    p <:+: w ++ blocksStr items →
    p <:+: w ∨ ∃ it ∈ items, p <:+: it.2 := by
  intro items
  induction items with
  | nil =>
    intro w h
    rw [blocksStr_nil, List.append_nil] at h
    exact Or.inl h
  | cons q items2 ih =>
    obtain ⟨n, w1⟩ := q
    intro w h
    rw [blocksStr_cons] at h
    rcases infix_append_cases h with h1 | h2 |
      ⟨p1, p2, heq, hp1, hp2, hsuf, hpre⟩
    · exact Or.inl h1
    · rcases infix_append_cases h2 with h3 | h4 |
        ⟨p1, p2, heq, hp1, hp2, hsuf, hpre⟩
      · exfalso
        obtain ⟨ph, pt, rfl⟩ := List.exists_cons_of_ne_nil hp
        exact hdisj ph (by simp) n (h3.subset (by simp))
      · rcases ih w1 h4 with ha | ⟨it, hit, hi⟩
        · exact Or.inr ⟨(n, w1), by simp, ha⟩
        · exact Or.inr ⟨it, by simp [hit], hi⟩
      · exfalso
        obtain ⟨d, hd⟩ : ∃ d, p1.getLast? = some d := by
          cases hg : p1.getLast? with
          | none => exact absurd (List.getLast?_eq_none_iff.mp hg) hp1
          | some d => exact ⟨d, rfl⟩
        have hdp : d ∈ p := by
          rw [heq]
          exact List.mem_append_left _ (List.mem_of_mem_getLast? hd)
        exact hdisj d hdp n (hsuf.subset (List.mem_of_mem_getLast? hd))
    · exfalso
      obtain ⟨ph2, pt2, rfl⟩ := List.exists_cons_of_ne_nil hp2
      obtain ⟨tc, tt, htc⟩ := tok_cons n
      rw [htc, List.cons_append] at hpre
      obtain ⟨heq2, -⟩ := List.cons_prefix_cons.mp hpre
      have hin : ph2 ∈ p := by
        rw [heq]
        simp
      exact hdisj ph2 hin n (by rw [htc, heq2]; simp)

/-! ## From the restore output back to occurrences -/

theorem restore_seg_occ (ps : List (List Char)) :
    ∀ (items : List (Nat × List Char)) (it : Nat × List Char),
    it ∈ items → it.2 <:+: restoreBlocks ps items := by
  intro items
  induction items with
  | nil => intro it hit; simp at hit
  | cons q items2 ih =>
    obtain ⟨n, w1⟩ := q
    intro it hit
    rcases List.mem_cons.mp hit with rfl | hmem
    · exact ⟨ps.getD n "undefined".toList, restoreBlocks ps items2, by
        rw [show restoreBlocks ps ((n, w1) :: items2) =
          ps.getD n "undefined".toList ++
            (w1 ++ restoreBlocks ps items2) from rfl]
        simp⟩
    · exact (ih it hmem).trans ⟨ps.getD n "undefined".toList ++ w1, [], by
        rw [show restoreBlocks ps ((n, w1) :: items2) =
          ps.getD n "undefined".toList ++
            (w1 ++ restoreBlocks ps items2) from rfl]
        simp⟩

theorem restore_block_infix (ps : List (List Char)) :
    ∀ (items : List (Nat × List Char)) (n : Nat),
    n ∈ items.map Prod.fst →
    ps.getD n "undefined".toList <:+: restoreBlocks ps items := by
  intro items
  induction items with
  | nil => intro n hn; simp at hn
  | cons q items2 ih =>
    obtain ⟨m, w1⟩ := q
    intro n hn
    simp only [List.map_cons, List.mem_cons] at hn
    rcases hn with rfl | hmem
    · exact ⟨[], w1 ++ restoreBlocks ps items2, by
        rw [show restoreBlocks ps ((n, w1) :: items2) =
          ps.getD n "undefined".toList ++
            (w1 ++ restoreBlocks ps items2) from rfl]
        simp⟩
    · exact (ih n hmem).trans ⟨ps.getD m "undefined".toList ++ w1, [], by
        rw [show restoreBlocks ps ((m, w1) :: items2) =
          ps.getD m "undefined".toList ++
            (w1 ++ restoreBlocks ps items2) from rfl]
        simp⟩

/-! ## The fence-extraction pass produces a chain -/

theorem extract_chain :
    ∀ (fuel : Nat) (s : List Char) (acc : List (List Char)),
    s.length ≤ fuel →
    ∃ w0 items souts tail0,
      (extractFencesF fuel s acc).1 = w0 ++ blocksStr items ∧
      (extractFencesF fuel s acc).2 = acc ++ souts ∧
      items.map Prod.fst = List.range' acc.length souts.length ∧
      s = w0 ++ tail0 ∧
      (tail0 = [] ∨ ∃ lb : List Char × List Char × List Char,
        matchFenceAt tail0 = some lb) ∧
      (∀ it ∈ items, it.2 <:+: s) ∧
      (∀ m ∈ souts, ∃ lang body, m = codeMarkup lang body ∧
        (∀ c ∈ lang, isWordChar c)) ∧
      ("<script>".toList <:+: s →
        "<script>".toList <:+: w0 ∨
        (∃ it ∈ items, "<script>".toList <:+: it.2) ∨
        (∃ j, j < souts.length ∧ ∃ lang body,
          souts.getD j [] = codeMarkup lang body ∧
          "<script>".toList <:+: body)) := by
  intro fuel
  induction fuel with
  | zero =>
    intro s acc hlen
    have hs : s = [] := List.eq_nil_of_length_eq_zero (Nat.le_zero.mp hlen)
    subst hs
    refine ⟨[], [], [], [], by simp [blocksStr_nil, extractFencesF],
      by simp [extractFencesF], by simp, rfl,
      Or.inl rfl, by simp, by simp, ?_⟩
    intro h
    exact absurd (List.infix_nil.mp h) (by decide)
  | succ f ih =>
    intro s acc hlen
    cases hm : matchFenceAt s with
    | some lbr =>
      obtain ⟨lang, body, rest⟩ := lbr
      obtain ⟨hs, hlang⟩ := matchFenceAt_spec hm
      have hrlen : rest.length ≤ f := by
        have := matchFenceAt_length hm
        omega
      obtain ⟨w0', items', souts', tail0', h1, h2, h3, h4, h5, h6, h7, h8⟩ :=
        ih rest (acc ++ [codeMarkup lang body]) hrlen
      have hE : extractFencesF (f + 1) s acc =
          (tok acc.length ++
            (extractFencesF f rest (acc ++ [codeMarkup lang body])).1,
           (extractFencesF f rest (acc ++ [codeMarkup lang body])).2) := by
        simp [extractFencesF, hm]
      have hrs : rest <:+: s :=
        ⟨'`' :: '`' :: '`' :: (lang ++ '\n' :: (body ++ ['`', '`', '`'])),
          [], by rw [hs]; simp⟩
      refine ⟨[], (acc.length, w0') :: items',
        codeMarkup lang body :: souts', s, ?_, ?_, ?_, by simp,
        Or.inr ⟨(lang, body, rest), hm⟩, ?_, ?_, ?_⟩
      · rw [hE]
        rw [show (tok acc.length ++
            (extractFencesF f rest (acc ++ [codeMarkup lang body])).1,
            (extractFencesF f rest (acc ++ [codeMarkup lang body])).2).1 =
          tok acc.length ++
            (extractFencesF f rest (acc ++ [codeMarkup lang body])).1
          from rfl, h1, blocksStr_cons]
        rfl
      · rw [hE]
        rw [show (tok acc.length ++
            (extractFencesF f rest (acc ++ [codeMarkup lang body])).1,
            (extractFencesF f rest (acc ++ [codeMarkup lang body])).2).2 =
          (extractFencesF f rest (acc ++ [codeMarkup lang body])).2
          from rfl, h2]
        simp
      · have hacc : (acc ++ [codeMarkup lang body]).length = acc.length + 1 :=
          by simp
        rw [List.map_cons, h3, hacc]
        rfl
      · intro it hit
        rcases List.mem_cons.mp hit with rfl | hmem
        · exact (List.IsPrefix.isInfix ⟨tail0', h4.symm⟩).trans hrs
        · exact (h6 it hmem).trans hrs
      · intro m hmem2
        rcases List.mem_cons.mp hmem2 with rfl | hm2
        · exact ⟨lang, body, rfl, hlang⟩
        · exact h7 m hm2
      · intro hocc
        have hsA : s = (['`', '`', '`'] ++ ((lang ++ '\n' :: body) ++
            ['`', '`', '`'])) ++ rest := by
          rw [hs]
          simp
        rw [hsA] at hocc
        rcases infix_append_cases hocc with hA | hrest |
          ⟨p1, p2, heq, hp1, hp2, hsuf, hpre⟩
        · have hmid : "<script>".toList <:+: lang ++ '\n' :: body :=
            infix_middle hA
              (show ("<script>".toList).head? = some '<' from rfl)
              (by decide)
              (show ("<script>".toList).getLast? = some '>' from by decide)
              (by decide)
          rcases infix_append_cases hmid with hl1 | hl2 |
            ⟨p1, p2, heq, hp1, hp2, hsuf, hpre⟩
          · exfalso
            have hltm : '<' ∈ lang := hl1.subset (by decide)
            have := hlang '<' hltm
            exact absurd this (by decide)
          · rcases List.infix_cons_iff.mp hl2 with hp | hb
            · exfalso
              have hsc : "<script>".toList =
                  '<' :: "script>".toList := rfl
              rw [hsc] at hp
              exact absurd (List.cons_prefix_cons.mp hp).1 (by decide)
            · exact Or.inr (Or.inr ⟨0, by simp, lang, body, rfl, hb⟩)
          · exfalso
            obtain ⟨q1h, q1t, rfl⟩ := List.exists_cons_of_ne_nil hp1
            have h9 := congrArg List.head? heq
            simp at h9
            have hltm : '<' ∈ lang := by
              rw [h9]
              exact hsuf.subset (by simp)
            have := hlang '<' hltm
            exact absurd this (by decide)
        · rcases h8 hrest with hx | ⟨it, hit, hx⟩ | ⟨j, hj, l2, b2, hgd, hx⟩
          · exact Or.inr (Or.inl ⟨(acc.length, w0'), by simp, hx⟩)
          · exact Or.inr (Or.inl ⟨it, by simp [hit], hx⟩)
          · refine Or.inr (Or.inr ⟨j + 1, by simpa using hj, l2, b2, ?_, hx⟩)
            simpa using hgd
        · exfalso
          obtain ⟨x, hx⟩ := hsuf
          have hAg : (['`', '`', '`'] ++ ((lang ++ '\n' :: body) ++
              ['`', '`', '`'])).getLast? = some '`' := by
            rw [List.getLast?_append_of_ne_nil _ (by simp)]
            rw [List.getLast?_append_of_ne_nil _ (by simp)]
            rfl
          rw [← hx, List.getLast?_append_of_ne_nil _ hp1] at hAg
          have hmem : '`' ∈ p1 :=
            List.mem_of_mem_getLast? hAg
          have : '`' ∈ "<script>".toList := by
            rw [heq]
            exact List.mem_append_left _ hmem
          exact absurd this (by decide)
    | none =>
      cases s with
      | nil =>
        refine ⟨[], [], [], [], ?_, ?_, by simp, rfl, Or.inl rfl, by simp,
          by simp, ?_⟩
        · simp [extractFencesF, hm, blocksStr_nil]
        · simp [extractFencesF, hm]
        · intro h
          exact absurd (List.infix_nil.mp h) (by decide)
      | cons c t =>
        have hE : extractFencesF (f + 1) (c :: t) acc =
            (c :: (extractFencesF f t acc).1,
             (extractFencesF f t acc).2) := by
          simp [extractFencesF, hm]
        have htlen : t.length ≤ f := by
          simp at hlen
          omega
        obtain ⟨w0', items', souts', tail0', h1, h2, h3, h4, h5, h6, h7,
          h8⟩ := ih t acc htlen
        refine ⟨c :: w0', items', souts', tail0', ?_, ?_, h3, ?_, h5, ?_,
          h7, ?_⟩
        · rw [hE]
          rw [show (c :: (extractFencesF f t acc).1,
              (extractFencesF f t acc).2).1 =
            c :: (extractFencesF f t acc).1 from rfl, h1]
          rfl
        · rw [hE]
          exact h2
        · rw [List.cons_append, ← h4]
        · intro it hit
          exact (h6 it hit).trans ⟨[c], [], by simp⟩
        · intro hocc
          rcases List.infix_cons_iff.mp hocc with hpre | hinf
          · rw [show c :: t = (c :: w0') ++ tail0' from by
              rw [List.cons_append, ← h4]] at hpre
            rcases prefix_append_cases hpre with hp1 | ⟨q, hq, hqp⟩
            · exact Or.inl hp1.isInfix
            · rcases eq_or_ne q [] with rfl | hqne
              · rw [List.append_nil] at hq
                exact Or.inl (hq ▸ List.infix_refl _)
              · exfalso
                rcases h5 with rfl | ⟨⟨l2, b2, r2⟩, hfm⟩
                · exact hqne (List.prefix_nil.mp hqp)
                · obtain ⟨hs2, -⟩ := matchFenceAt_spec hfm
                  obtain ⟨qh, qt, rfl⟩ := List.exists_cons_of_ne_nil hqne
                  rw [hs2] at hqp
                  have hqh := (List.cons_prefix_cons.mp hqp).1
                  have : '`' ∈ "<script>".toList := by
                    rw [hq, ← hqh]
                    simp
                  exact absurd this (by decide)
          · rcases h8 hinf with hx | hx | hx
            · exact Or.inl (hx.trans ⟨[c], [], by simp⟩)
            · exact Or.inr (Or.inl hx)
            · exact Or.inr (Or.inr hx)

/-! ## Trim and markup occurrence lemmas -/

theorem infix_dropWhile {p : List Char} {pred : Char → Bool}
    (hpne : p ≠ []) (hp : ∀ c ∈ p, pred c = false) :
    ∀ {b : List Char}, p <:+: b → p <:+: b.dropWhile pred := by
  intro b
  induction b with
  | nil => intro h; simpa using h
  | cons c t ih =>
    intro h
    by_cases hc : pred c = true
    · rw [show (c :: t).dropWhile pred = t.dropWhile pred from by
        simp [List.dropWhile_cons, hc]]
      rcases List.infix_cons_iff.mp h with hpre | hinf
      · exfalso
        obtain ⟨ph, pt, rfl⟩ := List.exists_cons_of_ne_nil hpne
        have hh := (List.cons_prefix_cons.mp hpre).1
        have h2 := hp ph (by simp)
        rw [hh] at h2
        rw [h2] at hc
        exact absurd hc (by simp)
      · exact ih hinf
    · rw [show (c :: t).dropWhile pred = c :: t from by
        simp [List.dropWhile_cons, hc]]
      exact h

theorem infix_jsTrim {p b : List Char} (hpne : p ≠ [])
    (hws : ∀ c ∈ p, c.isWhitespace = false) (h : p <:+: b) :
    p <:+: jsTrim b := by
  have h1 : p <:+: b.dropWhile Char.isWhitespace :=
    infix_dropWhile hpne hws h
  have h2 : p.reverse <:+: (b.dropWhile Char.isWhitespace).reverse :=
    List.reverse_infix.mpr h1
  have h3 : p.reverse <:+:
      ((b.dropWhile Char.isWhitespace).reverse).dropWhile
        Char.isWhitespace :=
    infix_dropWhile (by simpa using hpne)
      (fun c hc => hws c (by simpa using hc)) h2
  have h4 := List.reverse_infix.mpr h3
  rw [List.reverse_reverse] at h4
  exact h4

theorem markup_contains_escScript {lang body : List Char}
    (h : "<script>".toList <:+: body) :
    "&lt;script&gt;".toList <:+: codeMarkup lang body := by
  have h1 : "<script>".toList <:+: jsTrim body :=
    infix_jsTrim (by decide) (by decide) h
  have h2 : escapeHTML "<script>".toList <:+: escapeHTML (jsTrim body) :=
    escapeHTML_infix_pres h1
  have h3 : escapeHTML "<script>".toList = "&lt;script&gt;".toList := by
    decide
  rw [h3] at h2
  refine h2.trans ?_
  exact ⟨"<pre><code class=\"language-".toList ++
      (if lang.isEmpty then "plaintext".toList else lang) ++
      " hljs\">".toList, "</code></pre>".toList, by rw [codeMarkup]⟩

theorem blocksOk_of_segs {s : List Char} (hfree : PatFree s) :
    ∀ {items : List (Nat × List Char)},
    (∀ it ∈ items, it.2 <:+: s) → blocksOk items := by
  intro items
  induction items with
  | nil => intro _; exact trivial
  | cons p items2 ih =>
    obtain ⟨n, w⟩ := p
    intro h
    exact ⟨patFree_mono hfree (h (n, w) (by simp)),
      ih (fun it hit => h it (by simp [hit]))⟩

theorem blocksStr_seg_infix :
    ∀ (items : List (Nat × List Char)) (it : Nat × List Char),
    it ∈ items → it.2 <:+: blocksStr items := by
  intro items
  induction items with
  | nil => intro it hit; simp at hit
  | cons q items2 ih =>
    obtain ⟨n, w1⟩ := q
    intro it hit
    rcases List.mem_cons.mp hit with rfl | hmem
    · exact ⟨tok n, blocksStr items2, by rw [blocksStr_cons]; simp⟩
    · exact (ih it hmem).trans ⟨tok n ++ w1, [], by
        rw [blocksStr_cons]; simp⟩

/-! ## The full pipeline on collision-free input -/

theorem parseMarkdown_escapes_script (s : String)
    (hfree : ¬ "__CODEBLOCK_".toList <:+: s.toList)
    (hocc : "<script>".toList <:+: s.toList) :
    "&lt;script&gt;".toList <:+: (parseMarkdown s).data := by
  have hfree2 : PatFree s.toList := hfree
  obtain ⟨w0, items0, souts, tail0, h1, h2, h3, h4, h5, h6, h7, h8⟩ :=
    extract_chain s.toList.length s.toList [] le_rfl
  have hE1 : (extractFences s.toList []).1 = w0 ++ blocksStr items0 := h1
  have hps : (extractFences s.toList []).2 = souts := by
    rw [show (extractFences s.toList []).2 =
      (extractFencesF s.toList.length s.toList []).2 from rfl, h2]
    simp
  have hw0 : PatFree w0 :=
    patFree_mono hfree2 (List.IsPrefix.isInfix ⟨tail0, h4.symm⟩)
  have hok0 : blocksOk items0 := blocksOk_of_segs hfree2 h6
  obtain ⟨itemsE, hIE⟩ :
      ∃ itemsE, items0.map (fun p => (p.1, escapeHTML p.2)) = itemsE :=
    ⟨_, rfl⟩
  have hokE : blocksOk itemsE := hIE ▸ escape_blocksOk hok0
  have hwE : PatFree (escapeHTML w0) := escapeHTML_patFree hw0
  have hmapE : itemsE.map Prod.fst = items0.map Prod.fst := by
    rw [← hIE]
    exact map_fst_escape items0
  have hS1 : escapeHTML (extractFences s.toList []).1 =
      escapeHTML w0 ++ blocksStr itemsE := by
    rw [hE1, escapeHTML_append, escapeHTML_blocksStr, hIE]
  obtain ⟨wB, itB, heqB, hpfB, hokB, hpermB, -⟩ :=
    scan_chain_bold (escapeHTML w0 ++ blocksStr itemsE).length
      (escapeHTML w0) itemsE hwE hokE le_rfl
  have hscanB : scan matchBoldAt
      (escapeHTML (extractFences s.toList []).1) = wB ++ blocksStr itB := by
    rw [scan, hS1]
    exact heqB
  obtain ⟨wI, itI, heqI, hpfI, hokI, hpermI, -⟩ :=
    scan_chain_italic (wB ++ blocksStr itB).length wB itB hpfB hokB le_rfl
  have hscanI : scan matchItalicAt (scan matchBoldAt
      (escapeHTML (extractFences s.toList []).1)) =
      wI ++ blocksStr itI := by
    rw [hscanB, scan]
    exact heqI
  obtain ⟨wC, itC, heqC, hpfC, hokC, hpermC, -⟩ :=
    scan_chain_code (wI ++ blocksStr itI).length wI itI hpfI hokI le_rfl
  have hscanC : scan matchCodeTickAt (scan matchItalicAt (scan matchBoldAt
      (escapeHTML (extractFences s.toList []).1))) =
      wC ++ blocksStr itC := by
    rw [hscanI, scan]
    exact heqC
  obtain ⟨wL, itL, heqL, hpfL, hokL, hpermL, -⟩ :=
    scan_chain_link (wC ++ blocksStr itC).length wC itC hpfC hokC le_rfl
  have hscanL : scan matchLinkAt (scan matchCodeTickAt (scan matchItalicAt
      (scan matchBoldAt (escapeHTML (extractFences s.toList []).1)))) =
      wL ++ blocksStr itL := by
    rw [hscanC, scan]
    exact heqL
  have hrest : scan (matchRestoreAt (extractFences s.toList []).2)
      (scan matchLinkAt (scan matchCodeTickAt (scan matchItalicAt
        (scan matchBoldAt (escapeHTML (extractFences s.toList []).1))))) =
      wL ++ restoreBlocks (extractFences s.toList []).2 itL := by
    rw [hscanL, scan]
    exact restore_chain (extractFences s.toList []).2 itL wL
      (wL ++ blocksStr itL).length hpfL hokL le_rfl
  have hpm : (parseMarkdown s).data =
      wL ++ restoreBlocks (extractFences s.toList []).2 itL := hrest
  rw [hpm]
  have htrigB : ∀ c ∈ "&lt;script&gt;".toList, ∀ t,
      matchBoldAt (c :: t) = none := by
    intro c hc t
    apply matchBoldAt_eq_none
    intro he
    subst he
    exact absurd hc (by decide)
  have htrigI : ∀ c ∈ "&lt;script&gt;".toList, ∀ t,
      matchItalicAt (c :: t) = none := by
    intro c hc t
    apply matchItalicAt_eq_none
    intro he
    subst he
    exact absurd hc (by decide)
  have htrigC : ∀ c ∈ "&lt;script&gt;".toList, ∀ t,
      matchCodeTickAt (c :: t) = none := by
    intro c hc t
    apply matchCodeTickAt_eq_none
    intro he
    subst he
    exact absurd hc (by decide)
  have htrigL : ∀ c ∈ "&lt;script&gt;".toList, ∀ t,
      matchLinkAt (c :: t) = none := by
    intro c hc t
    apply matchLinkAt_eq_none
    intro he
    subst he
    exact absurd hc (by decide)
  rcases h8 hocc with hx | ⟨it, hit, hx⟩ | ⟨j, hj, lang, body, hgd, hx⟩
  · -- the occurrence lies in the leading residual segment
    have hU : "&lt;script&gt;".toList <:+:
        escapeHTML (extractFences s.toList []).1 := by
      rw [hS1]
      have he1 : escapeHTML "<script>".toList <:+: escapeHTML w0 :=
        escapeHTML_infix_pres hx
      rw [show escapeHTML "<script>".toList =
        "&lt;script&gt;".toList from by decide] at he1
      exact he1.trans ⟨[], blocksStr itemsE, by simp⟩
    have hU1 := scanRep_infix_pres matchBoldAt "&lt;script&gt;".toList
      htrigB bold_hmatch_script
      (escapeHTML (extractFences s.toList []).1).length _ hU
    rw [show scanRep matchBoldAt
        (escapeHTML (extractFences s.toList []).1).length
        (escapeHTML (extractFences s.toList []).1) =
      scan matchBoldAt (escapeHTML (extractFences s.toList []).1)
      from rfl] at hU1
    have hU2 := scanRep_infix_pres matchItalicAt "&lt;script&gt;".toList
      htrigI italic_hmatch_script
      (scan matchBoldAt (escapeHTML (extractFences s.toList []).1)).length
      _ hU1
    rw [show scanRep matchItalicAt
        (scan matchBoldAt (escapeHTML (extractFences s.toList []).1)).length
        (scan matchBoldAt (escapeHTML (extractFences s.toList []).1)) =
      scan matchItalicAt (scan matchBoldAt
        (escapeHTML (extractFences s.toList []).1)) from rfl] at hU2
    have hU3 := scanRep_infix_pres matchCodeTickAt "&lt;script&gt;".toList
      htrigC codeTick_hmatch_script
      (scan matchItalicAt (scan matchBoldAt
        (escapeHTML (extractFences s.toList []).1))).length _ hU2
    rw [show scanRep matchCodeTickAt
        (scan matchItalicAt (scan matchBoldAt
          (escapeHTML (extractFences s.toList []).1))).length
        (scan matchItalicAt (scan matchBoldAt
          (escapeHTML (extractFences s.toList []).1))) =
      scan matchCodeTickAt (scan matchItalicAt (scan matchBoldAt
        (escapeHTML (extractFences s.toList []).1))) from rfl] at hU3
    have hU4 := scanRep_infix_pres matchLinkAt "&lt;script&gt;".toList
      htrigL link_hmatch_script
      (scan matchCodeTickAt (scan matchItalicAt (scan matchBoldAt
        (escapeHTML (extractFences s.toList []).1)))).length _ hU3
    rw [show scanRep matchLinkAt
        (scan matchCodeTickAt (scan matchItalicAt (scan matchBoldAt
          (escapeHTML (extractFences s.toList []).1)))).length
        (scan matchCodeTickAt (scan matchItalicAt (scan matchBoldAt
          (escapeHTML (extractFences s.toList []).1)))) =
      scan matchLinkAt (scan matchCodeTickAt (scan matchItalicAt
        (scan matchBoldAt (escapeHTML (extractFences s.toList []).1))))
      from rfl, hscanL] at hU4
    rcases infix_chain_localize (by decide) escScript_not_tok itL wL hU4
      with hw | ⟨it2, hit2, hseg⟩
    · exact hw.trans ⟨[], restoreBlocks (extractFences s.toList []).2 itL,
        by simp⟩
    · exact (hseg.trans
        (restore_seg_occ (extractFences s.toList []).2 itL it2 hit2)).trans
        ⟨wL, [], by simp⟩
  · -- the occurrence lies in a later residual segment
    have hU : "&lt;script&gt;".toList <:+:
        escapeHTML (extractFences s.toList []).1 := by
      rw [hS1]
      have he1 : escapeHTML "<script>".toList <:+: escapeHTML it.2 :=
        escapeHTML_infix_pres hx
      rw [show escapeHTML "<script>".toList =
        "&lt;script&gt;".toList from by decide] at he1
      have hmem2 : (it.1, escapeHTML it.2) ∈ itemsE := by
        rw [← hIE]
        exact List.mem_map.mpr ⟨it, hit, rfl⟩
      have hsegE : escapeHTML it.2 <:+: blocksStr itemsE :=
        blocksStr_seg_infix itemsE (it.1, escapeHTML it.2) hmem2
      exact (he1.trans hsegE).trans ⟨escapeHTML w0, [], by simp⟩
    have hU1 := scanRep_infix_pres matchBoldAt "&lt;script&gt;".toList
      htrigB bold_hmatch_script
      (escapeHTML (extractFences s.toList []).1).length _ hU
    rw [show scanRep matchBoldAt
        (escapeHTML (extractFences s.toList []).1).length
        (escapeHTML (extractFences s.toList []).1) =
      scan matchBoldAt (escapeHTML (extractFences s.toList []).1)
      from rfl] at hU1
    have hU2 := scanRep_infix_pres matchItalicAt "&lt;script&gt;".toList
      htrigI italic_hmatch_script
      (scan matchBoldAt (escapeHTML (extractFences s.toList []).1)).length
      _ hU1
    rw [show scanRep matchItalicAt
        (scan matchBoldAt (escapeHTML (extractFences s.toList []).1)).length
        (scan matchBoldAt (escapeHTML (extractFences s.toList []).1)) =
      scan matchItalicAt (scan matchBoldAt
        (escapeHTML (extractFences s.toList []).1)) from rfl] at hU2
    have hU3 := scanRep_infix_pres matchCodeTickAt "&lt;script&gt;".toList
      htrigC codeTick_hmatch_script
      (scan matchItalicAt (scan matchBoldAt
        (escapeHTML (extractFences s.toList []).1))).length _ hU2
    rw [show scanRep matchCodeTickAt
        (scan matchItalicAt (scan matchBoldAt
          (escapeHTML (extractFences s.toList []).1))).length
        (scan matchItalicAt (scan matchBoldAt
          (escapeHTML (extractFences s.toList []).1))) =
      scan matchCodeTickAt (scan matchItalicAt (scan matchBoldAt
        (escapeHTML (extractFences s.toList []).1))) from rfl] at hU3
    have hU4 := scanRep_infix_pres matchLinkAt "&lt;script&gt;".toList
      htrigL link_hmatch_script
      (scan matchCodeTickAt (scan matchItalicAt (scan matchBoldAt
        (escapeHTML (extractFences s.toList []).1)))).length _ hU3
    rw [show scanRep matchLinkAt
        (scan matchCodeTickAt (scan matchItalicAt (scan matchBoldAt
          (escapeHTML (extractFences s.toList []).1)))).length
        (scan matchCodeTickAt (scan matchItalicAt (scan matchBoldAt
          (escapeHTML (extractFences s.toList []).1)))) =
      scan matchLinkAt (scan matchCodeTickAt (scan matchItalicAt
        (scan matchBoldAt (escapeHTML (extractFences s.toList []).1))))
      from rfl, hscanL] at hU4
    rcases infix_chain_localize (by decide) escScript_not_tok itL wL hU4
      with hw | ⟨it2, hit2, hseg⟩
    · exact hw.trans ⟨[], restoreBlocks (extractFences s.toList []).2 itL,
        by simp⟩
    · exact (hseg.trans
        (restore_seg_occ (extractFences s.toList []).2 itL it2 hit2)).trans
        ⟨wL, [], by simp⟩
  · -- the occurrence lies in a fenced body: follow the block index
    have hjlen : j < (extractFences s.toList []).2.length := by
      rw [hps]
      exact hj
    have hgd2 : (extractFences s.toList []).2.getD j "undefined".toList =
        codeMarkup lang body := by
      rw [hps, List.getD_eq_getElem souts "undefined".toList hj,
        ← List.getD_eq_getElem souts [] hj, hgd]
    have hj0 : j ∈ items0.map Prod.fst := by
      rw [h3]
      rw [List.mem_range'_1]
      simpa using hj
    have hjE : j ∈ itemsE.map Prod.fst := by
      rw [hmapE]
      exact hj0
    have hjB : j ∈ itB.map Prod.fst := hpermB.mem_iff.mp hjE
    have hjI : j ∈ itI.map Prod.fst := hpermI.mem_iff.mp hjB
    have hjC : j ∈ itC.map Prod.fst := hpermC.mem_iff.mp hjI
    have hjL : j ∈ itL.map Prod.fst := hpermL.mem_iff.mp hjC
    have hblock := restore_block_infix (extractFences s.toList []).2 itL j
      hjL
    have hmk : "&lt;script&gt;".toList <:+:
        (extractFences s.toList []).2.getD j "undefined".toList := by
      rw [hgd2]
      exact markup_contains_escScript hx
    exact (hmk.trans hblock).trans ⟨wL, [], by simp⟩

/-! ## No unescaped script tag can appear: the "<sc" barrier -/

theorem glue_right_template {p a b : List Char} {d0 : Char}
    (ha : ¬ p <:+: a) (hb : ¬ p <:+: b) (hh : b.head? = some d0)
    (hd0 : d0 ∉ p.drop 1) : ¬ p <:+: a ++ b :=
  infixFree_glue_right ha hb (head_cond_of hh hd0)

theorem scanRep_infixFree (m : List Char → Option (List Char × List Char))
    (p : List Char) (E : List Char)
    (hheads : ∀ d ∈ E, d ∉ p.drop 1)
    (hfire : ∀ s g r, m s = some (g, r) →
      (∃ eaten, s = eaten ++ r) ∧
      (¬ p <:+: s → ¬ p <:+: g) ∧
      (∃ d, g.head? = some d ∧ d ∈ E) ∧
      (∃ d, g.getLast? = some d ∧ d ∉ p.dropLast)) :
    ∀ fuel s, ¬ p <:+: s → ¬ p <:+: scanRep m fuel s := by
  intro fuel
  induction fuel with
  | zero => intro s h; exact h
  | succ f ih =>
    intro s h
    cases s with
    | nil =>
      rw [scanRep_nil]
      exact h
    | cons c t =>
      have hpne : p ≠ [] := fun hp => h (hp ▸ List.nil_infix)
      cases hm : m (c :: t) with
      | none =>
        rw [show scanRep m (f + 1) (c :: t) = c :: scanRep m f t from by
          simp [scanRep, hm]]
        intro hin
        have ht : ¬ p <:+: t := fun hx => h (hx.trans ⟨[c], [], by simp⟩)
        rcases List.infix_cons_iff.mp hin with hpre | hinf
        · obtain ⟨ph, pt, rfl⟩ := List.exists_cons_of_ne_nil hpne
          obtain ⟨rfl, hpt⟩ := List.cons_prefix_cons.mp hpre
          have hq : pt <+: t := scanRep_pref_excl m E
            (fun s2 g2 r2 hm2 => (hfire s2 g2 r2 hm2).2.2.1) f t pt
            (fun d hd => hheads d hd) hpt
          exact h (List.IsPrefix.isInfix (List.cons_prefix_cons.mpr
            ⟨rfl, hq⟩))
        · exact ih t ht hinf
      | some gr =>
        obtain ⟨g, r⟩ := gr
        rw [show scanRep m (f + 1) (c :: t) = g ++ scanRep m f r from by
          simp [scanRep, hm]]
        obtain ⟨⟨eaten, hea⟩, hg, -, dl, hdl, hdlp⟩ := hfire _ _ _ hm
        have hr : ¬ p <:+: r := fun hx => h (hx.trans ⟨eaten, [], by
          rw [hea]; simp⟩)
        exact glue_left_template (hg h) (ih r hr) hdl hdlp

theorem bold_fire_sc : ∀ s g r, matchBoldAt s = some (g, r) →
    (∃ eaten, s = eaten ++ r) ∧
    (¬ "<sc".toList <:+: s → ¬ "<sc".toList <:+: g) ∧
    (∃ d, g.head? = some d ∧ d ∈ ['<']) ∧
    (∃ d, g.getLast? = some d ∧ d ∉ ("<sc".toList).dropLast) := by
  intro s g r h
  obtain ⟨grp, hs, hg, -⟩ := matchBoldAt_spec h
  refine ⟨⟨'*' :: '*' :: (grp ++ ['*', '*']), by rw [hs]; simp⟩, ?_,
    ⟨'<', by rw [hg]; rfl, by simp⟩,
    ⟨'>', by rw [hg, List.getLast?_append_of_ne_nil _ (by decide)]; rfl,
      by decide⟩⟩
  intro hfree
  have hgrp : ¬ "<sc".toList <:+: grp := fun hx => hfree (hx.trans
    ⟨['*', '*'], '*' :: '*' :: r, by rw [hs]; simp⟩)
  rw [hg]
  exact glue_right_template
    (glue_left_template (by decide) hgrp
      (show ("<strong>".toList).getLast? = some '>' from by decide)
      (by decide))
    (by decide) (show ("</strong>".toList).head? = some '<' from rfl)
    (by decide)

theorem italic_fire_sc : ∀ s g r, matchItalicAt s = some (g, r) →
    (∃ eaten, s = eaten ++ r) ∧
    (¬ "<sc".toList <:+: s → ¬ "<sc".toList <:+: g) ∧
    (∃ d, g.head? = some d ∧ d ∈ ['<']) ∧
    (∃ d, g.getLast? = some d ∧ d ∉ ("<sc".toList).dropLast) := by
  intro s g r h
  obtain ⟨grp, hs, hg, -⟩ := matchItalicAt_spec h
  refine ⟨⟨'*' :: (grp ++ ['*']), by rw [hs]; simp⟩, ?_,
    ⟨'<', by rw [hg]; rfl, by simp⟩,
    ⟨'>', by rw [hg, List.getLast?_append_of_ne_nil _ (by decide)]; rfl,
      by decide⟩⟩
  intro hfree
  have hgrp : ¬ "<sc".toList <:+: grp := fun hx => hfree (hx.trans
    ⟨['*'], '*' :: r, by rw [hs]; simp⟩)
  rw [hg]
  exact glue_right_template
    (glue_left_template (by decide) hgrp
      (show ("<em>".toList).getLast? = some '>' from by decide)
      (by decide))
    (by decide) (show ("</em>".toList).head? = some '<' from rfl)
    (by decide)

theorem code_fire_sc : ∀ s g r, matchCodeTickAt s = some (g, r) →
    (∃ eaten, s = eaten ++ r) ∧
    (¬ "<sc".toList <:+: s → ¬ "<sc".toList <:+: g) ∧
    (∃ d, g.head? = some d ∧ d ∈ ['<']) ∧
    (∃ d, g.getLast? = some d ∧ d ∉ ("<sc".toList).dropLast) := by
  intro s g r h
  obtain ⟨grp, hs, hg, -, -⟩ := matchCodeTickAt_spec h
  refine ⟨⟨'`' :: (grp ++ ['`']), by rw [hs]; simp⟩, ?_,
    ⟨'<', by rw [hg]; rfl, by simp⟩,
    ⟨'>', by rw [hg, List.getLast?_append_of_ne_nil _ (by decide)]; rfl,
      by decide⟩⟩
  intro hfree
  have hgrp : ¬ "<sc".toList <:+: grp := fun hx => hfree (hx.trans
    ⟨['`'], '`' :: r, by rw [hs]; simp⟩)
  rw [hg]
  exact glue_right_template
    (glue_left_template (by decide) hgrp
      (show ("<code>".toList).getLast? = some '>' from by decide)
      (by decide))
    (by decide) (show ("</code>".toList).head? = some '<' from rfl)
    (by decide)

theorem link_fire_sc : ∀ s g r, matchLinkAt s = some (g, r) →
    (∃ eaten, s = eaten ++ r) ∧
    (¬ "<sc".toList <:+: s → ¬ "<sc".toList <:+: g) ∧
    (∃ d, g.head? = some d ∧ d ∈ ['<']) ∧
    (∃ d, g.getLast? = some d ∧ d ∉ ("<sc".toList).dropLast) := by
  intro s g r h
  obtain ⟨txt, url, hs, hg, -, -, -, -⟩ := matchLinkAt_spec h
  refine ⟨⟨'[' :: (txt ++ ']' :: '(' :: (url ++ [')'])), by rw [hs]; simp⟩,
    ?_, ⟨'<', by rw [hg]; rfl, by simp⟩,
    ⟨'>', by rw [hg, List.getLast?_append_of_ne_nil _ (by decide)]; rfl,
      by decide⟩⟩
  intro hfree
  have hurl : ¬ "<sc".toList <:+: url := fun hx => hfree (hx.trans
    ⟨'[' :: (txt ++ [']', '(']), ')' :: r, by rw [hs]; simp⟩)
  have htxt : ¬ "<sc".toList <:+: txt := fun hx => hfree (hx.trans
    ⟨['['], ']' :: '(' :: (url ++ ')' :: r), by rw [hs]; simp⟩)
  rw [hg]
  have s1 := glue_left_template (p := "<sc".toList) (by decide) hurl
    (show ("<a href=\"".toList).getLast? = some '"' from by decide)
    (by decide)
  have s2 := glue_right_template s1 (by decide)
    (show ("\" target=\"_blank\" rel=\"noopener noreferrer\">".toList).head?
      = some '"' from rfl) (by decide)
  have s3 := glue_left_template s2 htxt
    (show (("<a href=\"".toList ++ url) ++
      "\" target=\"_blank\" rel=\"noopener noreferrer\">".toList).getLast? =
      some '>' from by
        rw [List.getLast?_append_of_ne_nil _ (by decide)]
        decide) (by decide)
  exact glue_right_template s3 (by decide)
    (show ("</a>".toList).head? = some '<' from rfl) (by decide)

theorem markup_sc_facts {lang body : List Char}
    (hlang : ∀ c ∈ lang, isWordChar c) :
    ¬ "<sc".toList <:+: codeMarkup lang body ∧
    (codeMarkup lang body).head? = some '<' ∧
    ∃ d, (codeMarkup lang body).getLast? = some d ∧
      d ∉ ("<sc".toList).dropLast := by
  have hL : ¬ "<sc".toList <:+:
      (if lang.isEmpty then "plaintext".toList else lang) := by
    apply infixFree_of_not_mem (show '<' ∈ "<sc".toList from by decide)
    split
    · decide
    · intro hmem
      exact absurd (hlang '<' hmem) (by decide)
  have hE : ¬ "<sc".toList <:+: escapeHTML (jsTrim body) :=
    infixFree_of_not_mem (show '<' ∈ "<sc".toList from by decide)
      (escapeHTML_no_lt _)
  refine ⟨?_, ?_, '>', ?_, by decide⟩
  · rw [codeMarkup]
    have s1 := glue_left_template (p := "<sc".toList) (by decide) hL
      (show ("<pre><code class=\"language-".toList).getLast? = some '-'
        from by decide) (by decide)
    have s2 := glue_right_template s1 (by decide)
      (show (" hljs\">".toList).head? = some ' ' from rfl) (by decide)
    have s3 := glue_left_template s2 hE
      (show (("<pre><code class=\"language-".toList ++
        (if lang.isEmpty then "plaintext".toList else lang)) ++
        " hljs\">".toList).getLast? = some '>' from by
          rw [List.getLast?_append_of_ne_nil _ (by decide)]
          decide) (by decide)
    exact glue_right_template s3 (by decide)
      (show ("</code></pre>".toList).head? = some '<' from rfl) (by decide)
  · rw [codeMarkup]
    rfl
  · rw [codeMarkup]
    rw [List.getLast?_append_of_ne_nil _ (by decide)]
    decide

theorem restore_fire_sc (ps : List (List Char))
    (hps : ∀ m ∈ ps, ¬ "<sc".toList <:+: m ∧ m.head? = some '<' ∧
      ∃ d, m.getLast? = some d ∧ d ∉ ("<sc".toList).dropLast) :
    ∀ s g r, matchRestoreAt ps s = some (g, r) →
    (∃ eaten, s = eaten ++ r) ∧
    (¬ "<sc".toList <:+: s → ¬ "<sc".toList <:+: g) ∧
    (∃ d, g.head? = some d ∧ d ∈ ['<', 'u']) ∧
    (∃ d, g.getLast? = some d ∧ d ∉ ("<sc".toList).dropLast) := by
  intro s g r h
  obtain ⟨ds, hs, -, -, hg⟩ := matchRestoreAt_spec ps h
  refine ⟨⟨"__CODEBLOCK_".toList ++ (ds ++ ['_', '_']), by rw [hs]; simp⟩,
    ?_, ?_, ?_⟩
  · intro _
    by_cases hidx : parseDigits ds < ps.length
    · rw [hg, List.getD_eq_getElem ps "undefined".toList hidx]
      exact (hps _ (ps.getElem_mem hidx)).1
    · rw [hg, List.getD_eq_default ps "undefined".toList (by omega)]
      decide
  · by_cases hidx : parseDigits ds < ps.length
    · rw [hg, List.getD_eq_getElem ps "undefined".toList hidx]
      exact ⟨'<', (hps _ (ps.getElem_mem hidx)).2.1, by simp⟩
    · rw [hg, List.getD_eq_default ps "undefined".toList (by omega)]
      exact ⟨'u', rfl, by simp⟩
  · by_cases hidx : parseDigits ds < ps.length
    · rw [hg, List.getD_eq_getElem ps "undefined".toList hidx]
      exact (hps _ (ps.getElem_mem hidx)).2.2
    · rw [hg, List.getD_eq_default ps "undefined".toList (by omega)]
      exact ⟨'d', rfl, by decide⟩

theorem parseMarkdown_no_script (s : String) :
    ¬ "<script>".toList <:+: (parseMarkdown s).data := by
  intro hocc
  have hsc : "<sc".toList <:+: (parseMarkdown s).data :=
    List.IsInfix.trans
      (List.IsPrefix.isInfix ⟨"ript>".toList, rfl⟩) hocc
  obtain ⟨w0, items0, souts, tail0, -, h2, -, -, -, -, h7, -⟩ :=
    extract_chain s.toList.length s.toList [] le_rfl
  have hps : (extractFences s.toList []).2 = souts := by
    rw [show (extractFences s.toList []).2 =
      (extractFencesF s.toList.length s.toList []).2 from rfl, h2]
    simp
  have hS1 : ¬ "<sc".toList <:+:
      escapeHTML (extractFences s.toList []).1 :=
    infixFree_of_not_mem (show '<' ∈ "<sc".toList from by decide)
      (escapeHTML_no_lt _)
  have hF1 := scanRep_infixFree matchBoldAt "<sc".toList ['<']
    (by decide) bold_fire_sc
    (escapeHTML (extractFences s.toList []).1).length _ hS1
  rw [show scanRep matchBoldAt
      (escapeHTML (extractFences s.toList []).1).length
      (escapeHTML (extractFences s.toList []).1) =
    scan matchBoldAt (escapeHTML (extractFences s.toList []).1)
    from rfl] at hF1
  have hF2 := scanRep_infixFree matchItalicAt "<sc".toList ['<']
    (by decide) italic_fire_sc
    (scan matchBoldAt (escapeHTML (extractFences s.toList []).1)).length
    _ hF1
  rw [show scanRep matchItalicAt
      (scan matchBoldAt (escapeHTML (extractFences s.toList []).1)).length
      (scan matchBoldAt (escapeHTML (extractFences s.toList []).1)) =
    scan matchItalicAt (scan matchBoldAt
      (escapeHTML (extractFences s.toList []).1)) from rfl] at hF2
  have hF3 := scanRep_infixFree matchCodeTickAt "<sc".toList ['<']
    (by decide) code_fire_sc
    (scan matchItalicAt (scan matchBoldAt
      (escapeHTML (extractFences s.toList []).1))).length _ hF2
  rw [show scanRep matchCodeTickAt
      (scan matchItalicAt (scan matchBoldAt
        (escapeHTML (extractFences s.toList []).1))).length
      (scan matchItalicAt (scan matchBoldAt
        (escapeHTML (extractFences s.toList []).1))) =
    scan matchCodeTickAt (scan matchItalicAt (scan matchBoldAt
      (escapeHTML (extractFences s.toList []).1))) from rfl] at hF3
  have hF4 := scanRep_infixFree matchLinkAt "<sc".toList ['<']
    (by decide) link_fire_sc
    (scan matchCodeTickAt (scan matchItalicAt (scan matchBoldAt
      (escapeHTML (extractFences s.toList []).1)))).length _ hF3
  rw [show scanRep matchLinkAt
      (scan matchCodeTickAt (scan matchItalicAt (scan matchBoldAt
        (escapeHTML (extractFences s.toList []).1)))).length
      (scan matchCodeTickAt (scan matchItalicAt (scan matchBoldAt
        (escapeHTML (extractFences s.toList []).1)))) =
    scan matchLinkAt (scan matchCodeTickAt (scan matchItalicAt
      (scan matchBoldAt (escapeHTML (extractFences s.toList []).1))))
    from rfl] at hF4
  have hpsfacts : ∀ m ∈ (extractFences s.toList []).2,
      ¬ "<sc".toList <:+: m ∧ m.head? = some '<' ∧
      ∃ d, m.getLast? = some d ∧ d ∉ ("<sc".toList).dropLast := by
    intro m hm
    rw [hps] at hm
    obtain ⟨lang, body, rfl, hlang⟩ := h7 m hm
    exact markup_sc_facts hlang
  have hF5 := scanRep_infixFree
    (matchRestoreAt (extractFences s.toList []).2) "<sc".toList ['<', 'u']
    (by decide) (restore_fire_sc _ hpsfacts)
    (scan matchLinkAt (scan matchCodeTickAt (scan matchItalicAt
      (scan matchBoldAt (escapeHTML (extractFences s.toList []).1))))).length
    _ hF4
  exact hF5 hsc

/-! ## Extraction on concrete collision inputs -/

theorem extractFencesF_nil : ∀ (fuel : Nat) (acc : List (List Char)),
    extractFencesF fuel [] acc = ([], acc) := by
  intro fuel acc
  cases fuel with
  | zero => rfl
  | succ f =>
    have hm : matchFenceAt [] = none := rfl
    simp [extractFencesF, hm]

theorem extractFencesF_walk {v : List Char} (hv : ∀ c ∈ v, ¬ c = '`') :
    ∀ (fuel : Nat) (z : List Char) (acc : List (List Char)),
    v.length ≤ fuel →
    extractFencesF fuel (v ++ z) acc =
      (v ++ (extractFencesF (fuel - v.length) z acc).1,
       (extractFencesF (fuel - v.length) z acc).2) := by
  induction v with
  | nil => intro fuel z acc _; simp
  | cons c v2 ih =>
    intro fuel z acc hf
    cases fuel with
    | zero => simp at hf
    | succ f =>
      have hm : matchFenceAt (c :: (v2 ++ z)) = none :=
        matchFenceAt_eq_none (hv c (by simp))
      show extractFencesF (f + 1) (c :: (v2 ++ z)) acc = _
      rw [show extractFencesF (f + 1) (c :: (v2 ++ z)) acc =
            (c :: (extractFencesF f (v2 ++ z) acc).1,
             (extractFencesF f (v2 ++ z) acc).2) from by
          simp [extractFencesF, hm]]
      rw [ih (fun d hd => hv d (by simp [hd])) f z acc
        (Nat.le_of_succ_le_succ hf)]
      simp [Nat.succ_sub_succ]

theorem splitTicks_fire {body : List Char} (hb : '`' ∉ body) :
    ∀ rest, splitTicks (body ++ '`' :: '`' :: '`' :: rest) =
      some (body, rest) := by
  induction body with
  | nil =>
    intro rest
    rw [show ([] : List Char) ++ '`' :: '`' :: '`' :: rest =
      '`' :: '`' :: '`' :: rest from rfl, splitTicks]
    have hpre : "```".toList.isPrefixOf ('`' :: '`' :: '`' :: rest) = true :=
      List.isPrefixOf_iff_prefix.mpr ⟨rest, rfl⟩
    simp [hpre]
  | cons c body2 ih =>
    intro rest
    have hc : ¬ c = '`' := fun he => hb (by simp [he])
    rw [List.cons_append, splitTicks]
    have hpre : "```".toList.isPrefixOf
        (c :: (body2 ++ '`' :: '`' :: '`' :: rest)) = false := by
      cases h2 : "```".toList.isPrefixOf
          (c :: (body2 ++ '`' :: '`' :: '`' :: rest)) with
      | false => rfl
      | true =>
        exfalso
        have h3 := List.isPrefixOf_iff_prefix.mp h2
        exact hc ((List.cons_prefix_cons.mp h3).1.symm)
    rw [hpre]
    simp only [Bool.false_eq_true, if_false]
    rw [ih (fun hm => hb (by simp [hm])) rest]

theorem matchFenceAt_fire {lang body rest : List Char}
    (hlang : ∀ c ∈ lang, isWordChar c) (hb : '`' ∉ body) :
    matchFenceAt ('`' :: '`' :: '`' ::
      (lang ++ '\n' :: (body ++ '`' :: '`' :: '`' :: rest))) =
      some (lang, body, rest) := by
  have hnw : isWordChar '\n' = false := by decide
  have hdrop3 : ('`' :: '`' :: '`' ::
      (lang ++ '\n' :: (body ++ '`' :: '`' :: '`' :: rest))).drop 3 =
      lang ++ '\n' :: (body ++ '`' :: '`' :: '`' :: rest) := rfl
  have hdw : (lang ++ '\n' ::
      (body ++ '`' :: '`' :: '`' :: rest)).dropWhile isWordChar =
      '\n' :: (body ++ '`' :: '`' :: '`' :: rest) := by
    rw [List.dropWhile_append_of_pos hlang]
    simp [List.dropWhile_cons, hnw]
  have htw : (lang ++ '\n' ::
      (body ++ '`' :: '`' :: '`' :: rest)).takeWhile isWordChar = lang := by
    rw [List.takeWhile_append_of_pos hlang]
    simp [List.takeWhile_cons, hnw]
  have hpre : "```".toList.isPrefixOf ('`' :: '`' :: '`' ::
      (lang ++ '\n' :: (body ++ '`' :: '`' :: '`' :: rest))) = true :=
    List.isPrefixOf_iff_prefix.mpr ⟨_, rfl⟩
  rw [matchFenceAt, hdrop3, hdw, htw]
  simp only [hpre, List.head?_cons, List.drop_succ_cons, List.drop_zero,
    if_true]
  rw [splitTicks_fire hb rest]

theorem extractFencesF_fire (fuel : Nat) (s : List Char)
    (acc : List (List Char)) (lang body : List Char)
    (hm : matchFenceAt s = some (lang, body, [])) :
    extractFencesF (fuel + 1) s acc =
      (tok acc.length, acc ++ [codeMarkup lang body]) := by
  rw [show extractFencesF (fuel + 1) s acc =
        (tok acc.length ++
           (extractFencesF fuel [] (acc ++ [codeMarkup lang body])).1,
         (extractFencesF fuel [] (acc ++ [codeMarkup lang body])).2) from by
      simp [extractFencesF, hm]]
  rw [extractFencesF_nil]
  simp

theorem extract_no_fence :
    ∀ (fuel : Nat) (s : List Char) (acc : List (List Char)),
    ¬ "```".toList <:+: s → extractFencesF fuel s acc = (s, acc) := by
  intro fuel
  induction fuel with
  | zero => intro s acc _; rfl
  | succ f ih =>
    intro s acc h
    cases hm : matchFenceAt s with
    | some lbr =>
      exfalso
      obtain ⟨lang, body, rest⟩ := lbr
      obtain ⟨hs, -⟩ := matchFenceAt_spec hm
      exact h ⟨[], lang ++ '\n' :: (body ++ '`' :: '`' :: '`' :: rest), by
        rw [hs]; rfl⟩
    | none =>
      cases s with
      | nil => simp [extractFencesF, hm]
      | cons c t =>
        have ht : ¬ "```".toList <:+: t :=
          fun hx => h (hx.trans ⟨[c], [], by simp⟩)
        rw [show extractFencesF (f + 1) (c :: t) acc =
              (c :: (extractFencesF f t acc).1,
               (extractFencesF f t acc).2) from by
            simp [extractFencesF, hm]]
        rw [ih t acc ht]

theorem restoreBlocks_nilps :
    ∀ items, blocksOk items → PatFree (restoreBlocks [] items) ∧
      (items = [] ∨ (restoreBlocks [] items).head? = some 'u') := by
  intro items
  induction items with
  | nil => exact fun _ => ⟨patFree_nil, Or.inl rfl⟩
  | cons p items2 ih =>
    obtain ⟨n, w⟩ := p
    intro hok
    obtain ⟨ihp, ihh⟩ := ih hok.2
    have hgd : ([] : List (List Char)).getD n "undefined".toList =
        "undefined".toList := rfl
    have hrb : restoreBlocks [] ((n, w) :: items2) =
        "undefined".toList ++ (w ++ restoreBlocks [] items2) := by
      rw [show restoreBlocks [] ((n, w) :: items2) =
        ([] : List (List Char)).getD n "undefined".toList ++
          (w ++ restoreBlocks [] items2) from rfl, hgd]
    have hinner : PatFree (w ++ restoreBlocks [] items2) := by
      rcases ihh with rfl | hhead
      · rw [show restoreBlocks ([] : List (List Char)) [] = [] from rfl,
          List.append_nil]
        exact hok.1
      · exact glue_right_template hok.1 ihp hhead (by decide)
    constructor
    · rw [hrb]
      exact glue_left_template (by decide) hinner
        (show ("undefined".toList).getLast? = some 'd' from by decide)
        (by decide)
    · right
      rw [hrb]
      rfl

theorem scan_id_of_none {m : List Char → Option (List Char × List Char)}
    {v : List Char} (hv : ∀ c ∈ v, ∀ u, m (c :: u) = none) :
    scan m v = v := by
  rw [scan]
  have hwalk := scanRep_walk m hv v.length [] le_rfl
  rw [List.append_nil] at hwalk
  rw [hwalk, scanRep_nil, List.append_nil]

/-! ## Claim theorems -/

/-- C1 counterexample: the input `__CODEBLOCK_9```j\n<script>```` contains
`<script>` inside a fenced code block, yet the rendered HTML does not
contain `&lt;script&gt;`: the literal placeholder stem in the prose
collides with the generated placeholder token, the restore regex consumes
the collision as index 9 (out of range, replaced by `undefined`) and the
escaped script markup stored in the placeholder entry is never emitted. -/
theorem escaping_invariant_counterexample :
    "<script>".toList <:+: "__CODEBLOCK_9```j\n<script>```".toList ∧
    ¬ "&lt;script&gt;".toList <:+:
      (parseMarkdown "__CODEBLOCK_9```j\n<script>```").data := by
  constructor
  · decide
  · decide

/-- C1 (amended): if the raw input never contains the placeholder stem
`__CODEBLOCK_`, then whenever it contains `<script>` — inside or outside a
fenced code block — the HTML returned by `parseMarkdown` contains
`&lt;script&gt;`; and unconditionally (for every input) the returned HTML
never contains the unescaped substring `<script>`.  The stem-freedom
hypothesis is forced by `escaping_invariant_counterexample`. -/
theorem escaping_invariant (s : String)
    (hfree : ¬ "__CODEBLOCK_".toList <:+: s.toList)
    (hocc : "<script>".toList <:+: s.toList) :
    "&lt;script&gt;".toList <:+: (parseMarkdown s).data ∧
    ∀ t : String, ¬ "<script>".toList <:+: (parseMarkdown t).data :=
  ⟨parseMarkdown_escapes_script s hfree hocc, parseMarkdown_no_script⟩

/-- C1 witness: the amended theorem applied to the concrete inputs
`"a <script> b"` (escaping) and `"x"` (no unescaped tag). -/
theorem escaping_invariant_witness :
    "&lt;script&gt;".toList <:+: (parseMarkdown "a <script> b").data ∧
    ¬ "<script>".toList <:+: (parseMarkdown "x").data :=
  ⟨(escaping_invariant "a <script> b" (by decide) (by decide)).1,
   (escaping_invariant "a <script> b" (by decide) (by decide)).2 "x"⟩

/-- C2: for the input ```` ```js\n**bold**\n``` ````, `parseMarkdown` produces
a code-block element whose text content is the literal string `**bold**`,
and the output contains no `<strong>` element: code-fence extraction
precedes and shields the body from the inline transforms. -/
theorem fence_priority :
    parseMarkdown "```js\n**bold**\n```" =
      "<pre><code class=\"language-js hljs\">**bold**</code></pre>" ∧
    ¬ ("<strong>".toList <:+: (parseMarkdown "```js\n**bold**\n```").toList) := by
  decide

/-- The older renderer variant in `src/index.tsx` does *not* shield fenced
bodies: on the same input it produces a `<strong>` element inside the code
block (the spec's algorithm is the placeholder-based renderer). -/
theorem fence_priority_fails_in_index_variant :
    "<strong>".toList <:+: (parseMarkdownIndex "```js\n**bold**\n```").toList := by
  decide

/-- C3 (code bug): the source calls `JSON.parse` with no `try`/`catch` in
both `loadHistoryFromStorage` and `loadSettings`, so a stored string that
is not valid JSON makes loading throw instead of falling back; only a
missing (or empty, hence falsy) stored value falls back to the empty
collection / current settings. -/
theorem storage_corruption_raises
    (parseHist : String → Except String (List ChatSession))
    (parseSet : String → Except String Settings) (cur : Settings)
    (s e e' : String) (hs : s ≠ "") (hh : parseHist s = .error e)
    (hset : parseSet s = .error e') :
    loadHistoryFromStorage parseHist (some s) = .error e ∧
    loadSettings parseSet (some s) cur = .error e' ∧
    loadHistoryFromStorage parseHist none = .ok [] ∧
    loadSettings parseSet none cur = .ok cur := by
  refine ⟨?_, ?_, rfl, rfl⟩ <;> simp [loadHistoryFromStorage, loadSettings, hs, hh, hset]

/-- Witness for C3 at the concrete corrupted stored string `"{"`. -/
theorem storage_corruption_raises_witness :
    loadHistoryFromStorage (fun _ => .error "SyntaxError") (some "\x7b") =
      .error "SyntaxError" ∧
    loadSettings (fun _ => .error "SyntaxError") (some "\x7b") defaultSettings =
      .error "SyntaxError" ∧
    loadHistoryFromStorage (fun _ => .error "SyntaxError") none = .ok [] ∧
    loadSettings (fun _ => .error "SyntaxError") none defaultSettings =
      .ok defaultSettings :=
  storage_corruption_raises (fun _ => .error "SyntaxError")
    (fun _ => .error "SyntaxError") defaultSettings "\x7b" "SyntaxError"
    "SyntaxError" (by decide) rfl rfl

/-- C7: the title of a newly created session is the prompt itself when its
length is at most 30, and the first 27 characters followed by `"..."`
(hence exactly 30 characters ending in `"..."`) when longer. -/
theorem title_derivation (prompt : String) (hist : List ChatSession)
    (msgs : List Message) (now newId : String) (cfg : Settings)
    (hm : msgs ≠ []) :
    ∃ sess : ChatSession,
      (saveCurrentChat hist none msgs prompt now newId cfg).1 = sess :: hist ∧
      sess.title = deriveTitle prompt ∧
      (prompt.length ≤ 30 → sess.title = prompt) ∧
      (30 < prompt.length →
        sess.title = String.mk (prompt.toList.take 27) ++ "..." ∧
        sess.title.length = 30 ∧
        "...".toList <:+ sess.title.toList) := by
  refine ⟨{ id := newId, title := deriveTitle prompt, messages := msgs,
            threads := [], createdAt := now, updatedAt := now,
            isPinned := false, isArchived := false, model := cfg.model,
            temperature := cfg.temperature, maxTokens := cfg.maxTokens },
          ?_, rfl, ?_, ?_⟩
  · rw [saveCurrentChat]
    simp [hm]
  · intro hle
    rw [deriveTitle, if_neg (by omega)]
  · intro hgt
    rw [deriveTitle, if_pos (by omega)]
    refine ⟨rfl, ?_, ?_⟩
    · rw [String.length_append, String.length_mk, List.length_take]
      have : 27 ≤ prompt.toList.length := by
        have : prompt.toList.length = prompt.length := rfl
        omega
      have h3 : ("..." : String).length = 3 := rfl
      have hmin : min 27 prompt.toList.length = 27 := Nat.min_eq_left this
      omega
    · show "...".toList <:+ (String.mk (prompt.toList.take 27) ++ "...").data
      rw [String.data_append]
      exact List.suffix_append _ _

/-- Witness for C7 at a concrete 40-character prompt. -/
theorem title_derivation_witness :
    ∃ sess : ChatSession,
      (saveCurrentChat [] none [⟨"m1", Role.user, "x", "t"⟩]
          "0123456789012345678901234567890123456789" "t" "chat_1"
          defaultSettings).1 = sess :: [] ∧
      sess.title = deriveTitle "0123456789012345678901234567890123456789" ∧
      (("0123456789012345678901234567890123456789" : String).length ≤ 30 →
        sess.title = "0123456789012345678901234567890123456789") ∧
      (30 < ("0123456789012345678901234567890123456789" : String).length →
        sess.title =
          String.mk (("0123456789012345678901234567890123456789" :
            String).toList.take 27) ++ "..." ∧
        sess.title.length = 30 ∧
        "...".toList <:+ sess.title.toList) :=
  title_derivation "0123456789012345678901234567890123456789" []
    [⟨"m1", Role.user, "x", "t"⟩] "t" "chat_1" defaultSettings (by decide)

/-- C8: while `isAwaitingResponse` is set, both `handleFormSubmit` and
`handleRegenerate` are no-ops: the state (hence the view's message list)
is unchanged and no stream is started. -/
theorem busy_gating (serialize : List ChatSession → String) (st : AppState)
    (input : String) (stream : StreamResult)
    (msgId modelMsgId now newId : String) (cfg : Settings)
    (hbusy : st.isAwaitingResponse = true) :
    handleFormSubmit serialize st input stream msgId modelMsgId now newId cfg =
      (st, noTurn) ∧
    handleRegenerate serialize st stream modelMsgId now newId cfg =
      (st, noTurn) := by
  constructor
  · rw [handleFormSubmit, if_pos hbusy]
  · rw [handleRegenerate, if_pos hbusy]

/-- Witness for C8 at a concrete busy state. -/
theorem busy_gating_witness :
    handleFormSubmit (fun _ => "[]")
        ⟨[], none, true, none, []⟩ "hi" ⟨["x"], true⟩ "m1" "m2" "t" "chat_1"
        defaultSettings = (⟨[], none, true, none, []⟩, noTurn) ∧
    handleRegenerate (fun _ => "[]")
        ⟨[], none, true, none, []⟩ ⟨["x"], true⟩ "m2" "t" "chat_1"
        defaultSettings = (⟨[], none, true, none, []⟩, noTurn) :=
  busy_gating (fun _ => "[]") ⟨[], none, true, none, []⟩ "hi" ⟨["x"], true⟩
    "m1" "m2" "t" "chat_1" defaultSettings rfl

/-- C9: under the data-model invariant that session ids are unique,
deleting session `A` removes exactly `A` and leaves every other session
(as a whole record: id, title, messages, timestamps, flags) unchanged and
in its original order. -/
theorem session_isolation (hist : List ChatSession) (A : ChatSession)
    (hA : A ∈ hist) (hids : (hist.map ChatSession.id).Nodup) :
    A ∉ deleteChat hist A.id ∧
    List.Sublist (deleteChat hist A.id) hist ∧
    (∀ B ∈ hist, B ≠ A → B ∈ deleteChat hist A.id) ∧
    (∀ B ∈ deleteChat hist A.id, B ∈ hist ∧ B ≠ A) := by
  refine ⟨?_, List.filter_sublist _, ?_, ?_⟩
  · intro hmem
    have := (List.mem_filter.mp hmem).2
    simp at this
  · intro B hB hne
    refine List.mem_filter.mpr ⟨hB, ?_⟩
    simp only [Bool.not_eq_true', decide_eq_false_iff_not]
    intro hid
    exact hne (List.inj_on_of_nodup_map hids hB hA hid)
  · intro B hB
    obtain ⟨hmem, hcond⟩ := List.mem_filter.mp hB
    refine ⟨hmem, ?_⟩
    intro hEq
    subst hEq
    simp at hcond

/-- Witness for C9 on a concrete two-session collection. -/
theorem session_isolation_witness :
    (⟨"a", "ta", [], [], "c", "u", false, false, "m", 0, 0⟩ : ChatSession) ∉
      deleteChat
        [⟨"a", "ta", [], [], "c", "u", false, false, "m", 0, 0⟩,
         ⟨"b", "tb", [], [], "c2", "u2", false, false, "m", 0, 0⟩] "a" ∧
    List.Sublist
      (deleteChat
        [⟨"a", "ta", [], [], "c", "u", false, false, "m", 0, 0⟩,
         ⟨"b", "tb", [], [], "c2", "u2", false, false, "m", 0, 0⟩] "a")
      [⟨"a", "ta", [], [], "c", "u", false, false, "m", 0, 0⟩,
       ⟨"b", "tb", [], [], "c2", "u2", false, false, "m", 0, 0⟩] ∧
    (∀ B ∈ [⟨"a", "ta", [], [], "c", "u", false, false, "m", 0, 0⟩,
            (⟨"b", "tb", [], [], "c2", "u2", false, false, "m", 0, 0⟩ :
              ChatSession)],
      B ≠ ⟨"a", "ta", [], [], "c", "u", false, false, "m", 0, 0⟩ →
      B ∈ deleteChat
        [⟨"a", "ta", [], [], "c", "u", false, false, "m", 0, 0⟩,
         ⟨"b", "tb", [], [], "c2", "u2", false, false, "m", 0, 0⟩] "a") ∧
    (∀ B ∈ deleteChat
        [⟨"a", "ta", [], [], "c", "u", false, false, "m", 0, 0⟩,
         ⟨"b", "tb", [], [], "c2", "u2", false, false, "m", 0, 0⟩] "a",
      B ∈ [⟨"a", "ta", [], [], "c", "u", false, false, "m", 0, 0⟩,
           (⟨"b", "tb", [], [], "c2", "u2", false, false, "m", 0, 0⟩ :
             ChatSession)] ∧
      B ≠ ⟨"a", "ta", [], [], "c", "u", false, false, "m", 0, 0⟩) :=
  session_isolation
    [⟨"a", "ta", [], [], "c", "u", false, false, "m", 0, 0⟩,
     ⟨"b", "tb", [], [], "c2", "u2", false, false, "m", 0, 0⟩]
    ⟨"a", "ta", [], [], "c", "u", false, false, "m", 0, 0⟩
    (by decide) (by decide)

/-- C4 counterexample: a cycle whose stream completes without yielding any
delta stores `rawText = ""` but leaves the loading-indicator markup as the
displayed HTML, which `parseMarkdown ""` does not reproduce. -/
theorem render_purity_counterexample :
    (handleFormSubmit (fun _ => "[]") ⟨[], none, false, none, []⟩ "hi"
        ⟨[], true⟩ "m1" "m2" "t" "chat_1" defaultSettings).2.rawText =
      some "" ∧
    (handleFormSubmit (fun _ => "[]") ⟨[], none, false, none, []⟩ "hi"
        ⟨[], true⟩ "m1" "m2" "t" "chat_1" defaultSettings).2.displayed =
      some loadingIndicatorHTML ∧
    parseMarkdown "" ≠ loadingIndicatorHTML := by
  decide

/-- C4 (amended): for every completed send/stream/finalize cycle that
delivered at least one delta, re-applying `parseMarkdown` to the stored
raw text reproduces the displayed HTML byte for byte. -/
theorem render_purity (serialize : List ChatSession → String) (st : AppState)
    (input : String) (chunks : List String)
    (msgId modelMsgId now newId : String) (cfg : Settings)
    (hbusy : st.isAwaitingResponse = false) (hp : ¬ trimString input = "")
    (hchunks : chunks ≠ []) :
    ∃ raw,
      (handleFormSubmit serialize st input ⟨chunks, true⟩ msgId modelMsgId now
          newId cfg).2.rawText = some raw ∧
      (handleFormSubmit serialize st input ⟨chunks, true⟩ msgId modelMsgId now
          newId cfg).2.displayed = some (parseMarkdown raw) := by
  refine ⟨(runStream chunks).1, ?_, ?_⟩ <;>
    rw [handleFormSubmit, if_neg (by simp [hbusy]), if_neg hp] <;>
    simp [runStream_displayed chunks hchunks]

/-- Witness for C4 (amended) at a concrete two-delta stream. -/
theorem render_purity_witness :
    ∃ raw,
      (handleFormSubmit (fun _ => "[]") ⟨[], none, false, none, []⟩ "hi"
          ⟨["Hel", "lo "], true⟩ "m1" "m2" "t" "chat_1"
          defaultSettings).2.rawText = some raw ∧
      (handleFormSubmit (fun _ => "[]") ⟨[], none, false, none, []⟩ "hi"
          ⟨["Hel", "lo "], true⟩ "m1" "m2" "t" "chat_1"
          defaultSettings).2.displayed = some (parseMarkdown raw) :=
  render_purity (fun _ => "[]") ⟨[], none, false, none, []⟩ "hi"
    ["Hel", "lo "] "m1" "m2" "t" "chat_1" defaultSettings rfl (by decide)
    (by decide)

/-- C5 counterexample: with degenerate deltas the full-buffer render can
coincide with a concatenation of per-delta renders (`["a", "b"]`) or with
a render of the last delta alone (`["", "lo "]`), so the claim's "never"
clauses are false as universally quantified statements. -/
theorem streaming_monotonicity_counterexample :
    (runStream ["a", "b"]).2 = parseMarkdown "a" ++ parseMarkdown "b" ∧
    (runStream ["", "lo "]).2 = parseMarkdown "lo " := by
  decide

/-- C5 (amended): after the `k`-th delta the placeholder shows the render
of the concatenation of deltas 1..k; for the spec's example
`["Hel", "lo "]` this differs from a render of the last delta alone, and
for the markdown-splitting deltas `["**a", "b**"]` it differs from a
concatenation of per-delta renders (for deltas that render to themselves,
such as `["Hel", "lo "]`, the two coincide). -/
theorem streaming_monotonicity :
    (∀ (chunks : List String) (k : Nat), 1 ≤ k → k ≤ chunks.length →
      (runStream (chunks.take k)).2 =
        parseMarkdown (joinChunks (chunks.take k))) ∧
    (runStream ["Hel", "lo "]).2 = parseMarkdown "Hello " ∧
    (runStream ["Hel", "lo "]).2 ≠ parseMarkdown "lo " ∧
    (runStream ["**a", "b**"]).2 ≠ parseMarkdown "**a" ++ parseMarkdown "b**" := by
  refine ⟨?_, by decide, by decide, by decide⟩
  intro chunks k hk1 hk2
  have hne : chunks.take k ≠ [] := by
    intro h
    have hlen := congrArg List.length h
    simp only [List.length_take, List.length_nil] at hlen
    omega
  rw [runStream_displayed _ hne, runStream_buffer]

/-- Witness for C5 (amended) at the spec's example stream. -/
theorem streaming_monotonicity_witness :
    (runStream (["Hel", "lo "].take 2)).2 =
      parseMarkdown (joinChunks (["Hel", "lo "].take 2)) :=
  streaming_monotonicity.1 ["Hel", "lo "] 2 (by decide) (by decide)

/-- C6: when the stream raises, the placeholder is replaced by the fixed
error text, no raw text is stored, and the session collection, the current
chat id and the persisted serialization are exactly what they were before
the turn (for both `handleFormSubmit` and `handleRegenerate`). -/
theorem stream_failure_rollback (serialize : List ChatSession → String)
    (st : AppState) (input : String) (chunks : List String)
    (msgId modelMsgId now newId : String) (cfg : Settings)
    (hbusy : st.isAwaitingResponse = false) (hp : ¬ trimString input = "") :
    ((handleFormSubmit serialize st input ⟨chunks, false⟩ msgId modelMsgId now
        newId cfg).1.chatHistory = st.chatHistory ∧
     (handleFormSubmit serialize st input ⟨chunks, false⟩ msgId modelMsgId now
        newId cfg).1.storage = st.storage ∧
     (handleFormSubmit serialize st input ⟨chunks, false⟩ msgId modelMsgId now
        newId cfg).1.currentChatId = st.currentChatId ∧
     (handleFormSubmit serialize st input ⟨chunks, false⟩ msgId modelMsgId now
        newId cfg).2.displayed = some errorTextSubmit ∧
     (handleFormSubmit serialize st input ⟨chunks, false⟩ msgId modelMsgId now
        newId cfg).2.rawText = none) ∧
    ((handleRegenerate serialize st ⟨chunks, false⟩ modelMsgId now
        newId cfg).1.chatHistory = st.chatHistory ∧
     (handleRegenerate serialize st ⟨chunks, false⟩ modelMsgId now
        newId cfg).1.storage = st.storage ∧
     (handleRegenerate serialize st ⟨chunks, false⟩ modelMsgId now
        newId cfg).1.currentChatId = st.currentChatId ∧
     (handleRegenerate serialize st ⟨chunks, false⟩ modelMsgId now
        newId cfg).2.rawText = none ∧
     ((handleRegenerate serialize st ⟨chunks, false⟩ modelMsgId now
        newId cfg).2.streamStarted = true →
      (handleRegenerate serialize st ⟨chunks, false⟩ modelMsgId now
        newId cfg).2.displayed = some errorTextRegenerate)) := by
  constructor
  · rw [handleFormSubmit, if_neg (by simp [hbusy]), if_neg hp]
    simp
  · rw [handleRegenerate, if_neg (by simp [hbusy])]
    cases hlast : ((getMessagesFromDOM st.viewMessages).filter
        (fun m => decide (m.role = Role.user))).getLast? with
    | none => simp [noTurn]
    | some lastUser => simp

/-- Witness for C6 at a concrete failing stream. -/
theorem stream_failure_rollback_witness :
    ((handleFormSubmit (fun _ => "[]") ⟨[], none, false, none, []⟩ "hi"
        ⟨["par"], false⟩ "m1" "m2" "t" "chat_1"
        defaultSettings).1.chatHistory = [] ∧
     (handleFormSubmit (fun _ => "[]") ⟨[], none, false, none, []⟩ "hi"
        ⟨["par"], false⟩ "m1" "m2" "t" "chat_1"
        defaultSettings).1.storage = none ∧
     (handleFormSubmit (fun _ => "[]") ⟨[], none, false, none, []⟩ "hi"
        ⟨["par"], false⟩ "m1" "m2" "t" "chat_1"
        defaultSettings).1.currentChatId = none ∧
     (handleFormSubmit (fun _ => "[]") ⟨[], none, false, none, []⟩ "hi"
        ⟨["par"], false⟩ "m1" "m2" "t" "chat_1"
        defaultSettings).2.displayed = some errorTextSubmit ∧
     (handleFormSubmit (fun _ => "[]") ⟨[], none, false, none, []⟩ "hi"
        ⟨["par"], false⟩ "m1" "m2" "t" "chat_1"
        defaultSettings).2.rawText = none) ∧
    ((handleRegenerate (fun _ => "[]") ⟨[], none, false, none, []⟩
        ⟨["par"], false⟩ "m2" "t" "chat_1"
        defaultSettings).1.chatHistory = [] ∧
     (handleRegenerate (fun _ => "[]") ⟨[], none, false, none, []⟩
        ⟨["par"], false⟩ "m2" "t" "chat_1"
        defaultSettings).1.storage = none ∧
     (handleRegenerate (fun _ => "[]") ⟨[], none, false, none, []⟩
        ⟨["par"], false⟩ "m2" "t" "chat_1"
        defaultSettings).1.currentChatId = none ∧
     (handleRegenerate (fun _ => "[]") ⟨[], none, false, none, []⟩
        ⟨["par"], false⟩ "m2" "t" "chat_1"
        defaultSettings).2.rawText = none ∧
     ((handleRegenerate (fun _ => "[]") ⟨[], none, false, none, []⟩
        ⟨["par"], false⟩ "m2" "t" "chat_1"
        defaultSettings).2.streamStarted = true →
      (handleRegenerate (fun _ => "[]") ⟨[], none, false, none, []⟩
        ⟨["par"], false⟩ "m2" "t" "chat_1"
        defaultSettings).2.displayed = some errorTextRegenerate)) :=
  stream_failure_rollback (fun _ => "[]") ⟨[], none, false, none, []⟩ "hi"
    ["par"] "m1" "m2" "t" "chat_1" defaultSettings rfl (by decide)

/-- C10 counterexample: for the input
`__CODEBLOCK_0__```a\n__CODEBLOCK_0__\n````, the literal token
`__CODEBLOCK_0__` occurs outside the fence (as a prefix), yet the output of
`parseMarkdown` still contains the substring `__CODEBLOCK_0__` — the fence
body carries the same token into the placeholder markup, so the claim that
the substring is never preserved in the output is false. -/
theorem placeholder_collision_counterexample :
    "__CODEBLOCK_0__".toList <+:
      "__CODEBLOCK_0__```a\n__CODEBLOCK_0__\n```".toList ∧
    "__CODEBLOCK_0__".toList <:+:
      (parseMarkdown "__CODEBLOCK_0__```a\n__CODEBLOCK_0__\n```").data := by
  constructor
  · decide
  · decide

/-- C10 (amended): a literal token `__CODEBLOCK_k__` outside any fence is
replaced, not preserved.  (i) With no fence in the input (so k is at least
the number of extracted blocks) and collision-free context, the output
contains `undefined` where the token stood and the stem `__CODEBLOCK_`
nowhere — the token itself is gone.  (ii) With one fence following the
literal token `__CODEBLOCK_0__`, the output is the fence markup twice: the
0-th extracted block's markup is duplicated.  The claim's further
"never preserved in the output" clause is false in general
(`placeholder_collision_counterexample`): a fence body can reintroduce the
token. -/
theorem placeholder_collision :
    (∀ (s : String) (k : Nat) (w w2 : List Char),
      s.toList = w ++ (tok k ++ w2) →
      ¬ "__CODEBLOCK_".toList <:+: w →
      ¬ "__CODEBLOCK_".toList <:+: w2 →
      ¬ "```".toList <:+: s.toList →
      "undefined".toList <:+: (parseMarkdown s).data ∧
      ¬ "__CODEBLOCK_".toList <:+: (parseMarkdown s).data) ∧
    (∀ (s : String) (lang body : List Char),
      s.toList = tok 0 ++
        ('`' :: '`' :: '`' :: (lang ++ '\n' :: (body ++ "```".toList))) →
      (∀ c ∈ lang, isWordChar c) → '`' ∉ body →
      (parseMarkdown s).data =
        codeMarkup lang body ++ codeMarkup lang body) := by
  constructor
  · intro s k w w2 hs hw hw2 hnf
    have hEx : extractFences s.toList [] = (s.toList, []) :=
      extract_no_fence s.toList.length s.toList [] hnf
    have hE1 : (extractFences s.toList []).1 = s.toList := by rw [hEx]
    have hps : (extractFences s.toList []).2 = [] := by rw [hEx]
    have hS1 : escapeHTML (extractFences s.toList []).1 =
        escapeHTML w ++ blocksStr [(k, escapeHTML w2)] := by
      rw [hE1, hs, escapeHTML_append, escapeHTML_append, escapeHTML_tok,
        blocksStr_cons, blocksStr_nil, List.append_nil]
    have hwE : PatFree (escapeHTML w) := escapeHTML_patFree hw
    have hokE : blocksOk [(k, escapeHTML w2)] :=
      ⟨escapeHTML_patFree hw2, trivial⟩
    obtain ⟨wB, itB, heqB, hpfB, hokB, hpermB, -⟩ :=
      scan_chain_bold (escapeHTML w ++ blocksStr [(k, escapeHTML w2)]).length
        (escapeHTML w) [(k, escapeHTML w2)] hwE hokE le_rfl
    have hscanB : scan matchBoldAt
        (escapeHTML (extractFences s.toList []).1) =
        wB ++ blocksStr itB := by
      rw [scan, hS1]
      exact heqB
    obtain ⟨wI, itI, heqI, hpfI, hokI, hpermI, -⟩ :=
      scan_chain_italic (wB ++ blocksStr itB).length wB itB hpfB hokB le_rfl
    have hscanI : scan matchItalicAt (scan matchBoldAt
        (escapeHTML (extractFences s.toList []).1)) =
        wI ++ blocksStr itI := by
      rw [hscanB, scan]
      exact heqI
    obtain ⟨wC, itC, heqC, hpfC, hokC, hpermC, -⟩ :=
      scan_chain_code (wI ++ blocksStr itI).length wI itI hpfI hokI le_rfl
    have hscanC : scan matchCodeTickAt (scan matchItalicAt (scan matchBoldAt
        (escapeHTML (extractFences s.toList []).1))) =
        wC ++ blocksStr itC := by
      rw [hscanI, scan]
      exact heqC
    obtain ⟨wL, itL, heqL, hpfL, hokL, hpermL, -⟩ :=
      scan_chain_link (wC ++ blocksStr itC).length wC itC hpfC hokC le_rfl
    have hscanL : scan matchLinkAt (scan matchCodeTickAt (scan matchItalicAt
        (scan matchBoldAt (escapeHTML (extractFences s.toList []).1)))) =
        wL ++ blocksStr itL := by
      rw [hscanC, scan]
      exact heqL
    have hrest : (parseMarkdown s).data =
        wL ++ restoreBlocks (extractFences s.toList []).2 itL := by
      show scan (matchRestoreAt (extractFences s.toList []).2)
          (scan matchLinkAt (scan matchCodeTickAt (scan matchItalicAt
            (scan matchBoldAt
              (escapeHTML (extractFences s.toList []).1))))) = _
      rw [hscanL, scan]
      exact restore_chain (extractFences s.toList []).2 itL wL
        (wL ++ blocksStr itL).length hpfL hokL le_rfl
    rw [hrest, hps]
    have hperm : List.Perm [k] (itL.map Prod.fst) :=
      ((((List.Perm.refl _).trans hpermB).trans hpermI).trans
        hpermC).trans hpermL
    have hkmem : k ∈ itL.map Prod.fst := hperm.mem_iff.mp (by simp)
    have hblock := restore_block_infix [] itL k hkmem
    have hgd : ([] : List (List Char)).getD k "undefined".toList =
        "undefined".toList := rfl
    rw [hgd] at hblock
    obtain ⟨hrbfree, hrbhead⟩ := restoreBlocks_nilps itL hokL
    constructor
    · exact hblock.trans ⟨wL, [], by simp⟩
    · rcases hrbhead with hnil | hhead
      · rw [hnil, show restoreBlocks ([] : List (List Char)) [] = []
          from rfl, List.append_nil]
        exact hpfL
      · exact glue_right_template hpfL hrbfree hhead (by decide)
  · intro s lang body hs hlang hb
    have htokg : ∀ c ∈ tok 0, ¬ c = '`' := by
      intro c hc he
      have := tok_wordChar c hc
      rw [he] at this
      exact absurd this (by decide)
    have hlen0 : (tok 0).length ≤ s.toList.length := by
      rw [hs]
      simp
    have hfence : matchFenceAt ('`' :: '`' :: '`' ::
        (lang ++ '\n' :: (body ++ "```".toList))) =
        some (lang, body, []) := by
      have := @matchFenceAt_fire lang body [] hlang hb
      simpa using this
    have hEx : extractFences s.toList [] =
        (tok 0 ++ (tok 0 ++ []), [codeMarkup lang body]) := by
      rw [show extractFences s.toList [] =
        extractFencesF s.toList.length s.toList [] from rfl, hs]
      rw [extractFencesF_walk htokg _ _ _ (by rw [← hs]; exact hlen0)]
      have hf2 : (tok 0 ++ ('`' :: '`' :: '`' ::
          (lang ++ '\n' :: (body ++ "```".toList)))).length -
          (tok 0).length =
          ('`' :: '`' :: (lang ++ '\n' ::
            (body ++ "```".toList))).length + 1 := by
        simp
      rw [hf2]
      rw [extractFencesF_fire _ _ _ _ _ hfence]
      simp
    have hescres : escapeHTML (extractFences s.toList []).1 =
        tok 0 ++ (tok 0 ++ []) := by
      rw [hEx]
      rw [show (tok 0 ++ (tok 0 ++ []), [codeMarkup lang body]).1 =
        tok 0 ++ (tok 0 ++ []) from rfl]
      rw [escapeHTML_append, escapeHTML_append, escapeHTML_tok,
        show escapeHTML ([] : List Char) = [] from rfl]
    have htrigall : ∀ (m : List Char → Option (List Char × List Char)),
        (∀ c, isWordChar c → ∀ u, m (c :: u) = none) →
        ∀ c ∈ tok 0 ++ (tok 0 ++ []), ∀ u, m (c :: u) = none := by
      intro m hm c hc u
      rcases List.mem_append.mp hc with h1 | h2
      · exact hm c (tok_wordChar c h1) u
      · rcases List.mem_append.mp h2 with h3 | h4
        · exact hm c (tok_wordChar c h3) u
        · simp at h4
    have hsc1 : scan matchBoldAt (tok 0 ++ (tok 0 ++ [])) =
        tok 0 ++ (tok 0 ++ []) :=
      scan_id_of_none (htrigall _ (fun c hc u => matchBoldAt_none_word hc u))
    have hsc2 : scan matchItalicAt (tok 0 ++ (tok 0 ++ [])) =
        tok 0 ++ (tok 0 ++ []) :=
      scan_id_of_none
        (htrigall _ (fun c hc u => matchItalicAt_none_word hc u))
    have hsc3 : scan matchCodeTickAt (tok 0 ++ (tok 0 ++ [])) =
        tok 0 ++ (tok 0 ++ []) :=
      scan_id_of_none
        (htrigall _ (fun c hc u => matchCodeTickAt_none_word hc u))
    have hsc4 : scan matchLinkAt (tok 0 ++ (tok 0 ++ [])) =
        tok 0 ++ (tok 0 ++ []) :=
      scan_id_of_none (htrigall _ (fun c hc u => matchLinkAt_none_word hc u))
    have hchain : tok 0 ++ (tok 0 ++ []) =
        [] ++ blocksStr [(0, []), (0, [])] := by
      rw [blocksStr_cons, blocksStr_cons, blocksStr_nil]
      simp
    have hok2 : blocksOk [(0, []), (0, [])] :=
      ⟨patFree_nil, patFree_nil, trivial⟩
    have hrc := restore_chain [codeMarkup lang body] [(0, []), (0, [])] []
      ([] ++ blocksStr [(0, []), (0, [])]).length patFree_nil hok2 le_rfl
    have hrestore : scan (matchRestoreAt [codeMarkup lang body])
        (tok 0 ++ (tok 0 ++ [])) =
        codeMarkup lang body ++ codeMarkup lang body := by
      rw [scan, hchain]
      rw [hrc]
      rw [show restoreBlocks [codeMarkup lang body] [(0, []), (0, [])] =
        [codeMarkup lang body].getD 0 "undefined".toList ++
          ([] ++ ([codeMarkup lang body].getD 0 "undefined".toList ++
            ([] ++ restoreBlocks [codeMarkup lang body] []) )) from rfl]
      rw [show restoreBlocks [codeMarkup lang body] [] = [] from rfl]
      rw [show [codeMarkup lang body].getD 0 "undefined".toList =
        codeMarkup lang body from rfl]
      simp
    show scan (matchRestoreAt (extractFences s.toList []).2)
        (scan matchLinkAt (scan matchCodeTickAt (scan matchItalicAt
          (scan matchBoldAt (escapeHTML (extractFences s.toList []).1))))) =
        _
    rw [hescres, hsc1, hsc2, hsc3, hsc4]
    rw [show (extractFences s.toList []).2 = [codeMarkup lang body] from by
      rw [hEx]]
    exact hrestore

/-- C10 witness: the amended theorem applied to concrete inputs.  For
`"a__CODEBLOCK_5__b"` (no fences) the token becomes `undefined`; for
`"__CODEBLOCK_0__```a\nb````" the output is the block markup twice. -/
theorem placeholder_collision_witness :
    ("undefined".toList <:+:
        (parseMarkdown "a__CODEBLOCK_5__b").data ∧
      ¬ "__CODEBLOCK_".toList <:+:
        (parseMarkdown "a__CODEBLOCK_5__b").data) ∧
    (parseMarkdown "__CODEBLOCK_0__```a\nb```").data =
      codeMarkup "a".toList "b".toList ++
        codeMarkup "a".toList "b".toList :=
  ⟨placeholder_collision.1 "a__CODEBLOCK_5__b" 5 "a".toList "b".toList
      (by decide) (by decide) (by decide) (by decide),
   placeholder_collision.2 "__CODEBLOCK_0__```a\nb```" "a".toList
      "b".toList (by decide) (by decide) (by decide)⟩

end ChatApp
